import Mathlib

/-!
Verification of the `type-inference-survey` repository: a shallow embedding of
its type-inference pipeline (`src/type-inference/`) and of its term-unification
algorithms (`src/unification/`), with theorems settling the specification
claims.

Conventions of the embedding:
* Python exceptions are modelled by the `PyErr` type; functions that can raise
  return `Except PyErr _`.
* Python attribute errors (reading an attribute that the class does not
  define) are modelled by `PyErr.attrError`; a bare failing `assert` statement
  by `PyErr.assertionError`; `raise Exception(msg)` by `PyErr.exc msg`.
* `while` loops are embedded with an explicit fuel parameter; `none` means the
  fuel ran out (the loop was still running), `some r` means the loop finished
  with result `r`.
* Python `dict`s are embedded as insertion-ordered association lists
  (`List (String × _)`), Python `set`s as insertion-ordered duplicate-free
  lists.  Where the source iterates over a `set` (whose order CPython leaves
  unspecified) the embedding fixes first-insertion order.
-/

deriving instance DecidableEq for Except

namespace TypeInf

/-- Python exception values raised by the embedded code. -/
inductive PyErr where
  /-- `AttributeError`: reading an attribute the object does not have
      (e.g. `term.args` on a `TypeApplication`, which only defines
      `arg` and `ret`). -/
  | attrError
  /-- A bare `assert` statement failing (`AssertionError`, no message). -/
  | assertionError
  /-- `assert cond, msg` failing (`AssertionError` carrying a message). -/
  | assertionMsg (msg : String)
  /-- `IndexError` from an out-of-range sequence index. -/
  | indexError
  /-- `RecursionError` (or, in this embedding, an internal recursion bound
      being exceeded). -/
  | recursionError
  /-- `ValueError` (e.g. `list.remove(x)` with `x` not in the list). -/
  | valueError
  /-- `KeyError` from a missing dict key. -/
  | keyError (key : String)
  /-- `raise Exception(msg)`. -/
  | exc (msg : String)
deriving DecidableEq, Repr

/-- Types of `src/type-inference/constructs.py`: `TypeVariable`,
`TypeConstant`, `TypeApplication` (fields `arg` and `ret`), `TypeList`
(field `el_type`).  Structural equality matches the `__eq__` methods. -/
inductive Ty where
  | tyVar (name : String)
  | tyCon (name : String)
  | tyApp (arg : Ty) (ret : Ty)
  | tyList (el : Ty)
deriving DecidableEq, Repr

namespace Ty

/-- `__str__` of the four `Type` classes in `constructs.py`. -/
def str : Ty → String
  | .tyVar n => n
  | .tyCon n => n
  | .tyApp a r =>
    match a with
    | .tyApp _ _ => "(" ++ a.str ++ ") -> " ++ r.str
    | _ => a.str ++ " -> " ++ r.str
  | .tyList e =>
    match e with
    | .tyApp _ _ => "(" ++ e.str ++ ")[]"
    | _ => e.str ++ "[]"

end Ty

/-- `occurs(var, term)` from `src/type-inference/type_unification.py`.

The source checks `var == term`, then `isinstance(term, TypeVariable)`,
then `isinstance(term, TypeApplication)` — in which case it evaluates
`any(occurs(var, arg) for arg in term.args)`.  `TypeApplication`
(`constructs.py`) defines the attributes `arg` and `ret` only, so reading
`term.args` raises `AttributeError`; that branch is therefore an error.
The `TypeList` branch recurses into `term.el_type` and the final branch
returns `False`. -/
def occurs (var : String) (term : Ty) : Except PyErr Bool :=
  if term = Ty.tyVar var then .ok true
  else match term with
    | .tyVar _ => .ok false
    | .tyApp _ _ => .error .attrError
    | .tyList el => occurs var el
    | .tyCon _ => .ok false

/-- `apply_substitution(term, x, t)` from `type_unification.py`.

The `TypeApplication` branch evaluates `term.args` (and `term._ret`),
attributes that `TypeApplication` does not define, hence `AttributeError`.
The `TypeList` branch rebuilds the list node, the variable branch replaces
`x`, everything else passes through. -/
def apply_substitution (term : Ty) (x : String) (t : Ty) : Except PyErr Ty :=
  match term with
  | .tyApp _ _ => .error .attrError
  | .tyList el =>
    match apply_substitution el x t with
    | .error e => .error e
    | .ok el' => .ok (.tyList el')
  | .tyVar n => if n = x then .ok t else .ok (.tyVar n)
  | .tyCon n => .ok (.tyCon n)

/-- Applying `x ↦ t` to both sides of every remaining equation — the list
comprehension inside the Eliminate rule of `unify`. -/
def mapEqs (eqs : List (Ty × Ty)) (x : String) (t : Ty) :
    Except PyErr (List (Ty × Ty)) :=
  match eqs with
  | [] => .ok []
  | (u, v) :: rest =>
    match apply_substitution u x t with
    | .error e => .error e
    | .ok u' =>
      match apply_substitution v x t with
      | .error e => .error e
      | .ok v' =>
        match mapEqs rest x t with
        | .error e => .error e
        | .ok rest' => .ok ((u', v') :: rest')

/-- The `for name in substitutions.keys(): substitutions[name] = …` loop of
the Eliminate rule: apply `x ↦ t` to every value of the substitution dict,
keeping keys and insertion order. -/
def mapSubstVals (subst : List (String × Ty)) (x : String) (t : Ty) :
    Except PyErr (List (String × Ty)) :=
  match subst with
  | [] => .ok []
  | (n, v) :: rest =>
    match apply_substitution v x t with
    | .error e => .error e
    | .ok v' =>
      match mapSubstVals rest x t with
      | .error e => .error e
      | .ok rest' => .ok ((n, v') :: rest')

/-- `d[k] = v` on an insertion-ordered dict: update in place if the key
exists, append otherwise. -/
def dictSet {α : Type} (d : List (String × α)) (k : String) (v : α) :
    List (String × α) :=
  if d.any (fun p => p.1 = k) then
    d.map (fun p => if p.1 = k then (k, v) else p)
  else d ++ [(k, v)]

/-- `d.get(k)` / `d[k]` lookup on an insertion-ordered dict. -/
def dictLookup {α : Type} (d : List (String × α)) (k : String) : Option α :=
  (d.find? (fun p => p.1 = k)).map Prod.snd

/-- The `while` loop of `unify(equations)` in `type_unification.py`, with
explicit fuel.  State: the remaining equation list and the substitution
dict built so far.  The branch order and actions mirror the source:
Delete, constant clash, `TypeApplication` decompose (which evaluates
`t1.args` and so raises `AttributeError`), `TypeList` decompose, Swap,
occurs-check / Eliminate, and the final stuck failure. -/
def unifyGo : Nat → List (Ty × Ty) → List (String × Ty) →
    Option (Except PyErr (List (String × Ty)))
  | 0, _, _ => none
  | _ + 1, [], subst => some (.ok subst)
  | n + 1, (t1, t2) :: eqs, subst =>
    if t1 = t2 then
      unifyGo n eqs subst
    else match t1, t2 with
      | .tyCon _, .tyCon _ =>
        some (.error (.exc ("Incompatible types " ++ t1.str ++ " and " ++ t2.str)))
      | .tyApp _ _, .tyApp _ _ =>
        -- source: `if len(t1.args) == len(t2.args)` — `AttributeError`
        some (.error .attrError)
      | .tyList e1, .tyList e2 =>
        unifyGo n ((e1, e2) :: eqs) subst
      | .tyVar a, _ =>
        match occurs a t2 with
        | .error e => some (.error e)
        | .ok true => some (.error (.exc "Error: circular use of variable"))
        | .ok false =>
          match mapEqs eqs a t2 with
          | .error e => some (.error e)
          | .ok eqs' =>
            match mapSubstVals subst a t2 with
            | .error e => some (.error e)
            | .ok subst' => unifyGo n eqs' (dictSet subst' a t2)
      | _, .tyVar m =>
        unifyGo n ((Ty.tyVar m, t1) :: eqs) subst
      | _, _ =>
        some (.error (.exc ("Failed to unify term " ++ t1.str ++ " = " ++ t2.str)))

/-- `unify(equations)`: run the loop from the empty substitution. -/
def unify (fuel : Nat) (equations : List (Ty × Ty)) :
    Option (Except PyErr (List (String × Ty))) :=
  unifyGo fuel equations []

/-! Pure (total) companions used to state properties about the results of
`unify`: precise variable occurrence, single substitution, and application
of a substitution map, extended homomorphically as in the specification's
§4.B / glossary notion of substitution. -/

/-- `x` occurs (as a `TyVar`) anywhere in `t` — the mathematical occurs
relation, total on all four constructors. -/
def occursPure (x : String) : Ty → Bool
  | .tyVar n => n = x
  | .tyCon _ => false
  | .tyApp a r => occursPure x a || occursPure x r
  | .tyList e => occursPure x e

/-- Mathematical single substitution `t1 ↦ t2`, total on all constructors. -/
def substPure (x : String) (t : Ty) : Ty → Ty
  | .tyVar n => if n = x then t else .tyVar n
  | .tyCon n => .tyCon n
  | .tyApp a r => .tyApp (substPure x t a) (substPure x t r)
  | .tyList e => .tyList (substPure x t e)

/-- Modelled from the spec: `apply_substitution(t, σ)` of §4.B, the
"variable-lookup version where σ maps name → term; unknown variables pass
through unchanged", extended homomorphically to the type constructors. -/
def applyMap (σ : List (String × Ty)) : Ty → Ty
  | .tyVar n =>
    match dictLookup σ n with
    | some v => v
    | none => .tyVar n
  | .tyCon n => .tyCon n
  | .tyApp a r => .tyApp (applyMap σ a) (applyMap σ r)
  | .tyList e => .tyList (applyMap σ e)

end TypeInf

namespace TypeInf

/-- `PolymorphicTypeVar` from `constructs.py`: a counter `_n` and a dict
`_types` mapping type-variable names to the rendered `'a`, `'b`, …. -/
structure PTV where
  n : Nat
  types : List (String × String)
deriving DecidableEq, Repr

/-- `LETTERS` of `PolymorphicTypeVar`. -/
def ptvLetters : String := "abcdefghijklmnopqrstuvwxyz"

/-- `PolymorphicTypeVar.get_type`: allocate `'a`, `'b`, … at first
appearance.  `self.LETTERS[self._n]` raises `IndexError` when more than 26
distinct variables appear. -/
def PTV.get (ptv : PTV) (varName : String) : Except PyErr (String × PTV) :=
  match dictLookup ptv.types varName with
  | some s => .ok (s, ptv)
  | none =>
    match ptvLetters.toList.get? ptv.n with
    | none => .error .indexError
    | some c =>
      let rendered := "'" ++ String.mk [c]
      .ok (rendered, { n := ptv.n + 1,
                       types := dictSet ptv.types varName rendered })

/-- The `type_str` methods of the four `Type` classes, with the
`PolymorphicTypeVar` threaded through.

Note the `TypeList.type_str` body (`constructs.py` line 153): after
computing `el_type = self.el_type.type_str(ptv)` it returns the literal
string `f"(el)[]"` — the f-string has no placeholder — whenever the element
type is a `TypeApplication`.  The computed `el_type` string is discarded
(but the renamer state it advanced is kept). -/
def typeStr : Ty → PTV → Except PyErr (String × PTV)
  | .tyVar n, ptv => PTV.get ptv n
  | .tyCon n, ptv => .ok (n, ptv)
  | .tyApp a r, ptv => do
    let (argS, ptv) ← typeStr a ptv
    let (retS, ptv) ← typeStr r ptv
    match a with
    | .tyApp _ _ => return ("(" ++ argS ++ ") -> " ++ retS, ptv)
    | _ => return (argS ++ " -> " ++ retS, ptv)
  | .tyList e, ptv => do
    let (elS, ptv) ← typeStr e ptv
    match e with
    | .tyApp _ _ => return ("(el)[]", ptv)
    | _ => return (elS ++ "[]", ptv)

/-- `type_str()` called with `ptv = None`: a fresh `PolymorphicTypeVar` is
allocated. -/
def typeStrTop (t : Ty) : Except PyErr String :=
  (typeStr t { n := 0, types := [] }).map Prod.fst

end TypeInf

namespace TypeInf

/-!
### Scope, type symbols, and the equation generator

`microml/ast.py` gives every non-`Id` expression a `TypeSymbol`: a mutable
cell whose `type` property raises when read before being assigned.
`scope.py` maps identifiers to such cells, with a parent chain.

The embedding makes the mutable cells explicit: a `GenState` carries the
store of all `TypeSymbol` cells (each cell an `Option Ty`, `none` =
unassigned) together with the `TypeVarGenerator` counter; scopes map names
to store indices.
-/

/-- Generator state: the `TypeVarGenerator` counter `_n` and the store of
`TypeSymbol` cells (index = identity of the cell, value = `_type`). -/
structure GenState where
  tvgN : Nat
  store : List (Option Ty)
deriving DecidableEq, Repr

/-- `TypeVarGenerator.next()`: returns `TypeVariable(f"t{n}")` and bumps
the counter. -/
def tvgNext (s : GenState) : Ty × GenState :=
  (Ty.tyVar ("t" ++ toString s.tvgN), { s with tvgN := s.tvgN + 1 })

/-- The `type` property getter of `TypeSymbol`: raises
`Exception("Error: accessing type symbol with no type")` when the cell has
not been assigned. -/
def symGet (st : GenState) (i : Nat) : Except PyErr Ty :=
  match st.store.get? i with
  | some (some t) => .ok t
  | some none => .error (.exc "Error: accessing type symbol with no type")
  | none => .error .attrError

/-- The `type` property setter of `TypeSymbol`. -/
def symSet (st : GenState) (i : Nat) (t : Ty) : GenState :=
  { st with store := st.store.set i (some t) }

/-- `Scope` from `scope.py`: a chain of frames, innermost first.  Each
frame is the `_symbols` dict of one `Scope` object (name → cell index);
the tail of the list is the `_parent` chain (`[]` = no parent). -/
abbrev Sc := List (List (String × Nat))

/-- `Scope.create(id)`: raise if the id is already in the current frame,
otherwise insert a fresh `TypeSymbol()` (an unassigned cell) into the
current frame. -/
def Sc.create : Sc → GenState → String → Except PyErr (Sc × GenState)
  | [], _, _ =>
    -- a `Scope` object always has a `_symbols` dict; the empty chain is
    -- unreachable from the embedding entry points
    .error .attrError
  | syms :: par, st, id =>
    if syms.any (fun p => p.1 = id) then
      .error (.exc ("Identifier " ++ id ++ " already exists in scope"))
    else
      .ok ((syms ++ [(id, st.store.length)]) :: par,
           { st with store := st.store ++ [none] })

/-- `Scope.lookup(id)`: current frame first, then the parent chain; at the
root, raise `Exception(f"{id} not found")`. -/
def Sc.lookup : Sc → String → Except PyErr Nat
  | [], id => .error (.exc (id ++ " not found"))
  | syms :: par, id =>
    match syms.find? (fun p => p.1 = id) with
    | some p => .ok p.2
    | none => Sc.lookup par id

/-- Micro-ML expressions (`microml/ast.py`).  The literal payloads of
`RealLiteral` are not inspected by the equation generator, so the float is
not carried. -/
inductive Expr where
  | ifE (condition thenE elseE : Expr)
  | letE (var : String) (val : Expr) (body : Expr)
  | idE (id : String)
  | callE (funcExpr arg : Expr)
  | fnE (params : List String) (body : Expr)
  | binE (op : String) (l r : Expr)
  | unE (op : String) (e : Expr)
  | unitE
  | intL (val : Int)
  | realL
  | boolL (val : Bool)
deriving DecidableEq, Repr

/-- `TypeEquationGenerator._get_symbol(ast, scope)`: an `IdExpr` borrows
its cell from the scope, every other expression owns its cell — here, the
cell index the walk of that node produced. -/
def getSymbol (ast : Expr) (sc : Sc) (walked : Nat) : Except PyErr Nat :=
  match ast with
  | .idE id => sc.lookup id
  | _ => .ok walked

/-- Allocate the fresh cell for a non-`Id` node and assign it the next
type variable (`ast.symbol.type = self._tvg.next()`). -/
def newNodeCell (st : GenState) : Nat × GenState :=
  let (tv, st) := tvgNext st
  let idx := st.store.length
  (idx, { st with store := st.store ++ [some tv] })

/-- The parameter-creation loop shared by `_fn_expr` and
`_function_definition`: `create(param); lookup(param).type = next()` for
each parameter in order. -/
def createParams : List String → Sc → GenState → Except PyErr (Sc × GenState)
  | [], sc, st => .ok (sc, st)
  | p :: rest, sc, st => do
    let (sc, st) ← Sc.create sc st p
    let i ← sc.lookup p
    let (tv, st) := tvgNext st
    createParams rest sc (symSet st i tv)

/-- `TypeEquationGenerator._expression` and its per-construct helpers
(`type_inference.py`).  Returns the emitted equations, the node's symbol
(store index), and the updated state.  Equation order and the scopes used
at each `_get_symbol` call mirror the source; in particular `_let_expr`
fetches the symbol of the bound value with the *outer* scope. -/
def genExpr : Expr → Sc → GenState → Except PyErr (List (Ty × Ty) × Nat × GenState)
  | .idE id, sc, st => do
    -- `ast.symbol = self._get_symbol(ast, scope)`; the IdExpr case emits
    -- no equations (the `# TODO` branch returns []).
    let i ← sc.lookup id
    return ([], i, st)
  | .ifE c t e, sc, st => do
    let (i, st) := newNodeCell st
    let (eqc, ic, st) ← genExpr c sc st
    let (eqt, it, st) ← genExpr t sc st
    let (eqe, ie, st) ← genExpr e sc st
    let condSym ← getSymbol c sc ic
    let condTy ← symGet st condSym
    let selfTy ← symGet st i
    let thenSym ← getSymbol t sc it
    let thenTy ← symGet st thenSym
    let elseSym ← getSymbol e sc ie
    let elseTy ← symGet st elseSym
    return (eqc ++ eqt ++ eqe ++
      [(condTy, .tyCon "bool"), (selfTy, thenTy), (selfTy, elseTy)], i, st)
  | .letE v val body, sc, st => do
    let (i, st) := newNodeCell st
    -- inside_let = Scope(scope); create(var); lookup(var).type = next()
    let insideLet : Sc := [] :: sc
    let (insideLet, st) ← Sc.create insideLet st v
    let iv ← insideLet.lookup v
    let (tv, st) := tvgNext st
    let st := symSet st iv tv
    let (eqv, ival, st) ← genExpr val insideLet st
    let (eqb, ibody, st) ← genExpr body insideLet st
    -- `(inside_let.lookup(var).type, self._get_symbol(val, scope).type)`:
    -- note the *outer* scope in the second fetch.
    let ivar ← insideLet.lookup v
    let varTy ← symGet st ivar
    let valSym ← getSymbol val sc ival
    let valTy ← symGet st valSym
    let bodySym ← getSymbol body insideLet ibody
    let bodyTy ← symGet st bodySym
    let selfTy ← symGet st i
    return (eqv ++ eqb ++ [(varTy, valTy), (selfTy, bodyTy)], i, st)
  | .callE f a, sc, st => do
    let (i, st) := newNodeCell st
    let (eqf, ifn, st) ← genExpr f sc st
    let (eqa, ia, st) ← genExpr a sc st
    let fSym ← getSymbol f sc ifn
    let fTy ← symGet st fSym
    let aSym ← getSymbol a sc ia
    let aTy ← symGet st aSym
    let selfTy ← symGet st i
    return (eqf ++ eqa ++ [(fTy, .tyApp aTy selfTy)], i, st)
  | .fnE params body, sc, st => do
    let (i, st) := newNodeCell st
    let insideFn : Sc := [] :: sc
    let (insideFn, st) ← createParams params insideFn st
    let (eqb, ibody, st) ← genExpr body insideFn st
    let paramTypes ← params.mapM (fun p => do
      let ip ← insideFn.lookup p
      symGet st ip)
    let paramTypes := if paramTypes.isEmpty then [Ty.tyCon "unit"] else paramTypes
    let bodySym ← getSymbol body insideFn ibody
    let bodyTy ← symGet st bodySym
    let fnTy := paramTypes.foldr (fun p acc => Ty.tyApp p acc) bodyTy
    let selfTy ← symGet st i
    return (eqb ++ [(selfTy, fnTy)], i, st)
  | .binE op l r, sc, st => do
    let (i, st) := newNodeCell st
    let (eql, il, st) ← genExpr l sc st
    let (eqr, ir, st) ← genExpr r sc st
    let lSym ← getSymbol l sc il
    let lTy ← symGet st lSym
    let rSym ← getSymbol r sc ir
    let rTy ← symGet st rSym
    let selfTy ← symGet st i
    if op = "==" || op = "!=" || op = "<" || op = ">" || op = "<=" || op = ">=" then
      return (eql ++ eqr ++ [(selfTy, .tyCon "bool"), (lTy, rTy)], i, st)
    else if op = "+" || op = "-" || op = "*" then
      return (eql ++ eqr ++ [(selfTy, .tyCon "int"), (lTy, .tyCon "int"),
        (rTy, .tyCon "int")], i, st)
    else if op = "/" then
      return (eql ++ eqr ++ [(selfTy, .tyCon "real"), (lTy, .tyCon "real"),
        (rTy, .tyCon "real")], i, st)
    else if op = "and" || op = "or" then
      return (eql ++ eqr ++ [(selfTy, .tyCon "bool"), (lTy, .tyCon "bool"),
        (rTy, .tyCon "bool")], i, st)
    else
      .error (.exc ("Unrecognized binary operator " ++ op))
  | .unE op e, sc, st => do
    let (i, st) := newNodeCell st
    let (eqe, ie, st) ← genExpr e sc st
    let eSym ← getSymbol e sc ie
    let eTy ← symGet st eSym
    let selfTy ← symGet st i
    if op = "-" then
      return (eqe ++ [(selfTy, .tyCon "int"), (eTy, .tyCon "int")], i, st)
    else if op = "not" then
      return (eqe ++ [(selfTy, .tyCon "bool"), (eTy, .tyCon "bool")], i, st)
    else
      .error (.exc ("Unrecognized unary operator " ++ op))
  | .unitE, _, st => do
    let (i, st) := newNodeCell st
    let selfTy ← symGet st i
    return ([(selfTy, .tyCon "unit")], i, st)
  | .intL _, _, st => do
    let (i, st) := newNodeCell st
    let selfTy ← symGet st i
    return ([(selfTy, .tyCon "int")], i, st)
  | .realL, _, st => do
    let (i, st) := newNodeCell st
    let selfTy ← symGet st i
    return ([(selfTy, .tyCon "real")], i, st)
  | .boolL _, _, st => do
    let (i, st) := newNodeCell st
    let selfTy ← symGet st i
    return ([(selfTy, .tyCon "bool")], i, st)

/-- `TypeEquationGenerator._function_definition`: create the function in
the outer scope, give it a fresh type variable, build the child scope with
the parameters, walk the body, and emit the final equation
`(scope.lookup(func_name).type, param1 -> … -> return type)` (a zero-
parameter definition uses `unit` as the single argument type).  Returns
the equations, the updated outer scope, and the state. -/
def genFunDef (funcName : String) (params : List String) (body : Expr)
    (sc : Sc) (st : GenState) :
    Except PyErr (List (Ty × Ty) × Sc × GenState) := do
  let (sc, st) ← Sc.create sc st funcName
  let iF ← sc.lookup funcName
  let (tv, st) := tvgNext st
  let st := symSet st iF tv
  let insideFunction : Sc := [] :: sc
  let (insideFunction, st) ← createParams params insideFunction st
  let (eqs, ibody, st) ← genExpr body insideFunction st
  let paramTypes ← params.mapM (fun p => do
    let ip ← insideFunction.lookup p
    symGet st ip)
  let paramTypes := if paramTypes.isEmpty then [Ty.tyCon "unit"] else paramTypes
  let bodySym ← getSymbol body insideFunction ibody
  let retTy ← symGet st bodySym
  let funTy := paramTypes.foldr (fun p acc => Ty.tyApp p acc) retTy
  let iF2 ← sc.lookup funcName
  let lhsTy ← symGet st iF2
  return (eqs ++ [(lhsTy, funTy)], sc, st)

/-- `create_global_scope(tvg)`: the prelude bindings `hd`, `null`, `nil`,
`cons`, `tl`, each with one fresh type variable, in source order. -/
def create_global_scope (st : GenState) : Except PyErr (Sc × GenState) := do
  let sc : Sc := [[]]
  let (sc, st) ← Sc.create sc st "hd"
  let ihd ← sc.lookup "hd"
  let (g0, st) := tvgNext st
  let st := symSet st ihd (Ty.tyApp (.tyList g0) g0)
  let (sc, st) ← Sc.create sc st "null"
  let inull ← sc.lookup "null"
  let (g1, st) := tvgNext st
  let st := symSet st inull (Ty.tyApp (.tyList g1) (.tyCon "bool"))
  let (sc, st) ← Sc.create sc st "nil"
  let inil ← sc.lookup "nil"
  let (g2, st) := tvgNext st
  let st := symSet st inil (Ty.tyList g2)
  let (sc, st) ← Sc.create sc st "cons"
  let icons ← sc.lookup "cons"
  let (g3, st) := tvgNext st
  let st := symSet st icons (Ty.tyApp g3 (.tyApp (.tyList g3) (.tyList g3)))
  let (sc, st) ← Sc.create sc st "tl"
  let itl ← sc.lookup "tl"
  let (g4, st) := tvgNext st
  let st := symSet st itl (Ty.tyApp (.tyList g4) (.tyList g4))
  return (sc, st)

/-- A top-level `FunctionDefinition(name, params, body)`. -/
structure FunDef where
  funcName : String
  params : List String
  body : Expr
deriving DecidableEq, Repr

/-- `type_infer(ast, scope, tvg)` for a `FunctionDefinition`: generate the
equations, solve them with `unify`, overwrite the function's symbol with
`substitutions[symbol.type.name]` (a plain dict index — `KeyError` when
absent), and render the `name : type` line with `type_str()`.  The
`assert isinstance(symbol.type, TypeVariable)` is modelled by
`assertionError`.  Returns the printed line, the updated scope, and the
updated state; `none` when the unification fuel runs out. -/
def type_infer (fuel : Nat) (ast : FunDef) (sc : Sc) (st : GenState) :
    Option (Except PyErr (String × Sc × GenState)) :=
  match genFunDef ast.funcName ast.params ast.body sc st with
  | .error e => some (.error e)
  | .ok (equations, sc, st) =>
    match unify fuel equations with
    | none => none
    | some (.error e) => some (.error e)
    | some (.ok substitutions) =>
      some (do
        let iF ← sc.lookup ast.funcName
        let fTy ← symGet st iF
        match fTy with
        | .tyVar name =>
          match dictLookup substitutions name with
          | none => .error (.keyError name)
          | some solved =>
            let st := symSet st iF solved
            let rendered ← typeStrTop solved
            return (ast.funcName ++ " : " ++ rendered, sc, st)
        | _ => .error .assertionError)

/-- `type_infer_code(asts)`: fresh generator, global scope, then
`type_infer` on each definition in order, collecting the printed lines. -/
def type_infer_code (fuel : Nat) (asts : List FunDef) :
    Option (Except PyErr (List String)) :=
  let st0 : GenState := { tvgN := 0, store := [] }
  match create_global_scope st0 with
  | .error e => some (.error e)
  | .ok (sc, st) =>
    let rec go (asts : List FunDef) (sc : Sc) (st : GenState)
        (acc : List String) : Option (Except PyErr (List String)) :=
      match asts with
      | [] => some (.ok acc.reverse)
      | ast :: rest =>
        match type_infer fuel ast sc st with
        | none => none
        | some (.error e) => some (.error e)
        | some (.ok (line, sc, st)) => go rest sc st (acc ++ [line])
    go asts sc st []

end TypeInf

namespace TypeInf

/-! ### Claims C1, C2, C3, C9, C10 -/

set_option maxHeartbeats 1600000 in
/-- **C1.** The claim says the pipeline on `fun id x = x;` succeeds and
prints `id : 'a -> 'a`.  The code does not: `unify` (in
`type_unification.py`) still addresses `TypeApplication` through the
attributes `args`/`_ret` of an older n-ary representation, while
`constructs.py` defines `arg`/`ret`, so the Eliminate rule's occurs check
on the generated equation `t5 = t6 -> t6` raises `AttributeError` and the
run aborts instead of printing the principal type. -/
theorem c1_pipeline_id_raises_attribute_error :
    type_infer_code 100 [⟨"id", ["x"], Expr.idE "x"⟩]
      = some (.error .attrError) := by decide

/-- **C2.** The claim says a popped pair of two function types is
decomposed into `(arg1, arg2)` and `(ret1, ret2)` without failing.  In the
code this branch first evaluates `len(t1.args)`, and `TypeApplication`
has no attribute `args`, so every such pair raises `AttributeError`
instead: proved here for an arbitrary unequal pair of `TyApp`s at the
front of the queue, any fuel, any remaining queue and substitution. -/
theorem c2_tyapp_pair_raises_attribute_error (n : Nat) (a r a' r' : Ty)
    (eqs : List (Ty × Ty)) (subst : List (String × Ty))
    (hne : Ty.tyApp a r ≠ Ty.tyApp a' r') :
    unifyGo (n + 1) ((Ty.tyApp a r, Ty.tyApp a' r') :: eqs) subst
      = some (.error .attrError) := by
  simp only [unifyGo, if_neg hne]

/-- Witness for C2 at a concrete input: `(int -> int, int -> bool)`. -/
theorem c2_tyapp_pair_raises_attribute_error_witness :
    unifyGo 5 [(Ty.tyApp (Ty.tyCon "int") (Ty.tyCon "int"),
                Ty.tyApp (Ty.tyCon "int") (Ty.tyCon "bool"))] []
      = some (.error .attrError) :=
  c2_tyapp_pair_raises_attribute_error 4 _ _ _ _ _ _ (by decide)

/-- **C3.** The claim's premise — `unify` returning a substitution on the
equations generated for a function definition — never holds: the
generated list always ends with the equation
`(function's TyVar, TyApp …)`, and every path `unify` can take through it
(Eliminate's occurs check or `apply_substitution`, or the `TyApp`
decompose) dereferences the missing `args`/`_ret` attributes.  Shown at
the definition `fun id x = x`: the generated equations are
`[(t0, t1 -> t1)]` and `unify` on them raises `AttributeError` rather
than returning σ. -/
theorem c3_unify_never_returns_on_generated_equations :
    (genFunDef "id" ["x"] (Expr.idE "x") [[]]
        { tvgN := 0, store := [] }).map (fun r => r.1)
      = .ok [(Ty.tyVar "t0", Ty.tyApp (Ty.tyVar "t1") (Ty.tyVar "t1"))] ∧
    unify 10 [(Ty.tyVar "t0", Ty.tyApp (Ty.tyVar "t1") (Ty.tyVar "t1"))]
      = some (.error .attrError) :=
  ⟨rfl, rfl⟩

/-- **C9.** The claim says `TypeList.type_str` renders a list of functions
as the parenthesised element rendering followed by `[]`, e.g.
`('a -> 'b)[]`.  The source (`constructs.py` line 153) instead returns the
literal f-string `f"(el)[]"`, which contains no placeholder: the rendering
of the element type is computed and then discarded. -/
theorem c9_type_str_list_of_function_literal :
    typeStrTop (Ty.tyList (Ty.tyApp (Ty.tyVar "t0") (Ty.tyVar "t1")))
      = .ok "(el)[]" ∧ ("(el)[]" : String) ≠ "('a -> 'b)[]" :=
  ⟨rfl, by decide⟩

/-- `List.find?` skips a prefix on which the predicate never holds. -/
theorem find?_append_of_none {α : Type} (p : α → Bool) (l l' : List α)
    (h : l.find? p = none) : (l ++ l').find? p = l'.find? p := by
  induction l with
  | nil => rfl
  | cons a as ih =>
    by_cases hp : p a = true
    · rw [List.find?_cons_of_pos _ hp] at h
      cases h
    · rw [List.find?_cons_of_neg _ hp] at h
      rw [List.cons_append, List.find?_cons_of_neg _ hp]
      exact ih h

/-- **C10.** Reading the `type` property of an unassigned `TypeSymbol`
raises `Exception("Error: accessing type symbol with no type")`; in
particular, after any successful `Scope.create(name)` the cell that
`lookup(name)` returns is unassigned, and reading its `type` raises that
error rather than producing a default type. -/
theorem c10_fresh_symbol_type_raises (sc : Sc) (st : GenState) (id : String)
    (sc' : Sc) (st' : GenState) (h : Sc.create sc st id = .ok (sc', st')) :
    ∃ i, Sc.lookup sc' id = .ok i ∧
      symGet st' i = .error (.exc "Error: accessing type symbol with no type") := by
  match sc with
  | [] => rw [Sc.create] at h; cases h
  | syms :: par =>
    rw [Sc.create] at h
    by_cases hany : syms.any (fun p => p.1 = id)
    · rw [if_pos hany] at h
      cases h
    · rw [if_neg hany] at h
      injection h with h1
      injection h1 with hsc hst
      refine ⟨st.store.length, ?_, ?_⟩
      · rw [← hsc]
        have hnone : syms.find? (fun p => p.1 = id) = none := by
          rw [List.find?_eq_none]
          intro x hx hpx
          exact hany (List.any_eq_true.mpr ⟨x, hx, hpx⟩)
        rw [Sc.lookup, find?_append_of_none _ _ _ hnone]
        simp [List.find?]
      · rw [← hst, symGet]
        simp [List.get?_concat_length]

/-- Witness for C10: creating `"x"` in an empty scope and reading its
symbol's type. -/
theorem c10_fresh_symbol_type_raises_witness :
    ∃ i, Sc.lookup [[("x", 0)]] "x" = .ok i ∧
      symGet { tvgN := 0, store := [none] } i
        = .error (.exc "Error: accessing type symbol with no type") :=
  c10_fresh_symbol_type_raises [[]] { tvgN := 0, store := [] } "x"
    [[("x", 0)]] { tvgN := 0, store := [none] } rfl

end TypeInf

namespace TypeInf

/-! ### C4: idempotence of the substitution produced by `unify` -/

/-- When the embedded `occurs` returns without raising, it agrees with the
mathematical occurs check (success forces the term to be a chain of
`TyList`s over a leaf, where both notions coincide). -/
theorem occurs_ok {a : String} {t : Ty} {b : Bool} (h : occurs a t = .ok b) :
    occursPure a t = b := by
  induction t with
  | tyVar n =>
    rw [occurs] at h
    by_cases he : Ty.tyVar n = Ty.tyVar a
    · rw [if_pos he] at h
      have hn : n = a := by injection he
      have hb : true = b := by injection h
      subst hb
      simp [occursPure, hn]
    · rw [if_neg he] at h
      have hb : false = b := by injection h
      subst hb
      have hn : n ≠ a := fun hna => he (by rw [hna])
      simp [occursPure, hn]
  | tyCon n =>
    rw [occurs] at h
    rw [if_neg (by intro he; cases he)] at h
    have hb : false = b := by injection h
    subst hb
    simp [occursPure]
  | tyApp arg ret iha ihr =>
    rw [occurs] at h
    rw [if_neg (by intro he; cases he)] at h
    cases h
  | tyList el ih =>
    rw [occurs] at h
    rw [if_neg (by intro he; cases he)] at h
    exact ih h

/-- When the embedded `apply_substitution` returns without raising, its
result is the mathematical single substitution. -/
theorem apply_subst_ok {u : Ty} {x : String} {t u' : Ty}
    (h : apply_substitution u x t = .ok u') : u' = substPure x t u := by
  induction u generalizing u' with
  | tyVar n =>
    rw [apply_substitution] at h
    by_cases hn : n = x
    · rw [if_pos hn] at h
      have hb : t = u' := by injection h
      subst hb
      simp [substPure, hn]
    · rw [if_neg hn] at h
      have hb : Ty.tyVar n = u' := by injection h
      subst hb
      simp [substPure, hn]
  | tyCon n =>
    rw [apply_substitution] at h
    have hb : Ty.tyCon n = u' := by injection h
    subst hb
    simp [substPure]
  | tyApp arg ret iha ihr =>
    rw [apply_substitution] at h
    cases h
  | tyList el ih =>
    rw [apply_substitution] at h
    cases hel : apply_substitution el x t with
    | error e => rw [hel] at h; cases h
    | ok el' =>
      rw [hel] at h
      have hb : Ty.tyList el' = u' := by injection h
      subst hb
      simp [substPure, ih hel]

/-- Substituting `x ↦ t` removes `x` whenever `x` does not occur in `t`. -/
theorem occursPure_substPure_self {x : String} {t : Ty}
    (ht : occursPure x t = false) (u : Ty) :
    occursPure x (substPure x t u) = false := by
  induction u with
  | tyVar n =>
    by_cases hn : n = x
    · simp [substPure, hn, ht]
    · simp [substPure, hn, occursPure, hn]
  | tyCon n => simp [substPure, occursPure]
  | tyApp arg ret iha ihr => simp [substPure, occursPure, iha, ihr]
  | tyList el ih => simp [substPure, occursPure, ih]

/-- A variable absent from `u` and from `t` is absent from `u[x ↦ t]`. -/
theorem occursPure_substPure_other {y : String} {u t : Ty} {x : String}
    (hu : occursPure y u = false) (ht : occursPure y t = false) :
    occursPure y (substPure x t u) = false := by
  induction u with
  | tyVar n =>
    by_cases hn : n = x
    · simp [substPure, hn, ht]
    · simpa [substPure, hn] using hu
  | tyCon n => simp [substPure, occursPure]
  | tyApp arg ret iha ihr =>
    rw [occursPure, Bool.or_eq_false_iff] at hu
    simp [substPure, occursPure, iha hu.1, ihr hu.2]
  | tyList el ih =>
    rw [occursPure] at hu
    simp [substPure, occursPure, ih hu]

/-- Characterisation of a successful `mapEqs`. -/
theorem mapEqs_ok {eqs : List (Ty × Ty)} {x : String} {t : Ty}
    {eqs' : List (Ty × Ty)} (h : mapEqs eqs x t = .ok eqs') :
    eqs' = eqs.map (fun e => (substPure x t e.1, substPure x t e.2)) := by
  induction eqs generalizing eqs' with
  | nil =>
    rw [mapEqs] at h
    have hb : ([] : List (Ty × Ty)) = eqs' := by injection h
    subst hb
    simp
  | cons e rest ih =>
    obtain ⟨u, v⟩ := e
    rw [mapEqs] at h
    cases hu : apply_substitution u x t with
    | error er => rw [hu] at h; cases h
    | ok u' =>
      rw [hu] at h
      cases hv : apply_substitution v x t with
      | error er => rw [hv] at h; cases h
      | ok v' =>
        rw [hv] at h
        cases hr : mapEqs rest x t with
        | error er => rw [hr] at h; cases h
        | ok rest' =>
          rw [hr] at h
          have hb : (u', v') :: rest' = eqs' := by injection h
          subst hb
          rw [List.map_cons, ih hr, apply_subst_ok hu, apply_subst_ok hv]

/-- Characterisation of a successful `mapSubstVals`. -/
theorem mapSubstVals_ok {subst : List (String × Ty)} {x : String} {t : Ty}
    {subst' : List (String × Ty)} (h : mapSubstVals subst x t = .ok subst') :
    subst' = subst.map (fun p => (p.1, substPure x t p.2)) := by
  induction subst generalizing subst' with
  | nil =>
    rw [mapSubstVals] at h
    have hb : ([] : List (String × Ty)) = subst' := by injection h
    subst hb
    simp
  | cons p rest ih =>
    obtain ⟨n, v⟩ := p
    rw [mapSubstVals] at h
    cases hv : apply_substitution v x t with
    | error er => rw [hv] at h; cases h
    | ok v' =>
      rw [hv] at h
      cases hr : mapSubstVals rest x t with
      | error er => rw [hr] at h; cases h
      | ok rest' =>
        rw [hr] at h
        have hb : (n, v') :: rest' = subst' := by injection h
        subst hb
        rw [List.map_cons, ih hr, apply_subst_ok hv]

/-- `dictSet` is a plain append when the key is absent. -/
theorem dictSet_of_not_mem {α : Type} {d : List (String × α)} {k : String}
    (hk : ∀ p ∈ d, p.1 ≠ k) (v : α) : dictSet d k v = d ++ [(k, v)] := by
  rw [dictSet, if_neg]
  intro hany
  obtain ⟨p, hp, hpk⟩ := List.any_eq_true.mp hany
  exact hk p hp (by simpa using hpk)

/-- The loop invariant behind idempotence: no key of the accumulated
substitution occurs in any of its values. -/
def KeyClean (σ : List (String × Ty)) : Prop :=
  ∀ p ∈ σ, ∀ q ∈ σ, occursPure p.1 q.2 = false

/-- Companion invariant: no key of the accumulated substitution occurs in
any remaining equation. -/
def KeysNotInEqs (σ : List (String × Ty)) (eqs : List (Ty × Ty)) : Prop :=
  ∀ p ∈ σ, ∀ e ∈ eqs, occursPure p.1 e.1 = false ∧ occursPure p.1 e.2 = false

/-- Definitional unfolding of one `unify` loop iteration on a non-empty
queue (stated explicitly to keep the inner match intact). -/
theorem unifyGo_cons (n : Nat) (t1 t2 : Ty) (eqs : List (Ty × Ty))
    (subst : List (String × Ty)) :
    unifyGo (n + 1) ((t1, t2) :: eqs) subst =
      if t1 = t2 then unifyGo n eqs subst
      else match t1, t2 with
        | .tyCon _, .tyCon _ =>
          some (.error (.exc ("Incompatible types " ++ t1.str ++ " and " ++ t2.str)))
        | .tyApp _ _, .tyApp _ _ => some (.error .attrError)
        | .tyList e1, .tyList e2 => unifyGo n ((e1, e2) :: eqs) subst
        | .tyVar a, _ =>
          match occurs a t2 with
          | .error e => some (.error e)
          | .ok true => some (.error (.exc "Error: circular use of variable"))
          | .ok false =>
            match mapEqs eqs a t2 with
            | .error e => some (.error e)
            | .ok eqs' =>
              match mapSubstVals subst a t2 with
              | .error e => some (.error e)
              | .ok subst' => unifyGo n eqs' (dictSet subst' a t2)
        | _, .tyVar m => unifyGo n ((Ty.tyVar m, t1) :: eqs) subst
        | _, _ =>
          some (.error (.exc ("Failed to unify term " ++ t1.str ++ " = " ++ t2.str)))
      := rfl

/-- Definitional unfolding of the `unify` loop on the empty queue. -/
theorem unifyGo_nil (n : Nat) (subst : List (String × Ty)) :
    unifyGo (n + 1) [] subst = some (.ok subst) := rfl

/-- The Eliminate branch of the `unify` loop preserves the invariants:
auxiliary lemma stated on the branch body as it appears in `unifyGo`. -/
theorem keyClean_elim_aux (n : Nat) (a : String) (t2 : Ty)
    (eqs : List (Ty × Ty)) (subst σ : List (String × Ty))
    (ih : ∀ (eqs : List (Ty × Ty)) (subst σ : List (String × Ty)),
      unifyGo n eqs subst = some (.ok σ) →
      KeyClean subst → KeysNotInEqs subst eqs → KeyClean σ)
    (h : (match occurs a t2 with
          | .error e => some (.error e)
          | .ok true => some (.error (.exc "Error: circular use of variable"))
          | .ok false =>
            match mapEqs eqs a t2 with
            | .error e => some (.error e)
            | .ok eqs' =>
              match mapSubstVals subst a t2 with
              | .error e => some (.error e)
              | .ok subst' => unifyGo n eqs' (dictSet subst' a t2))
        = some (Except.ok σ))
    (hclean : KeyClean subst)
    (hnis : KeysNotInEqs subst ((Ty.tyVar a, t2) :: eqs)) :
    KeyClean σ := by
  cases hocc : occurs a t2 with
  | error er => rw [hocc] at h; cases h
  | ok b =>
    rw [hocc] at h
    cases b with
    | true => cases h
    | false =>
      have hoccp : occursPure a t2 = false := occurs_ok hocc
      cases hme : mapEqs eqs a t2 with
      | error er => rw [hme] at h; cases h
      | ok eqs' =>
        rw [hme] at h
        cases hms : mapSubstVals subst a t2 with
        | error er => rw [hms] at h; cases h
        | ok subst' =>
          rw [hms] at h
          have h : unifyGo n eqs' (dictSet subst' a t2) = some (Except.ok σ) := h
          -- `a` cannot already be a key of `subst`
          have hanew : ∀ p ∈ subst', p.1 ≠ a := by
            intro p hp hpa
            rw [mapSubstVals_ok hms] at hp
            obtain ⟨q, hq, hqp⟩ := List.mem_map.mp hp
            have := (hnis q hq (Ty.tyVar a, t2)
              (List.mem_cons_self _ _)).1
            rw [show q.1 = a by rw [← hqp] at hpa; exact hpa] at this
            simp [occursPure] at this
          rw [dictSet_of_not_mem hanew t2] at h
          refine ih eqs' (subst' ++ [(a, t2)]) σ h ?_ ?_
          · -- KeyClean of the extended substitution
            intro p hp q hq
            rw [mapSubstVals_ok hms] at hp hq
            rcases List.mem_append.mp hp with hp | hp <;>
              rcases List.mem_append.mp hq with hq | hq
            · obtain ⟨p0, hp0, hp0e⟩ := List.mem_map.mp hp
              obtain ⟨q0, hq0, hq0e⟩ := List.mem_map.mp hq
              rw [← hp0e, ← hq0e]
              exact occursPure_substPure_other
                (hclean p0 hp0 q0 hq0)
                (hnis p0 hp0 (Ty.tyVar a, t2) (List.mem_cons_self _ _)).2
            · obtain ⟨p0, hp0, hp0e⟩ := List.mem_map.mp hp
              have hq' : q = (a, t2) := by simpa using hq
              rw [← hp0e, hq']
              exact (hnis p0 hp0 (Ty.tyVar a, t2)
                (List.mem_cons_self _ _)).2
            · obtain ⟨q0, hq0, hq0e⟩ := List.mem_map.mp hq
              have hp' : p = (a, t2) := by simpa using hp
              rw [← hq0e, hp']
              exact occursPure_substPure_self hoccp q0.2
            · have hp' : p = (a, t2) := by simpa using hp
              have hq' : q = (a, t2) := by simpa using hq
              rw [hp', hq']
              exact hoccp
          · -- KeysNotInEqs for the substituted remaining equations
            intro p hp e' he'
            rw [mapEqs_ok hme] at he'
            obtain ⟨e0, he0, he0e⟩ := List.mem_map.mp he'
            rcases List.mem_append.mp
              (by rw [mapSubstVals_ok hms] at hp; exact hp) with hpm | hpm
            · obtain ⟨p0, hp0, hp0e⟩ := List.mem_map.mp hpm
              have h1 := hnis p0 hp0 e0 (List.mem_cons_of_mem _ he0)
              have h2 := (hnis p0 hp0 (Ty.tyVar a, t2)
                (List.mem_cons_self _ _)).2
              rw [← he0e, ← hp0e]
              exact ⟨occursPure_substPure_other h1.1 h2,
                     occursPure_substPure_other h1.2 h2⟩
            · have hp' : p = (a, t2) := by simpa using hpm
              rw [hp', ← he0e]
              exact ⟨occursPure_substPure_self hoccp e0.1,
                     occursPure_substPure_self hoccp e0.2⟩

/-- The Swap branch of the `unify` loop preserves the invariants. -/
theorem keyClean_swap_aux (n : Nat) (t1 : Ty) (m : String)
    (eqs : List (Ty × Ty)) (subst σ : List (String × Ty))
    (ih : ∀ (eqs : List (Ty × Ty)) (subst σ : List (String × Ty)),
      unifyGo n eqs subst = some (.ok σ) →
      KeyClean subst → KeysNotInEqs subst eqs → KeyClean σ)
    (h : unifyGo n ((Ty.tyVar m, t1) :: eqs) subst = some (.ok σ))
    (hclean : KeyClean subst)
    (hnis : KeysNotInEqs subst ((t1, Ty.tyVar m) :: eqs)) :
    KeyClean σ := by
  refine ih _ subst σ h hclean ?_
  intro p hp e he
  rcases List.mem_cons.mp he with he | he
  · have := hnis p hp (t1, Ty.tyVar m) (List.mem_cons_self _ _)
    rw [he]
    exact ⟨this.2, this.1⟩
  · exact hnis p hp e (List.mem_cons_of_mem _ he)

/-- Main invariant lemma: a successful run of the `unify` loop started
from a clean state ends with a clean substitution. -/
theorem unifyGo_keyClean :
    ∀ (n : Nat) (eqs : List (Ty × Ty)) (subst σ : List (String × Ty)),
      unifyGo n eqs subst = some (.ok σ) →
      KeyClean subst → KeysNotInEqs subst eqs → KeyClean σ := by
  intro n
  induction n with
  | zero => intro eqs subst σ h; cases h
  | succ n ih =>
    intro eqs subst σ h hclean hnis
    match eqs with
    | [] =>
      rw [unifyGo_nil] at h
      injection h with h1
      injection h1 with h2
      rw [← h2]
      exact hclean
    | (t1, t2) :: eqs =>
      rw [unifyGo_cons] at h
      by_cases heq : t1 = t2
      · rw [if_pos heq] at h
        exact ih eqs subst σ h hclean
          (fun p hp e he => hnis p hp e (List.mem_cons_of_mem _ he))
      · rw [if_neg heq] at h
        have hlist : ∀ e1 e2 : Ty,
            unifyGo n ((e1, e2) :: eqs) subst = some (.ok σ) →
            KeysNotInEqs subst ((Ty.tyList e1, Ty.tyList e2) :: eqs) →
            KeyClean σ := by
          intro e1 e2 hrec hnis'
          refine ih _ subst σ hrec hclean ?_
          intro p hp e he
          rcases List.mem_cons.mp he with he | he
          · have := hnis' p hp (Ty.tyList e1, Ty.tyList e2)
              (List.mem_cons_self _ _)
            rw [he]
            exact ⟨this.1, this.2⟩
          · exact hnis' p hp e (List.mem_cons_of_mem _ he)
        cases t1 with
        | tyVar a =>
          cases t2 with
          | tyVar m => exact keyClean_elim_aux n a _ eqs subst σ ih h hclean hnis
          | tyCon c => exact keyClean_elim_aux n a _ eqs subst σ ih h hclean hnis
          | tyApp x y => exact keyClean_elim_aux n a _ eqs subst σ ih h hclean hnis
          | tyList e => exact keyClean_elim_aux n a _ eqs subst σ ih h hclean hnis
        | tyCon c =>
          cases t2 with
          | tyVar m => exact keyClean_swap_aux n _ m eqs subst σ ih h hclean hnis
          | tyCon c2 => cases h
          | tyApp x y => cases h
          | tyList e => cases h
        | tyApp x y =>
          cases t2 with
          | tyVar m => exact keyClean_swap_aux n _ m eqs subst σ ih h hclean hnis
          | tyCon c => cases h
          | tyApp x2 y2 => cases h
          | tyList e => cases h
        | tyList e1 =>
          cases t2 with
          | tyVar m => exact keyClean_swap_aux n _ m eqs subst σ ih h hclean hnis
          | tyCon c => cases h
          | tyApp x y => cases h
          | tyList e2 => exact hlist e1 e2 h hnis

end TypeInf

namespace TypeInf

/-- A successful `dictLookup` exposes a member of the association list. -/
theorem dictLookup_some {α : Type} {σ : List (String × α)} {n : String}
    {v : α} (h : dictLookup σ n = some v) : (n, v) ∈ σ := by
  rw [dictLookup] at h
  cases hf : σ.find? (fun p => p.1 = n) with
  | none => rw [hf] at h; cases h
  | some q =>
    rw [hf] at h
    have hq1 : q.1 = n := by simpa using List.find?_some hf
    have hq2 : q.2 = v := by injection h
    have := List.mem_of_find?_eq_some hf
    rw [← hq1, ← hq2]
    simpa using this

/-- A type containing no key of `σ` is a fixed point of `applyMap σ`. -/
theorem applyMap_of_no_keys (σ : List (String × Ty)) (v : Ty)
    (hv : ∀ p ∈ σ, occursPure p.1 v = false) : applyMap σ v = v := by
  induction v with
  | tyVar n =>
    rw [applyMap]
    cases hl : dictLookup σ n with
    | none => rfl
    | some w =>
      exfalso
      have hm := dictLookup_some hl
      have := hv (n, w) hm
      simp [occursPure] at this
  | tyCon n => rfl
  | tyApp a r iha ihr =>
    rw [applyMap]
    rw [iha fun p hp => ?_, ihr fun p hp => ?_]
    · have := hv p hp
      rw [occursPure, Bool.or_eq_false_iff] at this
      exact this.2
    · have := hv p hp
      rw [occursPure, Bool.or_eq_false_iff] at this
      exact this.1
  | tyList e ih =>
    rw [applyMap]
    rw [ih fun p hp => hv p hp]

/-- A `KeyClean` substitution is idempotent under `applyMap`. -/
theorem applyMap_applyMap (σ : List (String × Ty)) (hσ : KeyClean σ) (t : Ty) :
    applyMap σ (applyMap σ t) = applyMap σ t := by
  induction t with
  | tyVar n =>
    rw [applyMap]
    cases hl : dictLookup σ n with
    | none =>
      rw [applyMap, hl]
    | some v =>
      exact applyMap_of_no_keys σ v
        (fun p hp => hσ p hp (n, v) (dictLookup_some hl))
  | tyCon n => rfl
  | tyApp a r iha ihr => rw [applyMap, applyMap, iha, ihr]
  | tyList e ih => rw [applyMap, applyMap, ih]

/-- **C4.** Whenever the equation-list unifier returns a substitution σ,
no variable in the domain of σ occurs in any type in the image of σ, and
consequently applying σ (as a map, per §4.B) twice equals applying it
once. -/
theorem c4_unify_idempotent (n : Nat) (eqs : List (Ty × Ty))
    (σ : List (String × Ty)) (h : unify n eqs = some (.ok σ)) :
    (∀ p ∈ σ, ∀ q ∈ σ, occursPure p.1 q.2 = false) ∧
    ∀ t : Ty, applyMap σ (applyMap σ t) = applyMap σ t := by
  have hclean : KeyClean σ :=
    unifyGo_keyClean n eqs [] σ h (fun p hp => absurd hp (List.not_mem_nil p))
      (fun p hp => absurd hp (List.not_mem_nil p))
  exact ⟨hclean, applyMap_applyMap σ hclean⟩

/-- Witness for C4 on the equation list `[(x, int[])]`, whose solution is
`x ↦ int[]`. -/
theorem c4_unify_idempotent_witness :
    (∀ p ∈ [("x", Ty.tyList (Ty.tyCon "int"))],
      ∀ q ∈ [("x", Ty.tyList (Ty.tyCon "int"))], occursPure p.1 q.2 = false) ∧
    ∀ t : Ty,
      applyMap [("x", Ty.tyList (Ty.tyCon "int"))]
          (applyMap [("x", Ty.tyList (Ty.tyCon "int"))] t)
        = applyMap [("x", Ty.tyList (Ty.tyCon "int"))] t :=
  c4_unify_idempotent 5 [(Ty.tyVar "x", Ty.tyList (Ty.tyCon "int"))]
    [("x", Ty.tyList (Ty.tyCon "int"))] rfl

end TypeInf

namespace Unif

open TypeInf (PyErr)

/-- First-order terms of `src/unification/terms.py`: `Variable(name)` and
`Application(name, args)`.  `Constant(name)` is `Application(name, [])`.
Structural equality matches the `__eq__` methods (same name, same arity,
pointwise-equal arguments). -/
inductive Term where
  | var (name : String)
  | app (name : String) (args : List Term)

mutual
/-- Decidable structural equality for terms (mutually with argument
lists). -/
def Term.decEqAux : (a b : Term) → Decidable (a = b)
  | .var n, .var m =>
    if h : n = m then isTrue (by rw [h]) else
      isFalse (fun he => by injection he with hx; exact h hx)
  | .var _, .app _ _ => isFalse (fun he => by cases he)
  | .app _ _, .var _ => isFalse (fun he => by cases he)
  | .app f as, .app g bs =>
    if h : f = g then
      match Term.decEqListAux as bs with
      | isTrue h2 => isTrue (by rw [h, h2])
      | isFalse h2 => isFalse (fun he => by
          injection he with hf ha
          exact h2 ha)
    else isFalse (fun he => by injection he with hf ha; exact h hf)

/-- Decidable equality of term lists. -/
def Term.decEqListAux : (as bs : List Term) → Decidable (as = bs)
  | [], [] => isTrue rfl
  | [], _ :: _ => isFalse (fun he => by cases he)
  | _ :: _, [] => isFalse (fun he => by cases he)
  | a :: as, b :: bs =>
    match Term.decEqAux a b with
    | isTrue h1 =>
      match Term.decEqListAux as bs with
      | isTrue h2 => isTrue (by rw [h1, h2])
      | isFalse h2 => isFalse (fun he => by
          injection he with hh ht
          exact h2 ht)
    | isFalse h1 => isFalse (fun he => by
        injection he with hh ht
        exact h1 hh)
end

instance : DecidableEq Term := Term.decEqAux

instance : DecidableEq (List Term) := Term.decEqListAux

mutual
/-- `Term.__str__`: bare name for variables and nullary applications,
`f(a, b)` otherwise (`", ".join` over the argument strings). -/
def Term.str : Term → String
  | .var n => n
  | .app f [] => f
  | .app f (a :: rest) => f ++ "(" ++ Term.strArgs rest (Term.str a) ++ ")"

/-- Folding the remaining argument strings into the joined string. -/
def Term.strArgs : List Term → String → String
  | [], acc => acc
  | t :: ts, acc => Term.strArgs ts (acc ++ ", " ++ Term.str t)
end

/-- `isinstance(term, Variable)`. -/
def Term.isVar : Term → Bool
  | .var _ => true
  | .app _ _ => false

mutual
/-- `occurs(var, term)` from `src/unification/util.py`: `False` on
constants, name comparison on variables, recursive `any` over the
arguments of an application.  (A `Constant` is an `Application` with no
arguments; both match clauses return `False` for it.) -/
def occursT (v : String) : Term → Bool
  | .var n => n = v
  | .app _ args => occursTList v args

/-- `any(occurs(var, arg) for arg in args)`. -/
def occursTList (v : String) : List Term → Bool
  | [] => false
  | t :: ts => occursT v t || occursTList v ts
end

mutual
/-- `substitute(term, x, t)` from `util.py`. -/
def substituteT (term : Term) (x : String) (t : Term) : Term :=
  match term with
  | .var n => if n = x then t else .var n
  | .app f args => .app f (substituteTList args x t)

/-- The argument-list comprehension of `substitute`. -/
def substituteTList : List Term → String → Term → List Term
  | [], _, _ => []
  | a :: as, x, t => substituteT a x t :: substituteTList as x t
end

mutual
/-- `apply_substitution(term, substitution)` from `util.py`: dict lookup
with pass-through for unknown variables, recursive map over application
arguments. -/
def applySubstT (term : Term) (σ : List (String × Term)) : Term :=
  match term with
  | .var n =>
    match TypeInf.dictLookup σ n with
    | some t => t
    | none => .var n
  | .app f args => .app f (applySubstTList args σ)

/-- The argument-list comprehension of `apply_substitution`. -/
def applySubstTList : List Term → List (String × Term) → List Term
  | [], _ => []
  | a :: as, σ => applySubstT a σ :: applySubstTList as σ
end

/-- Insertion-ordered union of name lists (Python `set.update`). -/
def listUnion (acc xs : List String) : List String :=
  xs.foldl (fun a x => if x ∈ a then a else a ++ [x]) acc

mutual
/-- `term_vars(term)` from `util.py`: the set of variable names occurring
in the term, as an insertion-ordered duplicate-free list. -/
def termVars : Term → List String
  | .var n => [n]
  | .app _ args => termVarsList args []

/-- The `v.update(term_vars(arg))` loop of `term_vars`. -/
def termVarsList : List Term → List String → List String
  | [], acc => acc
  | a :: as, acc => termVarsList as (listUnion acc (termVars a))
end

/-!
### `UnionFind` (`src/unification/util.py`)

The `_parent` dict is modelled by its (fixed) key list together with a
total parent function; `union` only ever writes to keys that are existing
parents, and the call sites in `compactify` only pass keys, so the dict's
key set never changes after `__init__` (a missing-key access would be a
`KeyError` in Python; the total-function model does not track that, which
is faithful for every reachable call).  `find` carries fuel because its
termination depends on the parent graph being acyclic (in Python a cycle
would hit the recursion limit). -/
structure UF where
  keys : List String
  par : String → String

/-- `UnionFind(vars)`: every node its own parent; duplicate names collapse
(dict comprehension), keys in first-occurrence order. -/
def UF.init (vars : List String) : UF :=
  ⟨listUnion [] vars, fun v => v⟩

/-- `UnionFind.union(var1, var2)`: note it links `parent[var2]` under
`parent[var1]` — the *immediate parents*, not the roots. -/
def UF.union (uf : UF) (a b : String) : UF :=
  let p1 := uf.par a
  let p2 := uf.par b
  if p1 = p2 then uf
  else { uf with par := fun x => if x = p2 then p1 else uf.par x }

/-- `UnionFind.find(var)` with path compression, fuelled. -/
def UF.find (fuel : Nat) (uf : UF) (v : String) : Option (String × UF) :=
  match fuel with
  | 0 => none
  | fuel + 1 =>
    if uf.par v = v then some (v, uf)
    else
      match UF.find fuel uf (uf.par v) with
      | none => none
      | some (r, uf') =>
        some (r, { uf' with par := fun x => if x = v then r else uf'.par x })

/-- `UnionFind.union_all(vars)`: the argument at both call sites is a
generator, so `next(iter(vars))` consumes the first element and the
subsequent `for` loop unions it with each *remaining* element.  (Called
only with at least one element; on an empty generator `next` would raise
`StopIteration`.) -/
def UF.union_all (uf : UF) (vars : List String) : UF :=
  match vars with
  | [] => uf
  | v1 :: rest => rest.foldl (fun u v => u.union v1 v) uf

/-- The key-iteration loop of `get_sets`: find every key's root (mutating
the structure through compression) and group keys by root in
first-encounter order. -/
def UF.getSetsGo : List String → UF → List (String × List String) →
    Option (List (String × List String))
  | [], _, groups => some groups
  | v :: rest, uf, groups =>
    match UF.find (uf.keys.length + 1) uf v with
    | none => none
    | some (root, uf) =>
      let groups :=
        if groups.any (fun g => g.1 = root) then
          groups.map (fun g => if g.1 = root then (g.1, g.2 ++ [v]) else g)
        else groups ++ [(root, [v])]
      UF.getSetsGo rest uf groups

/-- `UnionFind.get_sets()`. -/
def UF.get_sets (uf : UF) : Option (List (List String)) :=
  (UF.getSetsGo uf.keys uf []).map (fun gs => gs.map Prod.snd)

end Unif

namespace Unif

/-! ### C7: `UnionFind.union` -/

/-- **C7 (counterexample).** `union` links child-of-*parent*, not
child-of-root, and unions do not always merge: after
`union("a","b"); union("c","a")`, the variables `c` and `a` share a root
(they were united), but the later `union("d","b")` re-parents `a`'s
parent away from `c`'s tree, leaving `c` in a singleton set of
`get_sets()` while `a` sits with `b` and `d`. -/
theorem c7_union_splits_counterexample :
    ((((UF.init ["a", "b", "c", "d"]).union "a" "b").union "c" "a").find 5 "c").map
        Prod.fst = some "c" ∧
    ((((UF.init ["a", "b", "c", "d"]).union "a" "b").union "c" "a").find 5 "a").map
        Prod.fst = some "c" ∧
    (((((UF.init ["a", "b", "c", "d"]).union "a" "b").union "c" "a").union "d" "b").find
        5 "c").map Prod.fst = some "c" ∧
    (((((UF.init ["a", "b", "c", "d"]).union "a" "b").union "c" "a").union "d" "b").find
        5 "a").map Prod.fst = some "d" ∧
    ((((UF.init ["a", "b", "c", "d"]).union "a" "b").union "c" "a").union "d" "b").get_sets
      = some [["a", "b", "d"], ["c"]] := by
  refine ⟨rfl, rfl, rfl, rfl, rfl⟩

/-- **C7 (amended).** What does hold: on a freshly initialised structure
over two distinct names, a single `union(a, b)` makes `find(a)` and
`find(b)` agree (both return root `a`). -/
theorem c7_union_fresh_find_eq (a b : String) (hab : a ≠ b) :
    (((UF.init [a, b]).union a b).find 2 a).map Prod.fst = some a ∧
    (((UF.init [a, b]).union a b).find 2 b).map Prod.fst = some a := by
  have hba : b ≠ a := fun h => hab h.symm
  constructor
  · simp [UF.union, UF.init, UF.find, hab, hba]
  · simp [UF.union, UF.init, UF.find, hab, hba]

/-- Witness for the amended C7 statement at `a := "x"`, `b := "y"`. -/
theorem c7_union_fresh_find_eq_witness :
    (((UF.init ["x", "y"]).union "x" "y").find 2 "x").map Prod.fst = some "x" ∧
    (((UF.init ["x", "y"]).union "x" "y").find 2 "y").map Prod.fst = some "x" :=
  c7_union_fresh_find_eq "x" "y" (by decide)

end Unif

namespace Unif

open TypeInf (PyErr dictLookup dictSet)

/-!
### Robinson's algorithm (`src/unification/robinson_algorithm.py`)

Python `set`s of terms are modelled as insertion-ordered duplicate-free
lists (`Term.__eq__` is structural, so set membership is structural).
-/

/-- Building a set from an iteration: drop structural duplicates, keep
first-occurrence order. -/
def setDedup (ts : List Term) : List Term :=
  ts.foldl (fun acc t => if t ∈ acc then acc else acc ++ [t]) []

/-- `substitution_all(terms, substitution)`: apply the substitution to
every term (a set comprehension, hence the dedup). -/
def substitution_all (terms : List Term) (σ : List (String × Term)) :
    List Term :=
  setDedup (terms.map (fun t => applySubstT t σ))

/-- `.name`, defined on every `Term`. -/
def Term.tname : Term → String
  | .var n => n
  | .app f _ => f

/-- `.arity()`, defined only on `Application`; the sites below evaluate it
only under a guard that excludes `Variable`s, so the `Variable` value of
this total version is never observed. -/
def Term.arityD : Term → Nat
  | .var _ => 0
  | .app _ as => as.length

mutual
/-- Total size of a term, used to bound the `disagreement_set`
recursion. -/
def termSize : Term → Nat
  | .var _ => 1
  | .app _ as => 1 + termListSize as

/-- Total size of a term list. -/
def termListSize : List Term → Nat
  | [] => 0
  | t :: ts => termSize t + termListSize ts
end

/-- `term.args[i]` for every term of the set (the comprehension inside the
argument loop of `disagreement_set`): `AttributeError` on a variable,
`IndexError` out of range. -/
def argsAt : List Term → Nat → Except PyErr (List Term)
  | [], _ => .ok []
  | .var _ :: _, _ => .error .attrError
  | .app _ as :: rest, i =>
    match as.get? i with
    | none => .error .indexError
    | some a =>
      match argsAt rest i with
      | .error e => .error e
      | .ok col => .ok (a :: col)

/-- `disagreement_set(terms)` from `robinson_algorithm.py`, fuelled
(each recursion level strictly decreases the total term size, so
`termListSize terms + 1` fuel always suffices; `none` = fuel ran out).
Branches in source order: singleton/empty → empty set; any variable →
the whole set; otherwise all terms are applications and the bare
`assert` demands a common head symbol and arity — a clash here raises
`AssertionError`, not a unification failure.  The `for i in range(arity)`
loop with its early `return` is expressed as a fold whose accumulator
freezes on the first non-empty (or raising) disagreement. -/
def disagreementGo : Nat → List Term → Option (Except PyErr (List Term))
  | 0, _ => none
  | fuel + 1, terms =>
    if terms.length ≤ 1 then some (.ok [])
    else if terms.any Term.isVar then some (.ok terms)
    else
      match terms with
      | [] => some (.ok [])
      | t :: _ =>
        match t with
        | .var _ => some (.error .attrError)
        | .app funcName args =>
          if terms.all (fun u => u.tname = funcName && u.arityD = args.length) then
            (List.range args.length).foldl
              (fun acc i =>
                match acc with
                | some (.ok []) =>
                  match argsAt terms i with
                  | .error e => some (.error e)
                  | .ok col => disagreementGo fuel (setDedup col)
                | frozen => frozen)
              (some (.ok []))
          else some (.error .assertionError)

/-- `lexical_order(terms)`: `sorted` with key `-1` for variables and `1`
for applications is a stable partition — variables first (in set order),
then applications (in set order). -/
def lexical_order (terms : List Term) : List Term :=
  terms.filter Term.isVar ++ terms.filter (fun t => !t.isVar)

/-- The `while True` loop of Robinson's `unify(terms)`, fuelled.  Apply
the substitution to the set; a singleton means success.  Otherwise order
the disagreement set, take its first two elements (`IndexError` when
fewer), and either compose `{s ↦ t}` into the substitution (variable
`s`, occurs check passes) or raise `Not unifiable`. -/
def unifyRobGo : Nat → List Term → List (String × Term) →
    Option (Except PyErr (List (String × Term)))
  | 0, _, _ => none
  | n + 1, terms, substitution =>
    let applied := substitution_all terms substitution
    if applied.length = 1 then some (.ok substitution)
    else
      match disagreementGo (termListSize applied + 1) applied with
      | none => none
      | some (.error e) => some (.error e)
      | some (.ok dset) =>
        match lexical_order dset with
        | [] => some (.error .indexError)
        | [_] => some (.error .indexError)
        | s :: t :: _ =>
          match s with
          | .var sname =>
            if occursT sname t then some (.error (.exc "Not unifiable"))
            else
              unifyRobGo n terms
                (dictSet (substitution.map
                  (fun p => (p.1, substituteT p.2 sname t))) sname t)
          | _ => some (.error (.exc "Not unifiable"))

/-- `unify(terms)`: start from the empty substitution. -/
def unifyRob (fuel : Nat) (terms : List Term) :
    Option (Except PyErr (List (String × Term))) :=
  unifyRobGo fuel terms []

end Unif

namespace Unif

open TypeInf (PyErr)

/-! ### C8: the clash failure mode of Robinson's `unify` -/

mutual
/-- The empty substitution is the identity. -/
theorem applySubstT_nil : ∀ t : Term, applySubstT t [] = t
  | .var n => by rw [applySubstT]; rfl
  | .app f args => by rw [applySubstT, applySubstTList_nil args]

/-- The empty substitution is the identity on argument lists. -/
theorem applySubstTList_nil : ∀ ts : List Term, applySubstTList ts [] = ts
  | [] => by rw [applySubstTList]
  | t :: ts => by rw [applySubstTList, applySubstT_nil t, applySubstTList_nil ts]
end

/-- Deduplicating a two-element list of distinct terms keeps both. -/
theorem setDedup_pair {a b : Term} (h : a ≠ b) : setDedup [a, b] = [a, b] := by
  have hba : b ≠ a := fun he => h he.symm
  simp [setDedup, hba]

/-- **C8 (amended).** Unifying two applications with distinct head symbols
or distinct arities does fail — but with the bare `AssertionError` raised
by `disagreement_set`'s common-head assertion, not with the
`Not unifiable` exception (which `unify` raises only when the chosen
disagreement pair fails the variable/occurs test). -/
theorem c8_clash_raises_assertion (n : Nat) (f g : String)
    (as bs : List Term) (hne : f ≠ g ∨ as.length ≠ bs.length) :
    unifyRobGo (n + 1) [.app f as, .app g bs] []
      = some (.error .assertionError) := by
  have hts : (Term.app f as) ≠ (Term.app g bs) := by
    intro he
    injection he with h1 h2
    rcases hne with h | h
    · exact h h1
    · exact h (by rw [h2])
  have happlied : substitution_all [.app f as, .app g bs] [] =
      [.app f as, .app g bs] := by
    rw [substitution_all, List.map_cons, List.map_cons, List.map_nil,
        applySubstT_nil, applySubstT_nil]
    exact setDedup_pair hts
  rw [unifyRobGo, happlied]
  rw [if_neg (by simp)]
  have hdis : disagreementGo
      (termListSize [Term.app f as, Term.app g bs] + 1)
      [.app f as, .app g bs] = some (.error .assertionError) := by
    rw [disagreementGo]
    rw [if_neg (by simp)]
    rw [if_neg (by simp [Term.isVar])]
    rw [if_neg ?_]
    intro hall
    rw [List.all_cons, List.all_cons, List.all_nil] at hall
    simp only [Bool.and_true, Bool.and_eq_true, decide_eq_true_eq] at hall
    rcases hne with h | h
    · exact h (hall.2.1.symm)
    · exact h (hall.2.2.symm)
  rw [hdis]

/-- Witness for the amended C8 at the concrete clash `f(a)` vs `g(a)`. -/
theorem c8_clash_raises_assertion_witness :
    unifyRobGo 5 [.app "f" [.var "a"], .app "g" [.var "a"]] []
      = some (.error .assertionError) :=
  c8_clash_raises_assertion 4 "f" "g" [.var "a"] [.var "a"] (.inl (by decide))

/-- **C8 (counterexample).** At the claim's own example — unifying `f(a)`
with `g(a)` — `unify` ends in a bare `AssertionError` (no message), which
is not the `Not unifiable` exception the claim promises. -/
theorem c8_clash_counterexample :
    unifyRob 5 [.app "f" [.var "a"], .app "g" [.var "a"]]
      = some (.error .assertionError) ∧
    PyErr.assertionError ≠ PyErr.exc "Not unifiable" :=
  ⟨rfl, by decide⟩

end Unif

namespace Unif

open TypeInf (PyErr dictLookup)

/-!
### Multiequations and the Martelli–Montanari solvers
(`src/unification/martelli_algorithm_2.py`, `martelli_algorithm_3.py`)

`Multiequation(vars, terms)`: the variable set is modelled as an
insertion-ordered duplicate-free list of names, the `Multiset` of
non-variable terms as a plain list.
-/

/-- A multiequation `S = M`. -/
structure Meq where
  vars : List String
  terms : List Term
deriving DecidableEq

/-- The loop body of `make_multeq`: a variable joins the name set (once),
an application joins the term multiset. -/
def make_multeq_step (acc : Meq) (t : Term) : Meq :=
  match t with
  | .var n => if n ∈ acc.vars then acc else { acc with vars := acc.vars ++ [n] }
  | .app f as => { acc with terms := acc.terms ++ [.app f as] }

/-- `make_multeq(M)`: split a multiset of terms into the variable-name set
and the application multiset (one pass, in order). -/
def make_multeq (M : List Term) : Meq :=
  M.foldl make_multeq_step ⟨[], []⟩

/-- In-place update of one list element. -/
def listModify {α : Type} : List α → Nat → (α → α) → List α
  | [], _, _ => []
  | a :: as, 0, f => f a :: as
  | a :: as, n + 1, f => a :: listModify as n f

/-- `DEC(M)`: common part and frontier of a multiset of terms, fuelled
(the recursion descends into argument columns, strictly decreasing the
total term size, so `termListSize M + 1` fuel always suffices).  The
common-head assertion raises `clashErr`: Algorithm 2's bare `assert`
(`AssertionError` without message), Algorithm 3's
`assert …, "clash"`.  The argument loop is a fold whose accumulator
freezes on the first error. -/
def DECGo (clashErr : PyErr) : Nat → List Term →
    Option (Except PyErr (Term × List Meq))
  | 0, _ => none
  | fuel + 1, M =>
    if M.length = 0 then some (.error (.exc "Empty multiset"))
    else
      match M.find? Term.isVar with
      | some v => some (.ok (v, [make_multeq M]))
      | none =>
        match M with
        | [] => some (.error (.exc "Empty multiset"))
        | t :: _ =>
          match t with
          | .var _ => some (.error .attrError)
          | .app funcName args =>
            if M.all (fun u => u.tname = funcName && u.arityD = args.length) then
              match (List.range args.length).foldl
                  (fun (acc : Option (Except PyErr (List Term × List Meq))) i =>
                    match acc with
                    | some (.ok (cargs, fr)) =>
                      match argsAt M i with
                      | .error e => some (.error e)
                      | .ok leaves =>
                        match DECGo clashErr fuel leaves with
                        | none => none
                        | some (.error e) => some (.error e)
                        | some (.ok (c, fr2)) => some (.ok (cargs ++ [c], fr ++ fr2))
                    | frozen => frozen)
                  (some (.ok ([], []))) with
              | none => none
              | some (.error e) => some (.error e)
              | some (.ok (cargs, fr)) => some (.ok (.app funcName cargs, fr))
            else some (.error clashErr)

/-- The `var_to_meq` index map of Algorithm 3's `compactify`: each
variable of group `i` maps to `i`. -/
def buildVarToMeq : List (List String) → Nat → List (String × Nat)
  | [], _ => []
  | vs :: rest, i => vs.map (fun v => (v, i)) ++ buildVarToMeq rest (i + 1)

/-- The term-attachment loop of Algorithm 3's `compactify`: each original
multiequation's terms are appended to the group holding its first
variable. -/
def attachTerms (varToMeq : List (String × Nat)) :
    List Meq → List Meq → Except PyErr (List Meq)
  | [], comp => .ok comp
  | m :: rest, comp =>
    match m.vars with
    | [] => .error (.exc "StopIteration")
    | v :: _ =>
      match dictLookup varToMeq v with
      | none => .error (.keyError v)
      | some idx =>
        attachTerms varToMeq rest
          (listModify comp idx (fun g => { g with terms := g.terms ++ m.terms }))

/-- Algorithm 3's `compactify(multiequations)`: collect all left-hand
variable names, union the variable sets of each multiequation in the
`UnionFind`, partition with `get_sets`, then rebuild one multiequation
per group and attach every original multiequation's terms to its first
variable's group. -/
def compactify3 (meqs : List Meq) : Except PyErr (List Meq) :=
  let varNames := meqs.foldl (fun acc m => listUnion acc m.vars) []
  let uf := UF.init varNames
  let uf := meqs.foldl
    (fun u m => if m.vars.length ≥ 2 then u.union_all m.vars else u) uf
  match uf.get_sets with
  | none => .error .recursionError
  | some varSets =>
    let compactified : List Meq := varSets.map (fun vs => ⟨vs, []⟩)
    attachTerms (buildVarToMeq varSets 0) meqs compactified

/-- `select_multiequation(U)` of Algorithm 3, as the index of the first
multiequation whose variables occur in no other left-hand side and in no
right-hand term of any multiequation (its own included). -/
def selectIdx (U : List Meq) : Option Nat :=
  (List.range U.length).find? (fun i =>
    match U.get? i with
    | none => false
    | some sel =>
      (List.range U.length).all (fun j =>
        (if j = i then true
         else
           match U.get? j with
           | none => true
           | some m => sel.vars.all (fun v => v ∉ m.vars)) &&
        (match U.get? j with
         | none => true
         | some m => m.terms.all (fun t => sel.vars.all (fun v => v ∉ termVars t)))))

/-- One iteration of Algorithm 3's `solve_multiequations` loop on the
state `(U, T)`: `inl` = loop again with the new state, `inr` = the loop
finished and returns `T`.  Select (failure = `cycle`), move an
empty-right-hand-side multiequation to `T`, otherwise reduce with `DEC`,
compactify, re-locate the (possibly merged) selected multiequation by
variable intersection, and move it to `T`. -/
def solveStep3 (U T : List Meq) : Except PyErr ((List Meq × List Meq) ⊕ List Meq) :=
  match U with
  | [] => .ok (.inr T)
  | _ :: _ =>
    match selectIdx U with
    | none => .error (.exc "cycle")
    | some i =>
      match U.get? i with
      | none => .error .indexError
      | some sel =>
        if sel.terms.length = 0 then
          .ok (.inl (U.eraseIdx i, T ++ [sel]))
        else
          match DECGo (.assertionMsg "clash") (termListSize sel.terms + 1)
              sel.terms with
          | none => .error .recursionError
          | some (.error e) => .error e
          | some (.ok (common, frontier)) =>
            let U1 := (listModify U i (fun m => { m with terms := [common] }))
              ++ frontier
            match compactify3 U1 with
            | .error e => .error e
            | .ok U2 =>
              match (List.range U2.length).find? (fun j =>
                  match U2.get? j with
                  | none => false
                  | some m => !(sel.vars.all (fun v => v ∉ m.vars))) with
              | none => .error .valueError
              | some j =>
                match U2.get? j with
                | none => .error .indexError
                | some moved => .ok (.inl (U2.eraseIdx j, T ++ [moved]))

/-- The `while len(U) > 0` loop of Algorithm 3, fuelled. -/
def solve3 : Nat → List Meq → List Meq → Option (Except PyErr (List Meq))
  | 0, _, _ => none
  | n + 1, U, T =>
    match solveStep3 U T with
    | .error e => some (.error e)
    | .ok (.inr T') => some (.ok T')
    | .ok (.inl (U', T')) => solve3 n U' T'

/-- The `unify(terms)` entry point (identical in both Martelli files):
one multiequation `{""} = terms` for the fresh unique variable, plus an
empty multiequation per variable occurring in the terms. -/
def mkSystem (terms : List Term) : List Meq :=
  let V := terms.foldl (fun acc t => listUnion acc (termVars t)) []
  ⟨[""], terms⟩ :: V.map (fun v => ⟨[v], []⟩)

end Unif

namespace Unif

open TypeInf (PyErr)

/-!
### Algorithm 2 (`martelli_algorithm_2.py`)

The naive `compactify` of Algorithm 2 merges each multiequation into the
first already-compactified multiequation whose variable set intersects it
(mutating that object in place).  Because step 1.6 of the solver removes
the selected multiequation *by object identity* (`meq is selected_meq`),
the embedding tags every compactified group with the position its
representative object had in the pre-compactification list.
-/

/-- Pair each element with its index, starting at `i`. -/
def enumList {α : Type} : List α → Nat → List (α × Nat)
  | [], _ => []
  | a :: as, i => (a, i) :: enumList as (i + 1)

/-- Algorithm 2's `compactify`, with identity tags: the result pairs each
group's representative index (the position in the input list of the
object that `compactified.append(meq)` kept) with the merged content. -/
def compactify2Go : List (Meq × Nat) → List (Nat × Meq) → List (Nat × Meq)
  | [], comp => comp
  | (m, k) :: rest, comp =>
    match (List.range comp.length).find? (fun ci =>
        match comp.get? ci with
        | none => false
        | some g => !(m.vars.all (fun v => v ∉ g.2.vars))) with
    | some ci =>
      compactify2Go rest
        (listModify comp ci (fun g =>
          (g.1, ⟨listUnion g.2.vars m.vars, g.2.terms ++ m.terms⟩)))
    | none => compactify2Go rest (comp ++ [(k, m)])

/-- One iteration of Algorithm 2's `solve_multiequations` loop.  Find the
first multiequation with terms (none left = transfer the remaining `U` to
`T` and stop), reduce it with `DEC`, reject a frontier that re-introduces
one of its variables (`cycle`), compactify, apply the substitution
`{v ↦ common}` for its (possibly merged) variables to every right-hand
side in `U`, then move the selected object to `T` (removing it from `U`
only when it survived compactification as a representative). -/
def solveStep2 (U T : List Meq) : Except PyErr ((List Meq × List Meq) ⊕ List Meq) :=
  match (List.range U.length).find? (fun i =>
      match U.get? i with
      | none => false
      | some m => m.terms.length > 0) with
  | none => .ok (.inr (T ++ U))
  | some i =>
    match U.get? i with
    | none => .error .indexError
    | some sel =>
      match DECGo .assertionError (termListSize sel.terms + 1) sel.terms with
      | none => .error .recursionError
      | some (.error e) => .error e
      | some (.ok (common, frontier)) =>
        if frontier.all (fun m => sel.vars.all (fun v => v ∉ m.vars)) then
          let U1 := (listModify U i (fun m => { m with terms := [common] }))
            ++ frontier
          let tagged := compactify2Go (enumList U1 0) []
          -- the selected object survived as a representative iff some
          -- group carries its tag; otherwise it was merged away and keeps
          -- its own (unsubstituted) state
          let selNow : Meq :=
            match tagged.find? (fun g => g.1 = i) with
            | some g => g.2
            | none => ⟨sel.vars, [common]⟩
          let subst := selNow.vars.map (fun v => (v, common))
          let tagged2 := tagged.map (fun g =>
            (g.1, (⟨g.2.vars, g.2.terms.map (fun t => applySubstT t subst)⟩ : Meq)))
          match (List.range tagged2.length).find? (fun j =>
              match tagged2.get? j with
              | none => false
              | some g => g.1 = i) with
          | some j =>
            match tagged2.get? j with
            | none => .error .indexError
            | some g =>
              .ok (.inl ((tagged2.eraseIdx j).map Prod.snd, T ++ [g.2]))
          | none =>
            -- `meq is selected_meq` never fired: nothing is popped, and
            -- the stale selected object is appended to T as-is
            .ok (.inl (tagged2.map Prod.snd, T ++ [⟨sel.vars, [common]⟩]))
        else .error (.exc "cycle")

/-- The solver loop of Algorithm 2, fuelled. -/
def solve2 : Nat → List Meq → List Meq → Option (Except PyErr (List Meq))
  | 0, _, _ => none
  | n + 1, U, T =>
    match solveStep2 U T with
    | .error e => some (.error e)
    | .ok (.inr T') => some (.ok T')
    | .ok (.inl (U', T')) => solve2 n U' T'

end Unif

namespace Unif

open TypeInf (PyErr)

/-! ### C6: cycle rejection on `{x, f(x)}` -/

/-- More fuel never changes a finished run of Algorithm 3. -/
theorem solve3_mono : ∀ (n : Nat) (U T : List Meq)
    (r : Except PyErr (List Meq)),
    solve3 n U T = some r → solve3 (n + 1) U T = some r := by
  intro n
  induction n with
  | zero => intro U T r h; cases h
  | succ n ih =>
    intro U T r h
    rw [solve3] at h ⊢
    cases hstep : solveStep3 U T with
    | error e => rw [hstep] at h; exact h
    | ok s =>
      rw [hstep] at h
      cases s with
      | inr T' => exact h
      | inl p => exact ih p.1 p.2 r h

/-- More fuel never changes a finished run of Algorithm 2. -/
theorem solve2_mono : ∀ (n : Nat) (U T : List Meq)
    (r : Except PyErr (List Meq)),
    solve2 n U T = some r → solve2 (n + 1) U T = some r := by
  intro n
  induction n with
  | zero => intro U T r h; cases h
  | succ n ih =>
    intro U T r h
    rw [solve2] at h ⊢
    cases hstep : solveStep2 U T with
    | error e => rw [hstep] at h; exact h
    | ok s =>
      rw [hstep] at h
      cases s with
      | inr T' => exact h
      | inl p => exact ih p.1 p.2 r h

/-- Fuel monotonicity, ≤ version, Algorithm 3. -/
theorem solve3_le {n m : Nat} (hnm : n ≤ m) (U T : List Meq)
    {r : Except PyErr (List Meq)} (h : solve3 n U T = some r) :
    solve3 m U T = some r := by
  induction m with
  | zero =>
    have : n = 0 := Nat.le_zero.mp hnm
    rw [← this]
    exact h
  | succ m ih =>
    rcases Nat.lt_or_ge n (m + 1) with hlt | hge
    · exact solve3_mono m U T r (ih (Nat.lt_succ_iff.mp hlt))
    · have : n = m + 1 := Nat.le_antisymm hnm hge
      exact this ▸ h

/-- Fuel monotonicity, ≤ version, Algorithm 2. -/
theorem solve2_le {n m : Nat} (hnm : n ≤ m) (U T : List Meq)
    {r : Except PyErr (List Meq)} (h : solve2 n U T = some r) :
    solve2 m U T = some r := by
  induction m with
  | zero =>
    have : n = 0 := Nat.le_zero.mp hnm
    rw [← this]
    exact h
  | succ m ih =>
    rcases Nat.lt_or_ge n (m + 1) with hlt | hge
    · exact solve2_mono m U T r (ih (Nat.lt_succ_iff.mp hlt))
    · have : n = m + 1 := Nat.le_antisymm hnm hge
      exact this ▸ h

/-- **C6.** Unifying the multiset `{x, f(x)}` raises the `cycle` error in
both Algorithm 2 and Algorithm 3: both runs terminate with
`Exception("cycle")` (first two conjuncts, concrete runs), and no amount
of fuel makes either solver finish differently — in particular neither
ever returns a solved system (last two conjuncts). -/
theorem c6_cycle_rejected (n : Nat) (r : Except PyErr (List Meq)) :
    solve3 6 (mkSystem [Term.var "x", Term.app "f" [Term.var "x"]]) []
      = some (.error (.exc "cycle")) ∧
    solve2 6 (mkSystem [Term.var "x", Term.app "f" [Term.var "x"]]) []
      = some (.error (.exc "cycle")) ∧
    (solve3 n (mkSystem [Term.var "x", Term.app "f" [Term.var "x"]]) []
      = some r → r = .error (.exc "cycle")) ∧
    (solve2 n (mkSystem [Term.var "x", Term.app "f" [Term.var "x"]]) []
      = some r → r = .error (.exc "cycle")) := by
  have h3 : solve3 6 (mkSystem [Term.var "x", Term.app "f" [Term.var "x"]]) []
      = some (.error (.exc "cycle")) := by decide
  have h2 : solve2 6 (mkSystem [Term.var "x", Term.app "f" [Term.var "x"]]) []
      = some (.error (.exc "cycle")) := by decide
  refine ⟨h3, h2, ?_, ?_⟩
  · intro h
    have ha := solve3_le (Nat.le_max_left n 6) _ _ h
    have hb := solve3_le (Nat.le_max_right n 6) _ _ h3
    rw [ha] at hb
    exact Option.some.inj hb
  · intro h
    have ha := solve2_le (Nat.le_max_left n 6) _ _ h
    have hb := solve2_le (Nat.le_max_right n 6) _ _ h2
    rw [ha] at hb
    exact Option.some.inj hb

/-- Witness for C6: the hypotheses of the conditional conjuncts hold at
the concrete fuel 6, where both solvers report `cycle`. -/
theorem c6_cycle_rejected_witness :
    (Except.error (PyErr.exc "cycle") : Except PyErr (List Meq))
        = .error (.exc "cycle") ∧
    (Except.error (PyErr.exc "cycle") : Except PyErr (List Meq))
        = .error (.exc "cycle") :=
  ⟨(c6_cycle_rejected 6 (.error (.exc "cycle"))).2.2.1
      (c6_cycle_rejected 6 (.error (.exc "cycle"))).1,
   (c6_cycle_rejected 6 (.error (.exc "cycle"))).2.2.2
      (c6_cycle_rejected 6 (.error (.exc "cycle"))).2.1⟩

end Unif

namespace Unif

open TypeInf (PyErr dictLookup)

/-! ### C5, layer 1: membership facts for the list-modelled sets -/

/-- Membership in an insertion-ordered union. -/
theorem mem_listUnion {v : String} : ∀ (xs acc : List String),
    v ∈ listUnion acc xs ↔ v ∈ acc ∨ v ∈ xs := by
  intro xs
  induction xs with
  | nil =>
    intro acc
    rw [listUnion, List.foldl_nil]
    simp
  | cons x xs ih =>
    intro acc
    rw [listUnion, List.foldl_cons]
    have hrw : (xs.foldl (fun a y => if y ∈ a then a else a ++ [y])
        (if x ∈ acc then acc else acc ++ [x]))
        = listUnion (if x ∈ acc then acc else acc ++ [x]) xs := rfl
    rw [hrw, ih]
    by_cases hx : x ∈ acc
    · rw [if_pos hx]
      constructor
      · rintro (h | h)
        · exact .inl h
        · exact .inr (List.mem_cons_of_mem _ h)
      · rintro (h | h)
        · exact .inl h
        · rcases List.mem_cons.mp h with h | h
          · rw [h]; exact .inl hx
          · exact .inr h
    · rw [if_neg hx]
      constructor
      · rintro (h | h)
        · rcases List.mem_append.mp h with h | h
          · exact .inl h
          · exact .inr (by
              rw [List.mem_singleton.mp h]
              exact List.mem_cons_self _ _)
        · exact .inr (List.mem_cons_of_mem _ h)
      · rintro (h | h)
        · exact .inl (List.mem_append.mpr (.inl h))
        · rcases List.mem_cons.mp h with h | h
          · exact .inl (List.mem_append.mpr (.inr (by simp [h])))
          · exact .inr h

/-- `listUnion` keeps the accumulator duplicate-free. -/
theorem listUnion_nodup : ∀ (xs acc : List String), acc.Nodup →
    (listUnion acc xs).Nodup := by
  intro xs
  induction xs with
  | nil => intro acc h; rw [listUnion, List.foldl_nil]; exact h
  | cons x xs ih =>
    intro acc h
    rw [listUnion, List.foldl_cons]
    have hrw : (xs.foldl (fun a y => if y ∈ a then a else a ++ [y])
        (if x ∈ acc then acc else acc ++ [x]))
        = listUnion (if x ∈ acc then acc else acc ++ [x]) xs := rfl
    rw [hrw]
    by_cases hx : x ∈ acc
    · rw [if_pos hx]; exact ih acc h
    · rw [if_neg hx]
      refine ih _ ?_
      simp [List.nodup_append, h, hx]

/-- Membership in the accumulated variable set of a term list. -/
theorem mem_termVarsList {v : String} : ∀ (ts : List Term) (acc : List String),
    v ∈ termVarsList ts acc ↔ v ∈ acc ∨ ∃ t ∈ ts, v ∈ termVars t := by
  intro ts
  induction ts with
  | nil => intro acc; rw [termVarsList]; simp
  | cons t ts ih =>
    intro acc
    rw [termVarsList, ih, mem_listUnion]
    constructor
    · rintro ((h | h) | ⟨u, hu, hv⟩)
      · exact .inl h
      · exact .inr ⟨t, List.mem_cons_self _ _, h⟩
      · exact .inr ⟨u, List.mem_cons_of_mem _ hu, hv⟩
    · rintro (h | ⟨u, hu, hv⟩)
      · exact .inl (.inl h)
      · rcases List.mem_cons.mp hu with h | h
        · exact .inl (.inr (h ▸ hv))
        · exact .inr ⟨u, h, hv⟩

/-- Variables of an application are the variables of its arguments. -/
theorem mem_termVars_app {v : String} {f : String} {as : List Term} :
    v ∈ termVars (.app f as) ↔ ∃ a ∈ as, v ∈ termVars a := by
  rw [termVars, mem_termVarsList]
  simp

/-- Every variable of an argument column is a variable of the multiset. -/
theorem argsAt_vars : ∀ {M : List Term} {i : Nat} {leaves : List Term},
    argsAt M i = .ok leaves →
    ∀ t ∈ leaves, ∀ v ∈ termVars t, ∃ u ∈ M, v ∈ termVars u := by
  intro M
  induction M with
  | nil =>
    intro i leaves h t ht v hv
    rw [argsAt] at h
    have : ([] : List Term) = leaves := by injection h
    rw [← this] at ht
    cases ht
  | cons u M ih =>
    intro i leaves h t ht v hv
    match u, h with
    | .var n, h => rw [argsAt] at h; cases h
    | .app f as, h =>
      rw [argsAt] at h
      cases hget : as.get? i with
      | none => rw [hget] at h; cases h
      | some a =>
        rw [hget] at h
        cases hrest : argsAt M i with
        | error e => rw [hrest] at h; cases h
        | ok col =>
          rw [hrest] at h
          have hl : a :: col = leaves := by injection h
          rw [← hl] at ht
          rcases List.mem_cons.mp ht with hta | htc
          · refine ⟨.app f as, List.mem_cons_self _ _, ?_⟩
            rw [hta] at hv
            exact mem_termVars_app.mpr ⟨a, List.get?_mem hget, hv⟩
          · obtain ⟨w, hw, hvw⟩ := ih hrest t htc v hv
            exact ⟨w, List.mem_cons_of_mem _ hw, hvw⟩

/-- Content of `make_multeq`: its variables are variables of the multiset
and its terms are members of the multiset. -/
theorem make_multeq_spec (M : List Term) :
    (∀ v ∈ (make_multeq M).vars, (Term.var v) ∈ M) ∧
    (∀ t ∈ (make_multeq M).terms, t ∈ M) := by
  have go : ∀ (l : List Term) (acc : Meq),
      (∀ v ∈ (l.foldl make_multeq_step acc).vars,
        v ∈ acc.vars ∨ (Term.var v) ∈ l) ∧
      (∀ t ∈ (l.foldl make_multeq_step acc).terms,
        t ∈ acc.terms ∨ t ∈ l) := by
    intro l
    induction l with
    | nil => intro acc; constructor <;> (intro x hx; exact .inl hx)
    | cons t l ih =>
      intro acc
      rw [List.foldl_cons]
      have hstep : ∀ (x : String), x ∈ (make_multeq_step acc t).vars →
          x ∈ acc.vars ∨ t = .var x := by
        intro x hx
        match t with
        | .var n =>
          rw [show make_multeq_step acc (.var n)
              = if n ∈ acc.vars then acc
                else { acc with vars := acc.vars ++ [n] } from rfl] at hx
          by_cases hn : n ∈ acc.vars
          · rw [if_pos hn] at hx
            exact .inl hx
          · rw [if_neg hn] at hx
            rcases List.mem_append.mp hx with h | h
            · exact .inl h
            · exact .inr (by rw [List.mem_singleton.mp h])
        | .app f as =>
          rw [show make_multeq_step acc (.app f as)
              = { acc with terms := acc.terms ++ [.app f as] } from rfl] at hx
          exact .inl hx
      have hstept : ∀ (u : Term), u ∈ (make_multeq_step acc t).terms →
          u ∈ acc.terms ∨ u = t := by
        intro u hu
        match t with
        | .var n =>
          rw [show make_multeq_step acc (.var n)
              = if n ∈ acc.vars then acc
                else { acc with vars := acc.vars ++ [n] } from rfl] at hu
          by_cases hn : n ∈ acc.vars
          · rw [if_pos hn] at hu
            exact .inl hu
          · rw [if_neg hn] at hu
            exact .inl hu
        | .app f as =>
          rw [show make_multeq_step acc (.app f as)
              = { acc with terms := acc.terms ++ [.app f as] } from rfl] at hu
          rcases List.mem_append.mp hu with h | h
          · exact .inl h
          · exact .inr (List.mem_singleton.mp h)
      constructor
      · intro v hv
        rcases (ih _).1 v hv with h | h
        · rcases hstep v h with h | h
          · exact .inl h
          · exact .inr (h ▸ List.mem_cons_self _ _)
        · exact .inr (List.mem_cons_of_mem _ h)
      · intro u hu
        rcases (ih _).2 u hu with h | h
        · rcases hstept u h with h | h
          · exact .inl h
          · exact .inr (h ▸ List.mem_cons_self _ _)
        · exact .inr (List.mem_cons_of_mem _ h)
  constructor
  · intro v hv
    rw [make_multeq] at hv
    rcases (go M ⟨[], []⟩).1 v hv with h | h
    · cases h
    · exact h
  · intro t ht
    rw [make_multeq] at ht
    rcases (go M ⟨[], []⟩).2 t ht with h | h
    · cases h
    · exact h

end Unif

namespace Unif

open TypeInf (PyErr)

/-! ### C5, layer 2: variable coverage of `DEC` -/

/-- `v` occurs in some term of the multiset `M`. -/
def varCovers (M : List Term) (v : String) : Prop := ∃ t ∈ M, v ∈ termVars t

/-- A frontier multiequation only involves variables of the multiset. -/
def frontierSpec (M : List Term) (m : Meq) : Prop :=
  (∀ v ∈ m.vars, varCovers M v) ∧
  (∀ u ∈ m.terms, ∀ v ∈ termVars u, varCovers M v)

/-- A fold that freezes on non-`ok` accumulators keeps a non-`ok` value. -/
theorem fold_frozen {α : Type}
    (f : Option (Except PyErr α) → Nat → Option (Except PyErr α))
    (hfrozen : ∀ z i, (∀ a, z ≠ some (.ok a)) → f z i = z) :
    ∀ (idxs : List Nat) (z : Option (Except PyErr α)),
      (∀ a, z ≠ some (.ok a)) → idxs.foldl f z = z := by
  intro idxs
  induction idxs with
  | nil => intro z hz; rw [List.foldl_nil]
  | cons i idxs ih =>
    intro z hz
    rw [List.foldl_cons, hfrozen z i hz]
    exact ih z hz

/-- Through the argument-column fold of `DECGo` (given abstractly through
the simulation hypotheses `hfrozen` and `hok`), all accumulated common
parts and frontier multiequations only involve variables of `M`. -/
theorem DEC_fold_spec (ce : PyErr) (fuel : Nat) (M : List Term)
    (f : Option (Except PyErr (List Term × List Meq)) → Nat →
         Option (Except PyErr (List Term × List Meq)))
    (hfrozen : ∀ z i, (∀ a, z ≠ some (.ok a)) → f z i = z)
    (hok : ∀ (c0 : List Term) (f0 : List Meq) (i : Nat)
      (cargs : List Term) (fr : List Meq),
      f (some (.ok (c0, f0))) i = some (.ok (cargs, fr)) →
      ∃ leaves c fr2, argsAt M i = .ok leaves ∧
        DECGo ce fuel leaves = some (.ok (c, fr2)) ∧
        cargs = c0 ++ [c] ∧ fr = f0 ++ fr2)
    (ih : ∀ (leaves : List Term) (c : Term) (fr : List Meq),
      DECGo ce fuel leaves = some (.ok (c, fr)) →
      (∀ v ∈ termVars c, varCovers leaves v) ∧
      (∀ m ∈ fr, frontierSpec leaves m)) :
    ∀ (idxs : List Nat) (c0 : List Term) (f0 : List Meq)
      (cargs : List Term) (fr : List Meq),
      (∀ c ∈ c0, ∀ v ∈ termVars c, varCovers M v) →
      (∀ m ∈ f0, frontierSpec M m) →
      idxs.foldl f (some (.ok (c0, f0))) = some (.ok (cargs, fr)) →
      (∀ c ∈ cargs, ∀ v ∈ termVars c, varCovers M v) ∧
      (∀ m ∈ fr, frontierSpec M m) := by
  intro idxs
  induction idxs with
  | nil =>
    intro c0 f0 cargs fr hc0 hf0 h
    rw [List.foldl_nil] at h
    have h1 : (c0, f0) = (cargs, fr) := by
      have := Option.some.inj h
      injection this
    injection h1 with h1a h1b
    rw [← h1a, ← h1b]
    exact ⟨hc0, hf0⟩
  | cons i idxs ihidx =>
    intro c0 f0 cargs fr hc0 hf0 h
    rw [List.foldl_cons] at h
    by_cases hz : ∃ a, f (some (.ok (c0, f0))) i = some (.ok a)
    · obtain ⟨⟨c1, f1⟩, hz1⟩ := hz
      rw [hz1] at h
      obtain ⟨leaves, c, fr2, hcol, hdec, hc1, hf1⟩ :=
        hok c0 f0 i c1 f1 hz1
      have hspec := ih leaves c fr2 hdec
      have hlift : ∀ v, varCovers leaves v → varCovers M v := by
        intro v hv
        obtain ⟨t, ht, hvt⟩ := hv
        exact argsAt_vars hcol t ht v hvt
      refine ihidx c1 f1 cargs fr ?_ ?_ h
      · intro c' hc' v hv
        rw [hc1] at hc'
        rcases List.mem_append.mp hc' with hm | hm
        · exact hc0 c' hm v hv
        · rw [List.mem_singleton.mp hm] at hv
          exact hlift v (hspec.1 v hv)
      · intro m hm
        rw [hf1] at hm
        rcases List.mem_append.mp hm with hm | hm
        · exact hf0 m hm
        · have := hspec.2 m hm
          exact ⟨fun v hv => hlift v (this.1 v hv),
                 fun u hu v hv => hlift v (this.2 u hu v hv)⟩
    · have hne : ∀ a, f (some (.ok (c0, f0))) i ≠ some (.ok a) := by
        intro a ha
        exact hz ⟨a, ha⟩
      rw [fold_frozen f hfrozen idxs _ hne] at h
      exact absurd h (hne (cargs, fr))

/-- Definitional unfolding of `DECGo` at positive fuel. -/
theorem DECGo_succ (ce : PyErr) (fuel : Nat) (M : List Term) :
    DECGo ce (fuel + 1) M =
      (if M.length = 0 then some (.error (.exc "Empty multiset"))
      else
        match M.find? Term.isVar with
        | some v => some (.ok (v, [make_multeq M]))
        | none =>
          match M with
          | [] => some (.error (.exc "Empty multiset"))
          | t :: _ =>
            match t with
            | .var _ => some (.error .attrError)
            | .app funcName args =>
              if M.all (fun u => u.tname = funcName && u.arityD = args.length) then
                match (List.range args.length).foldl
                    (fun (acc : Option (Except PyErr (List Term × List Meq))) i =>
                      match acc with
                      | some (.ok (cargs, fr)) =>
                        match argsAt M i with
                        | .error e => some (.error e)
                        | .ok leaves =>
                          match DECGo ce fuel leaves with
                          | none => none
                          | some (.error e) => some (.error e)
                          | some (.ok (c, fr2)) => some (.ok (cargs ++ [c], fr ++ fr2))
                      | frozen => frozen)
                    (some (.ok ([], []))) with
                | none => none
                | some (.error e) => some (.error e)
                | some (.ok (cargs, fr)) => some (.ok (.app funcName cargs, fr))
              else some (.error ce)
      : Option (Except PyErr (Term × List Meq))) := by
  rfl

/-- The common part and frontier produced by `DEC` only involve variables
of the input multiset. -/
theorem DECGo_vars (ce : PyErr) :
    ∀ (fuel : Nat) (M : List Term) (c : Term) (fr : List Meq),
      DECGo ce fuel M = some (.ok (c, fr)) →
      (∀ v ∈ termVars c, varCovers M v) ∧ (∀ m ∈ fr, frontierSpec M m) := by
  intro fuel
  induction fuel with
  | zero => intro M c fr h; cases h
  | succ fuel ih =>
    intro M c fr h
    rw [DECGo_succ] at h
    by_cases hlen : M.length = 0
    · rw [if_pos hlen] at h; cases h
    · rw [if_neg hlen] at h
      cases hfind : M.find? Term.isVar with
      | some v0 =>
        rw [hfind] at h
        have h2 : (some (Except.ok (v0, [make_multeq M]))
            : Option (Except PyErr (Term × List Meq))) = some (.ok (c, fr)) := h
        have h1 : (v0, [make_multeq M]) = (c, fr) := by
          have := Option.some.inj h2
          injection this
        injection h1 with h1a h1b
        have hv0 : v0 ∈ M := List.mem_of_find?_eq_some hfind
        constructor
        · intro v hv
          rw [← h1a] at hv
          exact ⟨v0, hv0, hv⟩
        · intro m hm
          rw [← h1b] at hm
          rw [List.mem_singleton.mp hm]
          constructor
          · intro v hv
            refine ⟨.var v, (make_multeq_spec M).1 v hv, ?_⟩
            rw [termVars]
            exact List.mem_singleton.mpr rfl
          · intro u hu v hv
            exact ⟨u, (make_multeq_spec M).2 u hu, hv⟩
      | none =>
        rw [hfind] at h
        match M, h with
        | [], h => cases h
        | .var n :: M', h => cases h
        | .app funcName args :: M', h =>
          have h3 : (if (Term.app funcName args :: M').all
                (fun u => u.tname = funcName && u.arityD = args.length) then
              (match (List.range args.length).foldl
                  (fun (acc : Option (Except PyErr (List Term × List Meq))) i =>
                    match acc with
                    | some (.ok (cargs, fr)) =>
                      match argsAt (Term.app funcName args :: M') i with
                      | .error e => some (.error e)
                      | .ok leaves =>
                        match DECGo ce fuel leaves with
                        | none => none
                        | some (.error e) => some (.error e)
                        | some (.ok (c, fr2)) =>
                          some (.ok (cargs ++ [c], fr ++ fr2))
                    | frozen => frozen)
                  (some (.ok ([], []))) with
              | none => none
              | some (.error e) => some (.error e)
              | some (.ok (cargs, fr)) =>
                some (Except.ok (Term.app funcName cargs, fr)))
            else some (Except.error ce)) = some (.ok (c, fr)) := h
          by_cases hall : (Term.app funcName args :: M').all
              (fun u => u.tname = funcName && u.arityD = args.length)
          · rw [if_pos hall] at h3
            cases hfold : (List.range args.length).foldl
                (fun (acc : Option (Except PyErr (List Term × List Meq))) i =>
                  match acc with
                  | some (.ok (cargs, fr)) =>
                    match argsAt (Term.app funcName args :: M') i with
                    | .error e => some (.error e)
                    | .ok leaves =>
                      match DECGo ce fuel leaves with
                      | none => none
                      | some (.error e) => some (.error e)
                      | some (.ok (c, fr2)) =>
                        some (.ok (cargs ++ [c], fr ++ fr2))
                  | frozen => frozen)
                (some (.ok ([], []))) with
            | none => rw [hfold] at h3; cases h3
            | some r =>
              rw [hfold] at h3
              match r, h3 with
              | .error e, h3 => cases h3
              | .ok (cargs, fr2), h3 =>
                have h1 : (Term.app funcName cargs, fr2) = (c, fr) := by
                  have := Option.some.inj h3
                  injection this
                injection h1 with h1a h1b
                have hfrozen : ∀ (z : Option (Except PyErr (List Term × List Meq)))
                    (i : Nat), (∀ a, z ≠ some (.ok a)) →
                    (fun (acc : Option (Except PyErr (List Term × List Meq))) i =>
                      match acc with
                      | some (.ok (cargs, fr)) =>
                        match argsAt (Term.app funcName args :: M') i with
                        | .error e => some (.error e)
                        | .ok leaves =>
                          match DECGo ce fuel leaves with
                          | none => none
                          | some (.error e) => some (.error e)
                          | some (.ok (c, fr2)) =>
                            some (.ok (cargs ++ [c], fr ++ fr2))
                      | frozen => frozen) z i = z := by
                  intro z i hz
                  match z, hz with
                  | none, _ => rfl
                  | some (.error e), _ => rfl
                  | some (.ok a), hz => exact absurd rfl (hz a)
                have hok : ∀ (c0 : List Term) (f0 : List Meq) (i : Nat)
                    (cargs' : List Term) (fr' : List Meq),
                    (fun (acc : Option (Except PyErr (List Term × List Meq))) i =>
                      match acc with
                      | some (.ok (cargs, fr)) =>
                        match argsAt (Term.app funcName args :: M') i with
                        | .error e => some (.error e)
                        | .ok leaves =>
                          match DECGo ce fuel leaves with
                          | none => none
                          | some (.error e) => some (.error e)
                          | some (.ok (c, fr2)) =>
                            some (.ok (cargs ++ [c], fr ++ fr2))
                      | frozen => frozen) (some (.ok (c0, f0))) i
                      = some (.ok (cargs', fr')) →
                    ∃ leaves c fr2,
                      argsAt (Term.app funcName args :: M') i = .ok leaves ∧
                      DECGo ce fuel leaves = some (.ok (c, fr2)) ∧
                      cargs' = c0 ++ [c] ∧ fr' = f0 ++ fr2 := by
                  intro c0 f0 i cargs' fr' happ
                  have happ2 : (match argsAt (Term.app funcName args :: M') i with
                      | .error e => some (Except.error e)
                      | .ok leaves =>
                        match DECGo ce fuel leaves with
                        | none => none
                        | some (.error e) => some (Except.error e)
                        | some (.ok (c, fr2)) =>
                          some (Except.ok (c0 ++ [c], f0 ++ fr2))
                      : Option (Except PyErr (List Term × List Meq)))
                      = some (.ok (cargs', fr')) := happ
                  cases hcol : argsAt (Term.app funcName args :: M') i with
                  | error e => rw [hcol] at happ2; cases happ2
                  | ok leaves =>
                    rw [hcol] at happ2
                    have happ3 : (match DECGo ce fuel leaves with
                        | none => none
                        | some (.error e) => some (Except.error e)
                        | some (.ok (c, fr2)) =>
                          some (Except.ok (c0 ++ [c], f0 ++ fr2))
                        : Option (Except PyErr (List Term × List Meq)))
                        = some (.ok (cargs', fr')) := happ2
                    cases hdec : DECGo ce fuel leaves with
                    | none => rw [hdec] at happ3; cases happ3
                    | some rr =>
                      rw [hdec] at happ3
                      match rr, hdec, happ3 with
                      | .error e, hdec, happ3 => cases happ3
                      | .ok (c', fr2'), hdec, happ3 =>
                        have h2 : (c0 ++ [c'], f0 ++ fr2') = (cargs', fr') := by
                          have := Option.some.inj happ3
                          injection this
                        injection h2 with h2a h2b
                        exact ⟨leaves, c', fr2', rfl, hdec, h2a.symm, h2b.symm⟩
                have hspec := DEC_fold_spec ce fuel (Term.app funcName args :: M')
                  _ hfrozen hok
                  (fun leaves c' fr' hd => ih leaves c' fr' hd)
                  (List.range args.length) [] [] cargs fr2
                  (fun c' hc' => absurd hc' (List.not_mem_nil c'))
                  (fun m hm => absurd hm (List.not_mem_nil m))
                  hfold
                constructor
                · intro v hv
                  rw [← h1a] at hv
                  obtain ⟨a, ha, hva⟩ := mem_termVars_app.mp hv
                  exact hspec.1 a ha v hva
                · intro m hm
                  rw [← h1b] at hm
                  exact hspec.2 m hm
          · rw [if_neg hall] at h3
            cases h3

end Unif

namespace Unif

open TypeInf (PyErr dictLookup)

/-! ### C5, layer 3: positional list lemmas -/

/-- `get?` after deleting index `i`: indices below `i` are unchanged,
indices at or above `i` shift up by one. -/
theorem eraseIdx_get? : ∀ (l : List Meq) (i k : Nat),
    (l.eraseIdx i).get? k = if k < i then l.get? k else l.get? (k + 1) := by
  intro l
  induction l with
  | nil =>
    intro i k
    rw [List.eraseIdx]
    cases Nat.decLt k i with
    | isTrue h => rw [if_pos h]
    | isFalse h => rw [if_neg h]; rfl
  | cons a l ih =>
    intro i k
    match i with
    | 0 =>
      rw [List.eraseIdx]
      rw [if_neg (Nat.not_lt_zero k)]
      rfl
    | i + 1 =>
      rw [List.eraseIdx]
      match k with
      | 0 =>
        rw [if_pos (Nat.succ_pos i)]
        rfl
      | k + 1 =>
        have hstep : ((a :: l.eraseIdx i).get? (k + 1)) = (l.eraseIdx i).get? k := rfl
        rw [hstep, ih i k]
        by_cases hk : k < i
        · rw [if_pos hk, if_pos (Nat.succ_lt_succ hk)]
          rfl
        · rw [if_neg hk, if_neg (fun h => hk (Nat.lt_of_succ_lt_succ h))]
          rfl

/-- `get?` after an in-place update at index `i`. -/
theorem listModify_get? {α : Type} : ∀ (l : List α) (i : Nat) (f : α → α) (k : Nat),
    (listModify l i f).get? k = if k = i then (l.get? k).map f else l.get? k := by
  intro l
  induction l with
  | nil =>
    intro i f k
    rw [listModify]
    cases Nat.decEq k i with
    | isTrue h => rw [if_pos h]; rfl
    | isFalse h => rw [if_neg h]
  | cons a l ih =>
    intro i f k
    match i with
    | 0 =>
      rw [listModify]
      match k with
      | 0 => rw [if_pos rfl]; rfl
      | k + 1 => rw [if_neg (Nat.succ_ne_zero k)]; rfl
    | i + 1 =>
      rw [listModify]
      match k with
      | 0 => rw [if_neg (Ne.symm (Nat.succ_ne_zero i))]; rfl
      | k + 1 =>
        have hstep : ((a :: listModify l i f).get? (k + 1))
            = (listModify l i f).get? k := rfl
        rw [hstep, ih i f k]
        by_cases hk : k = i
        · rw [if_pos hk, if_pos (by rw [hk])]
          rfl
        · rw [if_neg hk, if_neg (fun h => hk (Nat.succ.inj h))]
          rfl

/-- `listModify` keeps the length. -/
theorem listModify_length {α : Type} : ∀ (l : List α) (i : Nat) (f : α → α),
    (listModify l i f).length = l.length := by
  intro l
  induction l with
  | nil => intro i f; rfl
  | cons a l ih =>
    intro i f
    match i with
    | 0 => rfl
    | i + 1 =>
      rw [listModify]
      have : (a :: listModify l i f).length = (listModify l i f).length + 1 := rfl
      rw [this, ih]
      rfl

/-- Distinct components of a list whose concatenation is duplicate-free
are disjoint. -/
theorem join_nodup_disjoint : ∀ (l : List (List String)),
    l.join.Nodup →
    ∀ (p q : Nat) (gp gq : List String), l.get? p = some gp →
      l.get? q = some gq → p ≠ q → ∀ v ∈ gp, v ∉ gq := by
  intro l
  induction l with
  | nil => intro _ p q gp gq hp; cases hp
  | cons g l ih =>
    intro hnd p q gp gq hp hq hpq v hvp hvq
    rw [List.join] at hnd
    have hg : g.Nodup := hnd.of_append_left
    have hl : l.join.Nodup := hnd.of_append_right
    have hdisj : ∀ x ∈ g, x ∉ l.join :=
      fun x hx => List.disjoint_of_nodup_append hnd hx
    match p, q with
    | 0, 0 => exact hpq rfl
    | 0, q + 1 =>
      have hgp : g = gp := by injection hp
      have hql : l.get? q = some gq := hq
      refine hdisj v (hgp ▸ hvp) ?_
      exact List.mem_join.mpr ⟨gq, List.get?_mem hql, hvq⟩
    | p + 1, 0 =>
      have hgq : g = gq := by injection hq
      have hpl : l.get? p = some gp := hp
      refine hdisj v (hgq ▸ hvq) ?_
      exact List.mem_join.mpr ⟨gp, List.get?_mem hpl, hvp⟩
    | p + 1, q + 1 =>
      exact ih hl p q gp gq hp hq (fun h => hpq (by rw [h])) v hvp hvq

/-- Membership in the folded union of the variable sets of a
multiequation list. -/
theorem mem_foldl_meqVars (v : String) : ∀ (l : List Meq) (acc : List String),
    v ∈ l.foldl (fun a m => listUnion a m.vars) acc ↔
      v ∈ acc ∨ ∃ m ∈ l, v ∈ m.vars := by
  intro l
  induction l with
  | nil => intro acc; rw [List.foldl_nil]; simp
  | cons m l ih =>
    intro acc
    rw [List.foldl_cons, ih, mem_listUnion]
    constructor
    · rintro ((h | h) | ⟨m', hm', hv⟩)
      · exact .inl h
      · exact .inr ⟨m, List.mem_cons_self _ _, h⟩
      · exact .inr ⟨m', List.mem_cons_of_mem _ hm', hv⟩
    · rintro (h | ⟨m', hm', hv⟩)
      · exact .inl (.inl h)
      · rcases List.mem_cons.mp hm' with h | h
        · exact .inl (.inr (h ▸ hv))
        · exact .inr ⟨m', h, hv⟩

/-- Membership in the folded union of the variables of a term list. -/
theorem mem_foldl_termVars (v : String) : ∀ (l : List Term) (acc : List String),
    v ∈ l.foldl (fun a t => listUnion a (termVars t)) acc ↔
      v ∈ acc ∨ ∃ t ∈ l, v ∈ termVars t := by
  intro l
  induction l with
  | nil => intro acc; rw [List.foldl_nil]; simp
  | cons t l ih =>
    intro acc
    rw [List.foldl_cons, ih, mem_listUnion]
    constructor
    · rintro ((h | h) | ⟨t', ht', hv⟩)
      · exact .inl h
      · exact .inr ⟨t, List.mem_cons_self _ _, h⟩
      · exact .inr ⟨t', List.mem_cons_of_mem _ ht', hv⟩
    · rintro (h | ⟨t', ht', hv⟩)
      · exact .inl (.inl h)
      · rcases List.mem_cons.mp ht' with h | h
        · exact .inl (.inr (h ▸ hv))
        · exact .inr ⟨t', h, hv⟩

end Unif

namespace Unif

open TypeInf (PyErr dictLookup)

/-! ### C5, layer 4: `UnionFind` refinement against a closed variable set

Throughout, `S` is an arbitrary set of names (in the application, the
variable set of the selected multiequation).  The invariant is that every
parent pointer stays on the same side of `S` as its child; it is kept by
`union` whenever the two arguments agree on `S`, and by the path
compression of `find`. -/

/-- `union` never changes the key list. -/
theorem UF.union_keys (uf : UF) (a b : String) :
    (uf.union a b).keys = uf.keys := by
  rw [UF.union]
  by_cases h : uf.par a = uf.par b
  · rw [if_pos h]
  · rw [if_neg h]

/-- `union` preserves the `S`-invariant when its arguments agree on `S`. -/
theorem UF.union_S (S : String → Prop) (uf : UF) (a b : String)
    (hinv : ∀ x, S x ↔ S (uf.par x)) (hab : S a ↔ S b) :
    ∀ x, S x ↔ S ((uf.union a b).par x) := by
  intro x
  rw [UF.union]
  by_cases h : uf.par a = uf.par b
  · rw [if_pos h]
    exact hinv x
  · rw [if_neg h]
    show S x ↔ S (if x = uf.par b then uf.par a else uf.par x)
    by_cases hx : x = uf.par b
    · rw [if_pos hx, hx]
      calc S (uf.par b) ↔ S b := (hinv b).symm
        _ ↔ S a := hab.symm
        _ ↔ S (uf.par a) := hinv a
    · rw [if_neg hx]
      exact hinv x

/-- `find` preserves the `S`-invariant, returns an `S`-equivalent root,
and keeps the key list. -/
theorem UF.find_S (S : String → Prop) : ∀ (fuel : Nat) (uf : UF) (v : String)
    (root : String) (uf' : UF),
    (∀ x, S x ↔ S (uf.par x)) →
    UF.find fuel uf v = some (root, uf') →
    (S v ↔ S root) ∧ (∀ x, S x ↔ S (uf'.par x)) ∧ uf'.keys = uf.keys := by
  intro fuel
  induction fuel with
  | zero => intro uf v root uf' _ h; cases h
  | succ fuel ih =>
    intro uf v root uf' hinv h
    rw [UF.find] at h
    by_cases hv : uf.par v = v
    · rw [if_pos hv] at h
      have h1 : (v, uf) = (root, uf') := by injection h
      injection h1 with h1a h1b
      rw [← h1a, ← h1b]
      exact ⟨Iff.rfl, hinv, rfl⟩
    · rw [if_neg hv] at h
      cases hrec : UF.find fuel uf (uf.par v) with
      | none => rw [hrec] at h; cases h
      | some p =>
        rw [hrec] at h
        match p, hrec, h with
        | (r, uf1), hrec, h =>
          obtain ⟨hr1, hinv1, hk1⟩ := ih uf (uf.par v) r uf1 hinv hrec
          have h1 : (r, { uf1 with par := fun x => if x = v then r else uf1.par x })
              = (root, uf') := by
            have := Option.some.inj h
            exact this
          injection h1 with h1a h1b
          refine ⟨?_, ?_, ?_⟩
          · rw [← h1a]
            exact (hinv v).trans hr1
          · intro x
            rw [← h1b]
            show S x ↔ S (if x = v then r else uf1.par x)
            by_cases hx : x = v
            · rw [if_pos hx, hx]
              exact (hinv v).trans hr1
            · rw [if_neg hx]
              exact hinv1 x
          · rw [← h1b]
            exact hk1

/-- `union_all` preserves the `S`-invariant and the keys when all the
variables passed agree on `S`. -/
theorem UF.union_all_S (S : String → Prop) (vars : List String) (uf : UF)
    (hinv : ∀ x, S x ↔ S (uf.par x))
    (hagree : ∀ v ∈ vars, ∀ w ∈ vars, (S v ↔ S w)) :
    (∀ x, S x ↔ S ((uf.union_all vars).par x)) ∧
      (uf.union_all vars).keys = uf.keys := by
  match vars, hagree with
  | [], _ => exact ⟨hinv, rfl⟩
  | v1 :: rest, hagree =>
    show (∀ x, S x ↔ S ((rest.foldl (fun u v => u.union v1 v) uf).par x)) ∧
      (rest.foldl (fun u v => u.union v1 v) uf).keys = uf.keys
    have go : ∀ (l : List String) (u : UF),
        (∀ x, S x ↔ S (u.par x)) → u.keys = uf.keys →
        (∀ v ∈ l, S v1 ↔ S v) →
        (∀ x, S x ↔ S ((l.foldl (fun u v => u.union v1 v) u).par x)) ∧
          (l.foldl (fun u v => u.union v1 v) u).keys = uf.keys := by
      intro l
      induction l with
      | nil => intro u hu hk _; exact ⟨hu, hk⟩
      | cons w l ihl =>
        intro u hu hk hl
        rw [List.foldl_cons]
        refine ihl (u.union v1 w) ?_ ?_ ?_
        · exact UF.union_S S u v1 w hu (hl w (List.mem_cons_self _ _))
        · rw [UF.union_keys]; exact hk
        · intro v hv; exact hl v (List.mem_cons_of_mem _ hv)
    refine go rest uf hinv rfl ?_
    intro v hv
    exact hagree v1 (List.mem_cons_self _ _) v (List.mem_cons_of_mem _ hv)

/-- The union fold of `compactify` preserves the `S`-invariant and the
keys, provided every multiequation's variable set lies inside or outside
`S`. -/
theorem UF.fold_unions_S (S : String → Prop) :
    ∀ (meqs : List Meq) (uf : UF),
    (∀ x, S x ↔ S (uf.par x)) →
    (∀ m ∈ meqs, (∀ v ∈ m.vars, S v) ∨ (∀ v ∈ m.vars, ¬ S v)) →
    (∀ x, S x ↔ S ((meqs.foldl
      (fun u m => if m.vars.length ≥ 2 then u.union_all m.vars else u) uf).par x)) ∧
    (meqs.foldl
      (fun u m => if m.vars.length ≥ 2 then u.union_all m.vars else u) uf).keys
      = uf.keys := by
  intro meqs
  induction meqs with
  | nil => intro uf hinv _; exact ⟨hinv, rfl⟩
  | cons m meqs ih =>
    intro uf hinv hS
    rw [List.foldl_cons]
    have hagree : ∀ v ∈ m.vars, ∀ w ∈ m.vars, (S v ↔ S w) := by
      rcases hS m (List.mem_cons_self _ _) with h | h
      · intro v hv w hw
        exact iff_of_true (h v hv) (h w hw)
      · intro v hv w hw
        exact iff_of_false (h v hv) (h w hw)
    by_cases hlen : m.vars.length ≥ 2
    · rw [if_pos hlen]
      obtain ⟨hinv2, hk2⟩ := UF.union_all_S S m.vars uf hinv hagree
      obtain ⟨hinv3, hk3⟩ := ih (uf.union_all m.vars) hinv2
        (fun m' hm' => hS m' (List.mem_cons_of_mem _ hm'))
      exact ⟨hinv3, hk3.trans hk2⟩
    · rw [if_neg hlen]
      exact ih uf hinv (fun m' hm' => hS m' (List.mem_cons_of_mem _ hm'))

end Unif

namespace Unif

open TypeInf (PyErr dictLookup)

/-! ### C5, layer 5: the partition computed by `get_sets` -/

/-- `v` is a member of one of the accumulated groups. -/
def gmem (groups : List (String × List String)) (v : String) : Prop :=
  ∃ p ∈ groups, v ∈ p.2

/-- Group membership is membership of the concatenation of the groups. -/
theorem gmem_iff_join (groups : List (String × List String)) (v : String) :
    gmem groups v ↔ v ∈ (groups.map Prod.snd).join := by
  rw [gmem, List.mem_join]
  constructor
  · rintro ⟨p, hp, hv⟩
    exact ⟨p.2, List.mem_map.mpr ⟨p, hp, rfl⟩, hv⟩
  · rintro ⟨l, hl, hv⟩
    obtain ⟨p, hp, hpl⟩ := List.mem_map.mp hl
    exact ⟨p, hp, hpl ▸ hv⟩

/-- Updating a group keyed by an absent root is the identity. -/
theorem upd_map_id (root : String) (v : String) :
    ∀ (groups : List (String × List String)), (∀ p ∈ groups, p.1 ≠ root) →
    groups.map (fun g => if g.1 = root then (g.1, g.2 ++ [v]) else g) = groups := by
  intro groups
  induction groups with
  | nil => intro _; rfl
  | cons p ps ih =>
    intro hne
    rw [List.map_cons, if_neg (hne p (List.mem_cons_self _ _)),
      ih (fun q hq => hne q (List.mem_cons_of_mem _ hq))]

/-- Appending a fresh element to a group with distinct keys: key list,
member provenance, membership, and duplicate-freeness of the members. -/
theorem upd_group_spec (root : String) (v : String) :
    ∀ (groups : List (String × List String)),
    (groups.map Prod.fst).Nodup →
    ((groups.map (fun g => if g.1 = root then (g.1, g.2 ++ [v]) else g)).map
        Prod.fst = groups.map Prod.fst) ∧
    (∀ q ∈ groups.map (fun g => if g.1 = root then (g.1, g.2 ++ [v]) else g),
      ∀ w ∈ q.2, (∃ p ∈ groups, p.1 = q.1 ∧ w ∈ p.2) ∨ (w = v ∧ q.1 = root)) ∧
    (∀ w, gmem (groups.map (fun g => if g.1 = root then (g.1, g.2 ++ [v]) else g)) w
      ↔ (gmem groups w ∨ (w = v ∧ ∃ p ∈ groups, p.1 = root))) ∧
    (¬ gmem groups v → ((groups.map Prod.snd).join).Nodup →
      (((groups.map (fun g => if g.1 = root then (g.1, g.2 ++ [v]) else g)).map
        Prod.snd).join).Nodup) := by
  intro groups
  induction groups with
  | nil =>
    intro _
    refine ⟨rfl, ?_, ?_, ?_⟩
    · intro q hq; cases hq
    · intro w
      constructor
      · rintro ⟨p, hp, _⟩; cases hp
      · rintro (⟨p, hp, _⟩ | ⟨_, p, hp, _⟩) <;> cases hp
    · intro _ h; exact h
  | cons p ps ih =>
    intro hnd
    have hnd' : (ps.map Prod.fst).Nodup := (List.nodup_cons.mp hnd).2
    have hp1 : p.1 ∉ ps.map Prod.fst := (List.nodup_cons.mp hnd).1
    obtain ⟨ihfst, ihprov, ihmem, ihnd⟩ := ih hnd'
    by_cases hroot : p.1 = root
    · have hpsid : ps.map (fun g => if g.1 = root then (g.1, g.2 ++ [v]) else g)
          = ps := by
        refine upd_map_id root v ps ?_
        intro q hq hq1
        exact hp1 (List.mem_map.mpr ⟨q, hq, by rw [hq1, hroot]⟩)
      rw [List.map_cons, if_pos hroot, hpsid]
      refine ⟨?_, ?_, ?_, ?_⟩
      · rw [List.map_cons]
        rfl
      · intro q hq w hw
        rcases List.mem_cons.mp hq with hq | hq
        · rw [hq] at hw ⊢
          rcases List.mem_append.mp hw with hw | hw
          · exact .inl ⟨p, List.mem_cons_self _ _, rfl, hw⟩
          · exact .inr ⟨List.mem_singleton.mp hw, hroot⟩
        · exact .inl ⟨q, List.mem_cons_of_mem _ hq, rfl, hw⟩
      · intro w
        constructor
        · rintro ⟨q, hq, hw⟩
          rcases List.mem_cons.mp hq with hq | hq
          · rw [hq] at hw
            rcases List.mem_append.mp hw with hw | hw
            · exact .inl ⟨p, List.mem_cons_self _ _, hw⟩
            · exact .inr ⟨List.mem_singleton.mp hw,
                p, List.mem_cons_self _ _, hroot⟩
          · exact .inl ⟨q, List.mem_cons_of_mem _ hq, hw⟩
        · rintro (⟨q, hq, hw⟩ | ⟨hwv, _⟩)
          · rcases List.mem_cons.mp hq with hq | hq
            · refine ⟨(p.1, p.2 ++ [v]), List.mem_cons_self _ _, ?_⟩
              show w ∈ p.2 ++ [v]
              exact List.mem_append.mpr (.inl (hq ▸ hw))
            · exact ⟨q, List.mem_cons_of_mem _ hq, hw⟩
          · refine ⟨(p.1, p.2 ++ [v]), List.mem_cons_self _ _, ?_⟩
            show w ∈ p.2 ++ [v]
            exact List.mem_append.mpr (.inr (by rw [hwv]; exact List.mem_singleton.mpr rfl))
      · intro hvfresh hjnd
        rw [List.map_cons, List.join] at hjnd ⊢
        show ((p.2 ++ [v]) ++ (ps.map Prod.snd).join).Nodup
        have h1 : p.2.Nodup := hjnd.of_append_left
        have h2 : ((ps.map Prod.snd).join).Nodup := hjnd.of_append_right
        have h3 : ∀ x ∈ p.2, x ∉ (ps.map Prod.snd).join :=
          fun x hx => List.disjoint_of_nodup_append hjnd hx
        have hvp : v ∉ p.2 := fun hv => hvfresh ⟨p, List.mem_cons_self _ _, hv⟩
        have hvj : v ∉ (ps.map Prod.snd).join := by
          intro hv
          exact hvfresh ((gmem_iff_join ps v).mpr hv |>.elim
            (fun q hq => ⟨q, List.mem_cons_of_mem _ hq.1, hq.2⟩))
        refine List.Nodup.append ?_ h2 ?_
        · refine List.Nodup.append h1 (List.nodup_singleton v) ?_
          intro x hx hx'
          rw [List.mem_singleton.mp hx'] at hx
          exact hvp hx
        · intro x hx hx'
          rcases List.mem_append.mp hx with hx | hx
          · exact h3 x hx hx'
          · rw [List.mem_singleton.mp hx] at hx'
            exact hvj hx'
    · rw [List.map_cons, if_neg hroot]
      refine ⟨?_, ?_, ?_, ?_⟩
      · rw [List.map_cons, List.map_cons, ihfst]
      · intro q hq w hw
        rcases List.mem_cons.mp hq with hq | hq
        · rw [hq] at hw ⊢
          exact .inl ⟨p, List.mem_cons_self _ _, rfl, hw⟩
        · rcases ihprov q hq w hw with ⟨p', hp', hp1', hw'⟩ | h
          · exact .inl ⟨p', List.mem_cons_of_mem _ hp', hp1', hw'⟩
          · exact .inr h
      · intro w
        constructor
        · rintro ⟨q, hq, hw⟩
          rcases List.mem_cons.mp hq with hq | hq
          · exact .inl ⟨p, List.mem_cons_self _ _, hq ▸ hw⟩
          · rcases (ihmem w).mp ⟨q, hq, hw⟩ with ⟨q', hq', hw'⟩ | ⟨hwv, q', hq', hr⟩
            · exact .inl ⟨q', List.mem_cons_of_mem _ hq', hw'⟩
            · exact .inr ⟨hwv, q', List.mem_cons_of_mem _ hq', hr⟩
        · rintro (⟨q, hq, hw⟩ | ⟨hwv, q, hq, hr⟩)
          · rcases List.mem_cons.mp hq with hq | hq
            · exact ⟨p, List.mem_cons_self _ _, hq ▸ hw⟩
            · obtain ⟨q', hq', hw'⟩ := (ihmem w).mpr (.inl ⟨q, hq, hw⟩)
              exact ⟨q', List.mem_cons_of_mem _ hq', hw'⟩
          · rcases List.mem_cons.mp hq with hq | hq
            · exact absurd (hq ▸ hr) hroot
            · obtain ⟨q', hq', hw'⟩ := (ihmem w).mpr (.inr ⟨hwv, q, hq, hr⟩)
              exact ⟨q', List.mem_cons_of_mem _ hq', hw'⟩
      · intro hvfresh hjnd
        rw [List.map_cons, List.join] at hjnd ⊢
        show (p.2 ++ ((ps.map (fun g => if g.1 = root then (g.1, g.2 ++ [v]) else g)).map
          Prod.snd).join).Nodup
        have h1 : p.2.Nodup := hjnd.of_append_left
        have h2 : ((ps.map Prod.snd).join).Nodup := hjnd.of_append_right
        have h3 : ∀ x ∈ p.2, x ∉ (ps.map Prod.snd).join :=
          fun x hx => List.disjoint_of_nodup_append hjnd hx
        have hvfresh' : ¬ gmem ps v := by
          rintro ⟨q, hq, hv⟩
          exact hvfresh ⟨q, List.mem_cons_of_mem _ hq, hv⟩
        refine List.Nodup.append h1 (ihnd hvfresh' h2) ?_
        intro x hx hx'
        have hg : gmem (ps.map (fun g => if g.1 = root then (g.1, g.2 ++ [v]) else g)) x :=
          (gmem_iff_join _ x).mpr hx'
        rcases (ihmem x).mp hg with hold | ⟨hxv, _⟩
        · exact h3 x hx ((gmem_iff_join ps x).mp hold)
        · rw [hxv] at hx
          exact hvfresh ⟨p, List.mem_cons_self _ _, hx⟩

end Unif

namespace Unif

open TypeInf (PyErr dictLookup)

/-- `join` distributes over appending one final group. -/
theorem join_concat : ∀ (L : List (List String)) (g : List String),
    (L ++ [g]).join = L.join ++ g := by
  intro L
  induction L with
  | nil => intro g; simp [List.join]
  | cons a L ih =>
    intro g
    show a ++ (L ++ [g]).join = (a ++ L.join) ++ g
    rw [ih, List.append_assoc]

/-- One-step unfolding of the `get_sets` loop. -/
theorem getSetsGo_cons (v : String) (rest : List String) (uf : UF)
    (groups : List (String × List String)) :
    UF.getSetsGo (v :: rest) uf groups =
      match UF.find (uf.keys.length + 1) uf v with
      | none => none
      | some (root, uf2) =>
        UF.getSetsGo rest uf2
          (if groups.any (fun g => g.1 = root) then
            groups.map (fun g => if g.1 = root then (g.1, g.2 ++ [v]) else g)
          else groups ++ [(root, [v])]) := rfl

/-- The `get_sets` loop: every group member shares its root's side of `S`,
the members of the output are the members of the input groups plus the
pending keys, and the output members are duplicate-free. -/
theorem UF.getSetsGo_spec (S : String → Prop) : ∀ (todo : List String) (uf : UF)
    (groups out : List (String × List String)),
    (∀ x, S x ↔ S (uf.par x)) →
    (∀ p ∈ groups, ∀ v ∈ p.2, (S v ↔ S p.1)) →
    todo.Nodup →
    (groups.map Prod.fst).Nodup →
    ((groups.map Prod.snd).join).Nodup →
    (∀ v ∈ todo, ¬ gmem groups v) →
    UF.getSetsGo todo uf groups = some out →
    (∀ p ∈ out, ∀ v ∈ p.2, (S v ↔ S p.1)) ∧
    (∀ v, gmem out v ↔ (gmem groups v ∨ v ∈ todo)) ∧
    ((out.map Prod.snd).join).Nodup := by
  intro todo
  induction todo with
  | nil =>
    intro uf groups out hinv hrel _ _ hjnd _ h
    have hgo : some groups = some out := h
    have hout : groups = out := by injection hgo
    rw [← hout]
    refine ⟨hrel, ?_, hjnd⟩
    intro v
    simp [gmem]
  | cons v rest ih =>
    intro uf groups out hinv hrel hnd hfst hjnd hfresh h
    rw [getSetsGo_cons] at h
    cases hfind : UF.find (uf.keys.length + 1) uf v with
    | none => rw [hfind] at h; cases h
    | some p =>
      rw [hfind] at h
      match p, hfind, h with
      | (root, uf2), hfind, h =>
        obtain ⟨hvroot, hinv2, _⟩ := UF.find_S S _ uf v root uf2 hinv hfind
        have hvfresh : ¬ gmem groups v := hfresh v (List.mem_cons_self _ _)
        have hndrest : rest.Nodup := (List.nodup_cons.mp hnd).2
        have hvrest : v ∉ rest := (List.nodup_cons.mp hnd).1
        have h : UF.getSetsGo rest uf2
            (if groups.any (fun g => g.1 = root) then
              groups.map (fun g => if g.1 = root then (g.1, g.2 ++ [v]) else g)
            else groups ++ [(root, [v])]) = some out := h
        by_cases hany : groups.any (fun g => g.1 = root) = true
        · rw [if_pos hany] at h
          obtain ⟨q0, hq0, hq0r⟩ : ∃ q ∈ groups, q.1 = root := by
            obtain ⟨q, hq, hq1⟩ := List.any_eq_true.mp hany
            exact ⟨q, hq, of_decide_eq_true hq1⟩
          obtain ⟨hfst', hprov, hmem, hnodup⟩ := upd_group_spec root v groups hfst
          have hrel' : ∀ p ∈ groups.map
              (fun g => if g.1 = root then (g.1, g.2 ++ [v]) else g),
              ∀ w ∈ p.2, (S w ↔ S p.1) := by
            intro p hp w hw
            rcases hprov p hp w hw with ⟨p', hp', hp1', hw'⟩ | ⟨hwv, hp1⟩
            · rw [← hp1']
              exact hrel p' hp' w hw'
            · rw [hwv, hp1]
              exact hvroot
          have hfresh' : ∀ w ∈ rest, ¬ gmem (groups.map
              (fun g => if g.1 = root then (g.1, g.2 ++ [v]) else g)) w := by
            intro w hw hg
            rcases (hmem w).mp hg with hold | ⟨hwv, _⟩
            · exact hfresh w (List.mem_cons_of_mem _ hw) hold
            · rw [hwv] at hw
              exact hvrest hw
          obtain ⟨c1, c2, c3⟩ := ih uf2 _ out hinv2 hrel' hndrest
            (by rw [hfst']; exact hfst) (hnodup hvfresh hjnd) hfresh' h
          refine ⟨c1, ?_, c3⟩
          intro w
          rw [c2 w, hmem w]
          constructor
          · rintro ((hg | ⟨hwv, _⟩) | hr)
            · exact .inl hg
            · exact .inr (by rw [hwv]; exact List.mem_cons_self _ _)
            · exact .inr (List.mem_cons_of_mem _ hr)
          · rintro (hg | hr)
            · exact .inl (.inl hg)
            · rcases List.mem_cons.mp hr with hw | hw
              · exact .inl (.inr ⟨hw, q0, hq0, hq0r⟩)
              · exact .inr hw
        · rw [if_neg hany] at h
          have hno : ∀ q ∈ groups, q.1 ≠ root := by
            intro q hq hq1
            exact hany (List.any_eq_true.mpr ⟨q, hq, decide_eq_true hq1⟩)
          have hrel' : ∀ p ∈ groups ++ [(root, [v])], ∀ w ∈ p.2, (S w ↔ S p.1) := by
            intro p hp w hw
            rcases List.mem_append.mp hp with hp | hp
            · exact hrel p hp w hw
            · rw [List.mem_singleton.mp hp] at hw ⊢
              rw [List.mem_singleton.mp hw]
              exact hvroot
          have hfst' : ((groups ++ [(root, [v])]).map Prod.fst).Nodup := by
            rw [List.map_append]
            refine List.Nodup.append hfst (List.nodup_singleton root) ?_
            intro x hx hx'
            rw [List.mem_singleton.mp hx'] at hx
            obtain ⟨q, hq, hq1⟩ := List.mem_map.mp hx
            exact hno q hq hq1
          have hjnd' : (((groups ++ [(root, [v])]).map Prod.snd).join).Nodup := by
            rw [List.map_append]
            show (((groups.map Prod.snd) ++ [[v]]).join).Nodup
            rw [join_concat]
            refine List.Nodup.append hjnd ?_ ?_
            · show ([v] : List String).Nodup
              simp
            · intro x hx hx'
              have hxv : x = v := List.mem_singleton.mp hx'
              rw [hxv] at hx
              exact hvfresh ((gmem_iff_join groups v).mpr hx)
          have hfresh' : ∀ w ∈ rest, ¬ gmem (groups ++ [(root, [v])]) w := by
            rintro w hw ⟨q, hq, hwq⟩
            rcases List.mem_append.mp hq with hq | hq
            · exact hfresh w (List.mem_cons_of_mem _ hw) ⟨q, hq, hwq⟩
            · rw [List.mem_singleton.mp hq] at hwq
              rw [List.mem_singleton.mp hwq] at hw
              exact hvrest hw
          obtain ⟨c1, c2, c3⟩ := ih uf2 _ out hinv2 hrel' hndrest hfst' hjnd' hfresh' h
          refine ⟨c1, ?_, c3⟩
          intro w
          rw [c2 w]
          constructor
          · rintro (⟨q, hq, hwq⟩ | hr)
            · rcases List.mem_append.mp hq with hq | hq
              · exact .inl ⟨q, hq, hwq⟩
              · rw [List.mem_singleton.mp hq] at hwq
                exact .inr (by
                  rw [List.mem_singleton.mp hwq]
                  exact List.mem_cons_self _ _)
            · exact .inr (List.mem_cons_of_mem _ hr)
          · rintro (⟨q, hq, hwq⟩ | hr)
            · exact .inl ⟨q, List.mem_append.mpr (.inl hq), hwq⟩
            · rcases List.mem_cons.mp hr with hw | hw
              · refine .inl ⟨(root, [v]), List.mem_append.mpr (.inr (List.mem_singleton.mpr rfl)), ?_⟩
                rw [hw]
                exact List.mem_singleton.mpr rfl
              · exact .inr hw

/-- `get_sets` on a duplicate-free key list whose parent map respects `S`:
each set lies inside or outside `S`, the sets cover exactly the keys, and
their concatenation is duplicate-free. -/
theorem UF.get_sets_spec (S : String → Prop) (uf : UF)
    (sets : List (List String))
    (hinv : ∀ x, S x ↔ S (uf.par x)) (hkeys : uf.keys.Nodup)
    (h : uf.get_sets = some sets) :
    (∀ g ∈ sets, (∀ v ∈ g, S v) ∨ (∀ v ∈ g, ¬ S v)) ∧
    (∀ v, (∃ g ∈ sets, v ∈ g) ↔ v ∈ uf.keys) ∧
    sets.join.Nodup := by
  rw [UF.get_sets] at h
  cases hgo : UF.getSetsGo uf.keys uf [] with
  | none => rw [hgo] at h; cases h
  | some out =>
    rw [hgo] at h
    have hsets : out.map Prod.snd = sets := by
      have := h
      injection this
    obtain ⟨c1, c2, c3⟩ := UF.getSetsGo_spec S uf.keys uf [] out hinv
      (by intro p hp; cases hp) hkeys (by constructor)
      (by constructor) (by rintro v _ ⟨p, hp, _⟩; cases hp) hgo
    refine ⟨?_, ?_, hsets ▸ c3⟩
    · intro g hg
      rw [← hsets] at hg
      obtain ⟨p, hp, hpg⟩ := List.mem_map.mp hg
      by_cases hS : S p.1
      · exact .inl (fun v hv => ((c1 p hp v (hpg ▸ hv)).mpr hS))
      · exact .inr (fun v hv hSv => hS ((c1 p hp v (hpg ▸ hv)).mp hSv))
    · intro v
      rw [← hsets]
      have hm : (∃ g ∈ out.map Prod.snd, v ∈ g) ↔ gmem out v := by
        constructor
        · rintro ⟨g, hg, hv⟩
          obtain ⟨p, hp, hpg⟩ := List.mem_map.mp hg
          exact ⟨p, hp, hpg ▸ hv⟩
        · rintro ⟨p, hp, hv⟩
          exact ⟨p.2, List.mem_map.mpr ⟨p, hp, rfl⟩, hv⟩
      rw [hm, c2 v]
      constructor
      · rintro (⟨p, hp, _⟩ | hk)
        · cases hp
        · exact hk
      · intro hk
        exact .inr hk

end Unif

namespace Unif

open TypeInf (PyErr dictLookup)

/-! ### C5, layer 6: term accounting of `compactify` -/

/-- The group index a multiequation's terms are attached to: the
`var_to_meq` entry of its first variable. -/
def headIdx (vm : List (String × Nat)) (m : Meq) : Option Nat :=
  match m.vars with
  | [] => none
  | v :: _ => dictLookup vm v

/-- The terms contributed to group `k` by a list of multiequations,
in processing order. -/
def contrib (vm : List (String × Nat)) (k : Nat) : List Meq → List Term
  | [] => []
  | m :: rest => (if headIdx vm m = some k then m.terms else []) ++ contrib vm k rest

/-- Successful `attachTerms` appends to each group exactly the terms
contributed to it. -/
theorem attachTerms_ok_get (vm : List (String × Nat)) :
    ∀ (meqs : List Meq) (comp comp' : List Meq),
    attachTerms vm meqs comp = .ok comp' →
    ∀ k, comp'.get? k =
      (comp.get? k).map (fun g => ⟨g.vars, g.terms ++ contrib vm k meqs⟩) := by
  intro meqs
  induction meqs with
  | nil =>
    intro comp comp' h k
    have hc : comp = comp' := by
      rw [attachTerms] at h
      injection h
    rw [← hc, contrib]
    cases hg : comp.get? k with
    | none => rfl
    | some g =>
      show some g = some ⟨g.vars, g.terms ++ []⟩
      rw [List.append_nil]
  | cons m rest ihm =>
    intro comp comp' h k
    rw [attachTerms] at h
    cases hv : m.vars with
    | nil => rw [hv] at h; cases h
    | cons v vt =>
      rw [hv] at h
      have h : (match dictLookup vm v with
          | none => Except.error (PyErr.keyError v)
          | some idx => attachTerms vm rest
              (listModify comp idx (fun g => { g with terms := g.terms ++ m.terms }))
          : Except PyErr (List Meq)) = .ok comp' := h
      cases hl : dictLookup vm v with
      | none => rw [hl] at h; cases h
      | some idx =>
        rw [hl] at h
        have ih := ihm _ comp' h k
        rw [ih, listModify_get?]
        have hhead : headIdx vm m = some idx := by
          rw [headIdx, hv]
          exact hl
        by_cases hk : k = idx
        · rw [if_pos hk, contrib, hhead, ← hk, if_pos rfl]
          cases hg : comp.get? k with
          | none => rfl
          | some g =>
            show (some (Meq.mk g.vars ((g.terms ++ m.terms) ++ contrib vm k rest))
                : Option Meq)
              = some (Meq.mk g.vars (g.terms ++ (m.terms ++ contrib vm k rest)))
            rw [List.append_assoc]
        · rw [if_neg hk, contrib, hhead,
            if_neg (fun hx => hk (by injection hx; rename_i hx2; rw [hx2]))]
          cases hg : comp.get? k with
          | none => rfl
          | some g => rfl

/-- Nothing is contributed to a group no multiequation points at. -/
theorem contrib_eq_nil (vm : List (String × Nat)) (k : Nat) :
    ∀ (l : List Meq), (∀ m ∈ l, headIdx vm m ≠ some k) →
    contrib vm k l = [] := by
  intro l
  induction l with
  | nil => intro _; rfl
  | cons m rest ih =>
    intro hno
    rw [contrib, if_neg (hno m (List.mem_cons_self _ _)),
      ih (fun m' hm' => hno m' (List.mem_cons_of_mem _ hm')), List.nil_append]

/-- If at most one position contributes to group `k`, and that position
holds at most one term, the group receives at most one term. -/
theorem contrib_len_le_one (vm : List (String × Nat)) (k : Nat) :
    ∀ (l : List Meq),
    (∀ p q mp mq, l.get? p = some mp → l.get? q = some mq →
      headIdx vm mp = some k → headIdx vm mq = some k → p = q) →
    (∀ m ∈ l, headIdx vm m = some k → m.terms.length ≤ 1) →
    (contrib vm k l).length ≤ 1 := by
  intro l
  induction l with
  | nil => intro _ _; exact Nat.le_of_lt Nat.one_pos
  | cons m rest ih =>
    intro huniq hlen
    rw [contrib]
    by_cases hm : headIdx vm m = some k
    · rw [if_pos hm]
      have hrest : contrib vm k rest = [] := by
        refine contrib_eq_nil vm k rest ?_
        intro m' hm' hh'
        obtain ⟨q, hq⟩ := List.get?_of_mem hm'
        have : (0 : Nat) = q + 1 := huniq 0 (q + 1) m m' rfl hq hm hh'
        cases this
      rw [hrest, List.append_nil]
      exact hlen m (List.mem_cons_self _ _) hm
    · rw [if_neg hm, List.nil_append]
      refine ih ?_ ?_
      · intro p q mp mq hp hq hhp hhq
        have : p + 1 = q + 1 := huniq (p + 1) (q + 1) mp mq hp hq hhp hhq
        exact Nat.succ.inj this
      · intro m' hm' hh'
        exact hlen m' (List.mem_cons_of_mem _ hm') hh'

/-- Positional provenance of a contributed term. -/
theorem contrib_mem (vm : List (String × Nat)) (k : Nat) :
    ∀ (l : List Meq) (t : Term), t ∈ contrib vm k l →
    ∃ p m, l.get? p = some m ∧ headIdx vm m = some k ∧ t ∈ m.terms := by
  intro l
  induction l with
  | nil => intro t ht; cases ht
  | cons m rest ih =>
    intro t ht
    rw [contrib] at ht
    rcases List.mem_append.mp ht with ht | ht
    · by_cases hm : headIdx vm m = some k
      · rw [if_pos hm] at ht
        exact ⟨0, m, rfl, hm, ht⟩
      · rw [if_neg hm] at ht
        cases ht
    · obtain ⟨p, m', hp, hh', ht'⟩ := ih t ht
      exact ⟨p + 1, m', hp, hh', ht'⟩

/-- Case analysis for a successful search over an appended list. -/
theorem find?_append_split {α : Type} (p : α → Bool) :
    ∀ (l1 l2 : List α) (a : α), (l1 ++ l2).find? p = some a →
    (a ∈ l1 ∧ p a = true) ∨ (l1.find? p = none ∧ l2.find? p = some a) := by
  intro l1
  induction l1 with
  | nil => intro l2 a h; exact .inr ⟨rfl, h⟩
  | cons x l1 ih =>
    intro l2 a h
    by_cases hx : p x = true
    · rw [List.cons_append, List.find?_cons_of_pos _ hx] at h
      have hxa : x = a := by injection h
      exact .inl ⟨by rw [hxa]; exact List.mem_cons_self _ _, hxa ▸ hx⟩
    · rw [List.cons_append, List.find?_cons_of_neg _ (by simpa using hx)] at h
      rcases ih l2 a h with ⟨hm, hp⟩ | ⟨h1, h2⟩
      · exact .inl ⟨List.mem_cons_of_mem _ hm, hp⟩
      · exact .inr ⟨by
          rw [List.find?_cons_of_neg _ (by simpa using hx)]
          exact h1, h2⟩

/-- A hit in the `var_to_meq` map locates the variable in the
corresponding group. -/
theorem buildVarToMeq_lookup :
    ∀ (sets : List (List String)) (i0 : Nat) (v : String) (k : Nat),
    dictLookup (buildVarToMeq sets i0) v = some k →
    ∃ g, i0 ≤ k ∧ sets.get? (k - i0) = some g ∧ v ∈ g := by
  intro sets
  induction sets with
  | nil => intro i0 v k h; cases h
  | cons g rest ih =>
    intro i0 v k h
    rw [buildVarToMeq, dictLookup] at h
    cases hfind : (g.map (fun v => (v, i0)) ++ buildVarToMeq rest (i0 + 1)).find?
        (fun p => p.1 = v) with
    | none => rw [hfind] at h; cases h
    | some p =>
      rw [hfind] at h
      have hk : p.2 = k := by injection h
      rcases find?_append_split _ _ _ _ hfind with ⟨hp, hpv⟩ | ⟨hp1, hp2⟩
      · obtain ⟨w, hw, hwp⟩ := List.mem_map.mp hp
        have hv : p.1 = v := of_decide_eq_true hpv
        refine ⟨g, ?_, ?_, ?_⟩
        · rw [← hk, ← hwp]
        · rw [← hk, ← hwp]
          show (g :: rest).get? (i0 - i0) = some g
          rw [Nat.sub_self]
          rfl
        · rw [← hv, ← hwp]
          exact hw
      · have hrest : dictLookup (buildVarToMeq rest (i0 + 1)) v = some k := by
          rw [dictLookup, hp2]
          show some p.2 = some k
          rw [hk]
        obtain ⟨g', hle, hget, hvg⟩ := ih (i0 + 1) v k hrest
        refine ⟨g', Nat.le_of_succ_le hle, ?_, hvg⟩
        have hkpos : k - i0 = (k - (i0 + 1)) + 1 := by
          omega
        rw [hkpos]
        exact hget

end Unif

namespace Unif

open TypeInf (PyErr dictLookup)

/-! ### C5, layer 7: the compactification step -/

/-- What a successful `compactify` guarantees: the groups' variable sets
partition the variables of the input system, each group lies inside or
outside any set `S` that every input multiequation respects, and each
group's terms are exactly the terms contributed to it by the input
multiequations. -/
theorem compactify3_spec (S : String → Prop) (U1 U2 : List Meq)
    (hok : compactify3 U1 = .ok U2)
    (hS : ∀ m ∈ U1, (∀ v ∈ m.vars, S v) ∨ (∀ v ∈ m.vars, ¬ S v)) :
    ∃ varSets : List (List String),
      (∀ k, (U2.get? k).map Meq.vars = varSets.get? k) ∧
      varSets.join.Nodup ∧
      (∀ v, (∃ g ∈ varSets, v ∈ g) ↔ ∃ m ∈ U1, v ∈ m.vars) ∧
      (∀ g ∈ varSets, (∀ v ∈ g, S v) ∨ (∀ v ∈ g, ¬ S v)) ∧
      (∀ k g, U2.get? k = some g →
        g.terms = contrib (buildVarToMeq varSets 0) k U1) := by
  have hok2 : (match (U1.foldl
        (fun u m => if m.vars.length ≥ 2 then u.union_all m.vars else u)
        (UF.init (U1.foldl (fun acc m => listUnion acc m.vars) []))).get_sets with
      | none => (Except.error PyErr.recursionError : Except PyErr (List Meq))
      | some varSets => attachTerms (buildVarToMeq varSets 0) U1
          (varSets.map (fun vs => Meq.mk vs []))) = .ok U2 := hok
  obtain ⟨hinv1, hkeys1⟩ := UF.fold_unions_S S U1
    (UF.init (U1.foldl (fun acc m => listUnion acc m.vars) []))
    (fun x => Iff.rfl) hS
  cases hsets : (U1.foldl
      (fun u m => if m.vars.length ≥ 2 then u.union_all m.vars else u)
      (UF.init (U1.foldl (fun acc m => listUnion acc m.vars) []))).get_sets with
  | none => rw [hsets] at hok2; cases hok2
  | some varSets =>
    rw [hsets] at hok2
    have hkeysNodup : (U1.foldl
        (fun u m => if m.vars.length ≥ 2 then u.union_all m.vars else u)
        (UF.init (U1.foldl (fun acc m => listUnion acc m.vars) []))).keys.Nodup := by
      rw [hkeys1]
      exact listUnion_nodup _ [] List.nodup_nil
    obtain ⟨hgroupS, hcover, hjnd⟩ :=
      UF.get_sets_spec S _ varSets hinv1 hkeysNodup hsets
    refine ⟨varSets, ?_, hjnd, ?_, hgroupS, ?_⟩
    · intro k
      have hget := attachTerms_ok_get (buildVarToMeq varSets 0) U1 _ U2 hok2 k
      rw [hget, List.get?_map]
      cases hvs : varSets.get? k with
      | none => rfl
      | some vs => rfl
    · intro v
      rw [hcover v, hkeys1]
      show v ∈ listUnion [] (U1.foldl (fun acc m => listUnion acc m.vars) [])
        ↔ ∃ m ∈ U1, v ∈ m.vars
      rw [mem_listUnion, mem_foldl_meqVars]
      constructor
      · rintro (h | (h | h))
        · cases h
        · cases h
        · exact h
      · intro h
        exact .inr (.inr h)
    · intro k g hg
      have hget := attachTerms_ok_get (buildVarToMeq varSets 0) U1 _ U2 hok2 k
      rw [hg, List.get?_map] at hget
      cases hvs : varSets.get? k with
      | none =>
        rw [hvs] at hget
        cases hget
      | some vs =>
        rw [hvs] at hget
        have hgeq : g = ⟨vs, [] ++ contrib (buildVarToMeq varSets 0) k U1⟩ := by
          injection hget
        rw [hgeq, List.nil_append]

end Unif

namespace Unif

open TypeInf (PyErr dictLookup)

/-! ### C5, layer 8: what a selected multiequation satisfies -/

/-- The selected multiequation's variables occur in no other left-hand
side and in no right-hand term of the system (its own terms included). -/
theorem selectIdx_spec (U : List Meq) (i : Nat) (h : selectIdx U = some i) :
    ∃ sel, U.get? i = some sel ∧
      (∀ q mq, U.get? q = some mq → q ≠ i → ∀ v ∈ sel.vars, v ∉ mq.vars) ∧
      (∀ q mq, U.get? q = some mq → ∀ t ∈ mq.terms, ∀ v ∈ sel.vars,
        v ∉ termVars t) := by
  rw [selectIdx] at h
  have hp := List.find?_some h
  have hmem := List.mem_of_find?_eq_some h
  have hilt : i < U.length := List.mem_range.mp hmem
  have hp2 : (match U.get? i with
      | none => false
      | some sel =>
        (List.range U.length).all (fun j =>
          (if j = i then true
           else
             match U.get? j with
             | none => true
             | some m => sel.vars.all (fun v => v ∉ m.vars)) &&
          (match U.get? j with
           | none => true
           | some m => m.terms.all (fun t =>
              sel.vars.all (fun v => v ∉ termVars t))))) = true := hp
  cases hgi : U.get? i with
  | none => rw [hgi] at hp2; cases hp2
  | some sel =>
    rw [hgi] at hp2
    have hp3 : ((List.range U.length).all (fun j =>
        (if j = i then true
         else
           match U.get? j with
           | none => true
           | some m => sel.vars.all (fun v => v ∉ m.vars)) &&
        (match U.get? j with
         | none => true
         | some m => m.terms.all (fun t =>
            sel.vars.all (fun v => v ∉ termVars t))))) = true := hp2
    refine ⟨sel, rfl, ?_, ?_⟩
    · intro q mq hq hqi v hv
      obtain ⟨hqlt, -⟩ := List.get?_eq_some.mp hq
      have hj := List.all_eq_true.mp hp3 q (List.mem_range.mpr hqlt)
      have hj2 : ((if q = i then true
           else
             match U.get? q with
             | none => true
             | some m => sel.vars.all (fun v => v ∉ m.vars)) &&
          (match U.get? q with
           | none => true
           | some m => m.terms.all (fun t =>
              sel.vars.all (fun v => v ∉ termVars t)))) = true := hj
      obtain ⟨hA, -⟩ := Bool.and_eq_true_iff.mp hj2
      rw [if_neg hqi, hq] at hA
      have hA2 : (sel.vars.all (fun v => v ∉ mq.vars)) = true := hA
      exact of_decide_eq_true (List.all_eq_true.mp hA2 v hv)
    · intro q mq hq t ht v hv
      obtain ⟨hqlt, -⟩ := List.get?_eq_some.mp hq
      have hj := List.all_eq_true.mp hp3 q (List.mem_range.mpr hqlt)
      have hj2 : ((if q = i then true
           else
             match U.get? q with
             | none => true
             | some m => sel.vars.all (fun v => v ∉ m.vars)) &&
          (match U.get? q with
           | none => true
           | some m => m.terms.all (fun t =>
              sel.vars.all (fun v => v ∉ termVars t)))) = true := hj
      obtain ⟨-, hB⟩ := Bool.and_eq_true_iff.mp hj2
      rw [hq] at hB
      have hB2 : (mq.terms.all (fun t =>
          sel.vars.all (fun v => v ∉ termVars t))) = true := hB
      have hB3 := List.all_eq_true.mp hB2 t ht
      have hB4 : (sel.vars.all (fun v => v ∉ termVars t)) = true := hB3
      exact of_decide_eq_true (List.all_eq_true.mp hB4 v hv)

end Unif

namespace Unif

open TypeInf (PyErr dictLookup)

/-! ### C5, layer 9: the loop invariant of `solve_multiequations` -/

/-- `v` occurs in a left-hand variable set of the system. -/
def inLHS (U : List Meq) (v : String) : Prop := ∃ m ∈ U, v ∈ m.vars

/-- `v` occurs in a right-hand term of the system. -/
def inRHS (U : List Meq) (v : String) : Prop :=
  ∃ m ∈ U, ∃ t ∈ m.terms, v ∈ termVars t

/-- The invariant of the `(U, T)` loop state of Algorithm 3. -/
structure SInv (U T : List Meq) : Prop where
  udisj : ∀ p q mp mq, U.get? p = some mp → U.get? q = some mq → p ≠ q →
    ∀ v ∈ mp.vars, v ∉ mq.vars
  ucov : ∀ m ∈ U, ∀ t ∈ m.terms, ∀ v ∈ termVars t, inLHS U v
  tlen : ∀ m ∈ T, m.terms.length ≤ 1
  tdisj : ∀ p q mp mq, T.get? p = some mp → T.get? q = some mq → p ≠ q →
    ∀ v ∈ mp.vars, v ∉ mq.vars
  tfresh : ∀ m ∈ T, ∀ v ∈ m.vars, ¬ inLHS U v ∧ ¬ inRHS U v
  topo : ∀ i m, T.get? i = some m → ∀ t ∈ m.terms, ∀ v ∈ termVars t,
    (∃ j m', i < j ∧ T.get? j = some m' ∧ v ∈ m'.vars) ∨ inLHS U v

/-- A member of the deleted-index list is a member of the original. -/
theorem mem_of_mem_eraseIdx' {m : Meq} {U : List Meq} {i : Nat}
    (h : m ∈ U.eraseIdx i) : m ∈ U := by
  obtain ⟨k, hk⟩ := List.get?_of_mem h
  rw [eraseIdx_get?] at hk
  by_cases hki : k < i
  · rw [if_pos hki] at hk
    exact List.get?_mem hk
  · rw [if_neg hki] at hk
    exact List.get?_mem hk

/-- A member avoiding the deleted entry survives the deletion. -/
theorem mem_eraseIdx_of_get? {U : List Meq} {i q : Nat} {m : Meq}
    (hq : U.get? q = some m) (hqi : q ≠ i) : m ∈ U.eraseIdx i := by
  by_cases hlt : q < i
  · have h1 : (U.eraseIdx i).get? q = some m := by
      rw [eraseIdx_get?, if_pos hlt]
      exact hq
    exact List.get?_mem h1
  · have hgt : i < q := by omega
    have h1 : (U.eraseIdx i).get? (q - 1) = some m := by
      rw [eraseIdx_get?, if_neg (by omega)]
      have h2 : q - 1 + 1 = q := by omega
      rw [h2]
      exact hq
    exact List.get?_mem h1

end Unif

namespace Unif

open TypeInf (PyErr dictLookup)

/-- Case analysis of a successful `solve_multiequations` iteration:
either the system is empty and the loop returns `T`, or a multiequation
was selected and the new state is one of the two reduction shapes. -/
theorem solveStep3_ok (U T : List Meq) (r : (List Meq × List Meq) ⊕ List Meq)
    (h : solveStep3 U T = .ok r) :
    (U = [] ∧ r = .inr T) ∨
    (∃ i sel, selectIdx U = some i ∧ U.get? i = some sel ∧
      ((sel.terms = [] ∧ r = .inl (U.eraseIdx i, T ++ [sel])) ∨
       (∃ common frontier U2 j moved,
         DECGo (.assertionMsg "clash") (termListSize sel.terms + 1) sel.terms
           = some (.ok (common, frontier)) ∧
         compactify3 ((listModify U i (fun m => { m with terms := [common] }))
           ++ frontier) = .ok U2 ∧
         U2.get? j = some moved ∧
         (∃ v0 ∈ sel.vars, v0 ∈ moved.vars) ∧
         r = .inl (U2.eraseIdx j, T ++ [moved])))) := by
  cases U with
  | nil =>
    have h2 : (Except.ok (.inr T) : Except PyErr ((List Meq × List Meq) ⊕ List Meq))
        = .ok r := h
    have h3 : (Sum.inr T : (List Meq × List Meq) ⊕ List Meq) = r := by injection h2
    exact .inl ⟨rfl, h3.symm⟩
  | cons u0 Ur =>
    refine .inr ?_
    have h2 : (match selectIdx (u0 :: Ur) with
        | none => (.error (.exc "cycle")
            : Except PyErr ((List Meq × List Meq) ⊕ List Meq))
        | some i =>
          match (u0 :: Ur).get? i with
          | none => .error .indexError
          | some sel =>
            if sel.terms.length = 0 then
              .ok (.inl ((u0 :: Ur).eraseIdx i, T ++ [sel]))
            else
              match DECGo (.assertionMsg "clash") (termListSize sel.terms + 1)
                  sel.terms with
              | none => .error .recursionError
              | some (.error e) => .error e
              | some (.ok (common, frontier)) =>
                match compactify3 ((listModify (u0 :: Ur) i
                    (fun m => { m with terms := [common] })) ++ frontier) with
                | .error e => .error e
                | .ok U2 =>
                  match (List.range U2.length).find? (fun j =>
                      match U2.get? j with
                      | none => false
                      | some m => !(sel.vars.all (fun v => v ∉ m.vars))) with
                  | none => .error .valueError
                  | some j =>
                    match U2.get? j with
                    | none => .error .indexError
                    | some moved => .ok (.inl (U2.eraseIdx j, T ++ [moved]))) = .ok r := h
    cases hsel : selectIdx (u0 :: Ur) with
    | none => rw [hsel] at h2; cases h2
    | some i =>
      rw [hsel] at h2
      refine ⟨i, ?_⟩
      have h3 : (match (u0 :: Ur).get? i with
          | none => (.error .indexError
              : Except PyErr ((List Meq × List Meq) ⊕ List Meq))
          | some sel =>
            if sel.terms.length = 0 then
              .ok (.inl ((u0 :: Ur).eraseIdx i, T ++ [sel]))
            else
              match DECGo (.assertionMsg "clash") (termListSize sel.terms + 1)
                  sel.terms with
              | none => .error .recursionError
              | some (.error e) => .error e
              | some (.ok (common, frontier)) =>
                match compactify3 ((listModify (u0 :: Ur) i
                    (fun m => { m with terms := [common] })) ++ frontier) with
                | .error e => .error e
                | .ok U2 =>
                  match (List.range U2.length).find? (fun j =>
                      match U2.get? j with
                      | none => false
                      | some m => !(sel.vars.all (fun v => v ∉ m.vars))) with
                  | none => .error .valueError
                  | some j =>
                    match U2.get? j with
                    | none => .error .indexError
                    | some moved => .ok (.inl (U2.eraseIdx j, T ++ [moved]))) = .ok r := h2
      cases hget : (u0 :: Ur).get? i with
      | none => rw [hget] at h3; cases h3
      | some sel =>
        rw [hget] at h3
        refine ⟨sel, rfl, rfl, ?_⟩
        have h4 : (if sel.terms.length = 0 then
            (.ok (.inl ((u0 :: Ur).eraseIdx i, T ++ [sel]))
              : Except PyErr ((List Meq × List Meq) ⊕ List Meq))
          else
            match DECGo (.assertionMsg "clash") (termListSize sel.terms + 1)
                sel.terms with
            | none => .error .recursionError
            | some (.error e) => .error e
            | some (.ok (common, frontier)) =>
              match compactify3 ((listModify (u0 :: Ur) i
                  (fun m => { m with terms := [common] })) ++ frontier) with
              | .error e => .error e
              | .ok U2 =>
                match (List.range U2.length).find? (fun j =>
                    match U2.get? j with
                    | none => false
                    | some m => !(sel.vars.all (fun v => v ∉ m.vars))) with
                | none => .error .valueError
                | some j =>
                  match U2.get? j with
                  | none => .error .indexError
                  | some moved => .ok (.inl (U2.eraseIdx j, T ++ [moved]))) = .ok r := h3
        by_cases hlen : sel.terms.length = 0
        · rw [if_pos hlen] at h4
          refine .inl ⟨List.length_eq_zero.mp hlen, ?_⟩
          have h5 : (Sum.inl ((u0 :: Ur).eraseIdx i, T ++ [sel])
              : (List Meq × List Meq) ⊕ List Meq) = r := by injection h4
          exact h5.symm
        · rw [if_neg hlen] at h4
          refine .inr ?_
          cases hdec : DECGo (.assertionMsg "clash") (termListSize sel.terms + 1)
              sel.terms with
          | none => rw [hdec] at h4; cases h4
          | some dr =>
            rw [hdec] at h4
            match dr, hdec, h4 with
            | .error e, hdec, h4 => cases h4
            | .ok (common, frontier), hdec, h4 =>
              refine ⟨common, frontier, ?_⟩
              have h5 : (match compactify3 ((listModify (u0 :: Ur) i
                    (fun m => { m with terms := [common] })) ++ frontier) with
                  | .error e => (.error e
                      : Except PyErr ((List Meq × List Meq) ⊕ List Meq))
                  | .ok U2 =>
                    match (List.range U2.length).find? (fun j =>
                        match U2.get? j with
                        | none => false
                        | some m => !(sel.vars.all (fun v => v ∉ m.vars))) with
                    | none => .error .valueError
                    | some j =>
                      match U2.get? j with
                      | none => .error .indexError
                      | some moved => .ok (.inl (U2.eraseIdx j, T ++ [moved])))
                  = .ok r := h4
              cases hcomp : compactify3 ((listModify (u0 :: Ur) i
                  (fun m => { m with terms := [common] })) ++ frontier) with
              | error e => rw [hcomp] at h5; cases h5
              | ok U2 =>
                rw [hcomp] at h5
                refine ⟨U2, ?_⟩
                have h6 : (match (List.range U2.length).find? (fun j =>
                      match U2.get? j with
                      | none => false
                      | some m => !(sel.vars.all (fun v => v ∉ m.vars))) with
                    | none => (.error .valueError
                        : Except PyErr ((List Meq × List Meq) ⊕ List Meq))
                    | some j =>
                      match U2.get? j with
                      | none => .error .indexError
                      | some moved => .ok (.inl (U2.eraseIdx j, T ++ [moved])))
                    = .ok r := h5
                cases hfind : (List.range U2.length).find? (fun j =>
                    match U2.get? j with
                    | none => false
                    | some m => !(sel.vars.all (fun v => v ∉ m.vars))) with
                | none => rw [hfind] at h6; cases h6
                | some j =>
                  rw [hfind] at h6
                  refine ⟨j, ?_⟩
                  have h7 : (match U2.get? j with
                      | none => (.error .indexError
                          : Except PyErr ((List Meq × List Meq) ⊕ List Meq))
                      | some moved => .ok (.inl (U2.eraseIdx j, T ++ [moved])))
                      = .ok r := h6
                  cases hgetj : U2.get? j with
                  | none => rw [hgetj] at h7; cases h7
                  | some moved =>
                    rw [hgetj] at h7
                    refine ⟨moved, rfl, rfl, rfl, ?_, ?_⟩
                    · have hpj := List.find?_some hfind
                      have hpj2 : (match U2.get? j with
                          | none => false
                          | some m => !(sel.vars.all (fun v => v ∉ m.vars)))
                          = true := hpj
                      rw [hgetj] at hpj2
                      have hpj3 : (!(sel.vars.all (fun v => v ∉ moved.vars)))
                          = true := hpj2
                      have hpj4 : (sel.vars.all (fun v => v ∉ moved.vars))
                          = false := by
                        simp at hpj3
                        simp [hpj3]
                      obtain ⟨v0, hv0, hv0'⟩ := List.all_eq_false.mp hpj4
                      refine ⟨v0, hv0, ?_⟩
                      by_cases hin : v0 ∈ moved.vars
                      · exact hin
                      · exact absurd (decide_eq_true hin) hv0'
                    · have h8 : (Sum.inl (U2.eraseIdx j, T ++ [moved])
                          : (List Meq × List Meq) ⊕ List Meq) = r := by injection h7
                      exact h8.symm

end Unif

namespace Unif

open TypeInf (PyErr dictLookup)

/-- `get?` into a list extended by one element. -/
theorem get?_append_singleton (T : List Meq) (x : Meq) (k : Nat) :
    (T ++ [x]).get? k = if k < T.length then T.get? k
      else if k = T.length then some x else none := by
  by_cases h1 : k < T.length
  · rw [if_pos h1, List.get?_append h1]
  · rw [if_neg h1]
    by_cases h2 : k = T.length
    · rw [if_pos h2, List.get?_append_right (by omega)]
      rw [h2, Nat.sub_self]
      rfl
    · rw [if_neg h2, List.get?_append_right (by omega)]
      have h3 : k - T.length = (k - T.length - 1) + 1 := by omega
      rw [h3]
      rfl

/-- Moving a selected multiequation with no right-hand terms from `U`
to `T` preserves the loop invariant. -/
theorem step_remove_inv (U T : List Meq) (i : Nat) (sel : Meq)
    (hinv : SInv U T) (hgeti : U.get? i = some sel)
    (hselA : ∀ q mq, U.get? q = some mq → q ≠ i → ∀ v ∈ sel.vars, v ∉ mq.vars)
    (hselB : ∀ q mq, U.get? q = some mq → ∀ t ∈ mq.terms, ∀ v ∈ sel.vars,
      v ∉ termVars t)
    (hselt : sel.terms = []) :
    SInv (U.eraseIdx i) (T ++ [sel]) := by
  have hselmem : sel ∈ U := List.get?_mem hgeti
  refine ⟨?_, ?_, ?_, ?_, ?_, ?_⟩
  · intro p q mp mq hp hq hpq v hv
    rw [eraseIdx_get?] at hp hq
    by_cases hpi : p < i <;> by_cases hqi : q < i
    · rw [if_pos hpi] at hp; rw [if_pos hqi] at hq
      exact hinv.udisj p q mp mq hp hq hpq v hv
    · rw [if_pos hpi] at hp; rw [if_neg hqi] at hq
      exact hinv.udisj p (q + 1) mp mq hp hq (by omega) v hv
    · rw [if_neg hpi] at hp; rw [if_pos hqi] at hq
      exact hinv.udisj (p + 1) q mp mq hp hq (by omega) v hv
    · rw [if_neg hpi] at hp; rw [if_neg hqi] at hq
      exact hinv.udisj (p + 1) (q + 1) mp mq hp hq (by omega) v hv
  · intro m hm t ht v hv
    have hmU : m ∈ U := mem_of_mem_eraseIdx' hm
    have hvsel : v ∉ sel.vars := by
      intro hvs
      obtain ⟨pm, hpm⟩ := List.get?_of_mem hmU
      exact hselB pm m hpm t ht v hvs hv
    obtain ⟨m', hm', hv'⟩ := hinv.ucov m hmU t ht v hv
    obtain ⟨q, hq⟩ := List.get?_of_mem hm'
    by_cases hqi : q = i
    · rw [hqi, hgeti] at hq
      have : sel = m' := by injection hq
      rw [← this] at hv'
      exact absurd hv' hvsel
    · exact ⟨m', mem_eraseIdx_of_get? hq hqi, hv'⟩
  · intro m hm
    rcases List.mem_append.mp hm with hm | hm
    · exact hinv.tlen m hm
    · rw [List.mem_singleton.mp hm, hselt]
      exact Nat.le_of_lt Nat.one_pos
  · intro p q mp mq hp hq hpq v hvp hvq
    rw [get?_append_singleton] at hp hq
    by_cases hpl : p < T.length <;> by_cases hql : q < T.length
    · rw [if_pos hpl] at hp; rw [if_pos hql] at hq
      exact hinv.tdisj p q mp mq hp hq hpq v hvp hvq
    · rw [if_pos hpl] at hp; rw [if_neg hql] at hq
      by_cases hqe : q = T.length
      · rw [if_pos hqe] at hq
        have hmq : sel = mq := by injection hq
        have hfr := hinv.tfresh mp (List.get?_mem hp) v hvp
        rw [← hmq] at hvq
        exact hfr.1 ⟨sel, hselmem, hvq⟩
      · rw [if_neg hqe] at hq; cases hq
    · rw [if_neg hpl] at hp; rw [if_pos hql] at hq
      by_cases hpe : p = T.length
      · rw [if_pos hpe] at hp
        have hmp : sel = mp := by injection hp
        have hfr := hinv.tfresh mq (List.get?_mem hq) v hvq
        rw [← hmp] at hvp
        exact hfr.1 ⟨sel, hselmem, hvp⟩
      · rw [if_neg hpe] at hp; cases hp
    · by_cases hpe : p = T.length <;> by_cases hqe : q = T.length
      · exact absurd (hpe.trans hqe.symm) hpq
      · rw [if_neg hql, if_neg hqe] at hq; cases hq
      · rw [if_neg hpl, if_neg hpe] at hp; cases hp
      · rw [if_neg hpl, if_neg hpe] at hp; cases hp
  · intro m hm v hv
    rcases List.mem_append.mp hm with hm | hm
    · obtain ⟨hL, hR⟩ := hinv.tfresh m hm v hv
      constructor
      · rintro ⟨m', hm', hv'⟩
        exact hL ⟨m', mem_of_mem_eraseIdx' hm', hv'⟩
      · rintro ⟨m', hm', t, ht, hvt⟩
        exact hR ⟨m', mem_of_mem_eraseIdx' hm', t, ht, hvt⟩
    · rw [List.mem_singleton.mp hm] at hv
      constructor
      · rintro ⟨m', hm', hv'⟩
        obtain ⟨k, hk⟩ := List.get?_of_mem hm'
        rw [eraseIdx_get?] at hk
        by_cases hki : k < i
        · rw [if_pos hki] at hk
          exact hselA k m' hk (by omega) v hv hv'
        · rw [if_neg hki] at hk
          exact hselA (k + 1) m' hk (by omega) v hv hv'
      · rintro ⟨m', hm', t, ht, hvt⟩
        obtain ⟨q, hq⟩ := List.get?_of_mem (mem_of_mem_eraseIdx' hm')
        exact hselB q m' hq t ht v hv hvt
  · intro k m hk t ht v hv
    rw [get?_append_singleton] at hk
    by_cases hkl : k < T.length
    · rw [if_pos hkl] at hk
      rcases hinv.topo k m hk t ht v hv with ⟨j, m', hkj, hj, hv'⟩ | hL
      · refine .inl ⟨j, m', hkj, ?_, hv'⟩
        obtain ⟨hjl, -⟩ := List.get?_eq_some.mp hj
        rw [get?_append_singleton, if_pos hjl]
        exact hj
      · obtain ⟨m', hm', hv'⟩ := hL
        obtain ⟨q, hq⟩ := List.get?_of_mem hm'
        by_cases hqi : q = i
        · rw [hqi, hgeti] at hq
          have hms : sel = m' := by injection hq
          refine .inl ⟨T.length, sel, hkl, ?_, ?_⟩
          · rw [get?_append_singleton, if_neg (by omega), if_pos rfl]
          · rw [hms]
            exact hv'
        · exact .inr ⟨m', mem_eraseIdx_of_get? hq hqi, hv'⟩
    · rw [if_neg hkl] at hk
      by_cases hke : k = T.length
      · rw [if_pos hke] at hk
        have hms : sel = m := by injection hk
        rw [← hms, hselt] at ht
        cases ht
      · rw [if_neg hke] at hk
        cases hk

end Unif

namespace Unif

open TypeInf (PyErr dictLookup)

/-- Reducing the selected multiequation with `DEC`, compactifying and
moving the merged selected group to `T` preserves the loop invariant. -/
theorem step_reduce_inv (U T U1 U2 : List Meq) (i j : Nat) (sel moved : Meq)
    (common : Term) (frontier : List Meq)
    (hinv : SInv U T)
    (hgeti : U.get? i = some sel)
    (hselA : ∀ q mq, U.get? q = some mq → q ≠ i → ∀ v ∈ sel.vars, v ∉ mq.vars)
    (hselB : ∀ q mq, U.get? q = some mq → ∀ t ∈ mq.terms, ∀ v ∈ sel.vars,
      v ∉ termVars t)
    (hcommon : ∀ v ∈ termVars common, varCovers sel.terms v)
    (hfront : ∀ m ∈ frontier, frontierSpec sel.terms m)
    (hU1 : U1 = (listModify U i (fun m => { m with terms := [common] })) ++ frontier)
    (hcomp : compactify3 U1 = .ok U2)
    (hgetj : U2.get? j = some moved)
    (hmoved0 : ∃ v0 ∈ sel.vars, v0 ∈ moved.vars) :
    SInv (U2.eraseIdx j) (T ++ [moved]) := by
  have hselmem : sel ∈ U := List.get?_mem hgeti
  obtain ⟨hilt, -⟩ := List.get?_eq_some.mp hgeti
  have hcovNotSel : ∀ v, varCovers sel.terms v → v ∉ sel.vars := by
    rintro v ⟨t, ht, hvt⟩ hvs
    exact hselB i sel hgeti t ht v hvs hvt
  have hcovL : ∀ v, varCovers sel.terms v → inLHS U v := by
    rintro v ⟨t, ht, hvt⟩
    exact hinv.ucov sel hselmem t ht v hvt
  have hcovR : ∀ v, varCovers sel.terms v → inRHS U v := by
    rintro v ⟨t, ht, hvt⟩
    exact ⟨sel, hselmem, t, ht, hvt⟩
  have hU1get_low : ∀ p, p < U.length → U1.get? p
      = (listModify U i (fun m => { m with terms := [common] })).get? p := by
    intro p hp
    rw [hU1]
    exact List.get?_append (by rw [listModify_length]; exact hp)
  have hU1get_hi : ∀ p, U.length ≤ p →
      U1.get? p = frontier.get? (p - U.length) := by
    intro p hp
    rw [hU1, List.get?_append_right (by rw [listModify_length]; exact hp),
      listModify_length]
  have hU1cases : ∀ p mp, U1.get? p = some mp →
      (p = i ∧ mp = { sel with terms := [common] }) ∨
      (p < U.length ∧ p ≠ i ∧ U.get? p = some mp) ∨
      (mp ∈ frontier) := by
    intro p mp hp
    by_cases hpl : p < U.length
    · rw [hU1get_low p hpl, listModify_get?] at hp
      by_cases hpi : p = i
      · rw [if_pos hpi, hpi, hgeti] at hp
        have hp2 : some ({ sel with terms := [common] } : Meq) = some mp := hp
        have hp3 : ({ sel with terms := [common] } : Meq) = mp := by injection hp2
        exact .inl ⟨hpi, hp3.symm⟩
      · rw [if_neg hpi] at hp
        exact .inr (.inl ⟨hpl, hpi, hp⟩)
    · rw [hU1get_hi p (by omega)] at hp
      exact .inr (.inr (List.get?_mem hp))
  have hU1S : ∀ m ∈ U1, (∀ v ∈ m.vars, v ∈ sel.vars) ∨
      (∀ v ∈ m.vars, ¬ v ∈ sel.vars) := by
    intro m hm
    obtain ⟨p, hp⟩ := List.get?_of_mem hm
    rcases hU1cases p m hp with ⟨hpi, hmf⟩ | ⟨hpl, hpi, hpU⟩ | hmfr
    · refine .inl ?_
      rw [hmf]
      intro v hv
      exact hv
    · refine .inr ?_
      intro v hv hvs
      exact hselA p m hpU hpi v hvs hv
    · refine .inr ?_
      intro v hv hvs
      exact hcovNotSel v ((hfront m hmfr).1 v hv) hvs
  have hU1tv : ∀ m ∈ U1, ∀ t ∈ m.terms, ∀ v ∈ termVars t,
      inLHS U v ∧ v ∉ sel.vars := by
    intro m hm t ht v hv
    obtain ⟨p, hp⟩ := List.get?_of_mem hm
    rcases hU1cases p m hp with ⟨hpi, hmf⟩ | ⟨hpl, hpi, hpU⟩ | hmfr
    · rw [hmf] at ht
      have htc : t = common := List.mem_singleton.mp ht
      rw [htc] at hv
      have hcov := hcommon v hv
      exact ⟨hcovL v hcov, hcovNotSel v hcov⟩
    · refine ⟨hinv.ucov m (List.get?_mem hpU) t ht v hv, ?_⟩
      intro hvs
      exact hselB p m hpU t ht v hvs hv
    · have hcov := (hfront m hmfr).2 t ht v hv
      exact ⟨hcovL v hcov, hcovNotSel v hcov⟩
  have hU1v : ∀ m ∈ U1, ∀ v ∈ m.vars, inLHS U v ∨ inRHS U v := by
    intro m hm v hv
    obtain ⟨p, hp⟩ := List.get?_of_mem hm
    rcases hU1cases p m hp with ⟨hpi, hmf⟩ | ⟨hpl, hpi, hpU⟩ | hmfr
    · rw [hmf] at hv
      exact .inl ⟨sel, hselmem, hv⟩
    · exact .inl ⟨m, List.get?_mem hpU, hv⟩
    · exact .inr (hcovR v ((hfront m hmfr).1 v hv))
  have hULinU1 : ∀ v, inLHS U v → ∃ m ∈ U1, v ∈ m.vars := by
    rintro v ⟨m, hm, hv⟩
    obtain ⟨p, hp⟩ := List.get?_of_mem hm
    by_cases hpi : p = i
    · rw [hpi, hgeti] at hp
      have hms : sel = m := by injection hp
      have hgu : U1.get? i = some { sel with terms := [common] } := by
        rw [hU1get_low i hilt, listModify_get?, if_pos rfl, hgeti]
        rfl
      refine ⟨{ sel with terms := [common] }, List.get?_mem hgu, ?_⟩
      show v ∈ sel.vars
      rw [hms]
      exact hv
    · obtain ⟨hpl, -⟩ := List.get?_eq_some.mp hp
      have hgu : U1.get? p = some m := by
        rw [hU1get_low p hpl, listModify_get?, if_neg hpi]
        exact hp
      exact ⟨m, List.get?_mem hgu, hv⟩
  obtain ⟨varSets, hvarsPos, hjnd, hcover, hgroupS, hterms⟩ :=
    compactify3_spec (fun v => v ∈ sel.vars) U1 U2 hcomp hU1S
  have hvarsJ : varSets.get? j = some moved.vars := by
    rw [← hvarsPos j, hgetj]
    rfl
  have hmovedsub : ∀ v ∈ moved.vars, v ∈ sel.vars := by
    obtain ⟨v0, hv0sel, hv0moved⟩ := hmoved0
    rcases hgroupS moved.vars (List.get?_mem hvarsJ) with hall | hnone
    · exact hall
    · exact absurd hv0sel (hnone v0 hv0moved)
  have hU2disj : ∀ p q mp mq, U2.get? p = some mp → U2.get? q = some mq →
      p ≠ q → ∀ v ∈ mp.vars, v ∉ mq.vars := by
    intro p q mp mq hp hq hpq
    have hvp : varSets.get? p = some mp.vars := by
      rw [← hvarsPos p, hp]
      rfl
    have hvq : varSets.get? q = some mq.vars := by
      rw [← hvarsPos q, hq]
      rfl
    exact join_nodup_disjoint varSets hjnd p q mp.vars mq.vars hvp hvq hpq
  have hU2L : ∀ v, (∃ m ∈ U1, v ∈ m.vars) → inLHS U2 v := by
    intro v hU1ex
    obtain ⟨g, hg, hvg⟩ := (hcover v).mpr hU1ex
    obtain ⟨k, hk⟩ := List.get?_of_mem hg
    have h2 : (U2.get? k).map Meq.vars = some g := by
      rw [hvarsPos k]
      exact hk
    cases hU2k : U2.get? k with
    | none => rw [hU2k] at h2; cases h2
    | some m =>
      rw [hU2k] at h2
      have h3 : m.vars = g := by injection h2
      exact ⟨m, List.get?_mem hU2k, h3 ▸ hvg⟩
  have hsat : ∀ p mp, U1.get? p = some mp →
      headIdx (buildVarToMeq varSets 0) mp = some j →
      p = i ∧ mp = { sel with terms := [common] } := by
    intro p mp hp hh
    have hex : ∃ v vt, mp.vars = v :: vt ∧
        dictLookup (buildVarToMeq varSets 0) v = some j := by
      rw [headIdx] at hh
      cases hvars : mp.vars with
      | nil => rw [hvars] at hh; cases hh
      | cons v vt =>
        rw [hvars] at hh
        exact ⟨v, vt, rfl, hh⟩
    obtain ⟨v, vt, hvars, hlook⟩ := hex
    obtain ⟨g, -, hget, hvg⟩ := buildVarToMeq_lookup varSets 0 v j hlook
    rw [Nat.sub_zero] at hget
    have hgm : g = moved.vars := by
      rw [hvarsJ] at hget
      injection hget with h2
      exact h2.symm
    have hvsel : v ∈ sel.vars := hmovedsub v (hgm ▸ hvg)
    have hvmp : v ∈ mp.vars := by
      rw [hvars]
      exact List.mem_cons_self _ _
    rcases hU1cases p mp hp with ⟨hpi, hmf⟩ | ⟨hpl, hpi, hpU⟩ | hmfr
    · exact ⟨hpi, hmf⟩
    · exact absurd hvmp (hselA p mp hpU hpi v hvsel)
    · exact absurd hvsel (hcovNotSel v ((hfront mp hmfr).1 v hvmp))
  have hmovedterms : moved.terms = contrib (buildVarToMeq varSets 0) j U1 :=
    hterms j moved hgetj
  have hmtlen : moved.terms.length ≤ 1 := by
    rw [hmovedterms]
    refine contrib_len_le_one _ _ _ ?_ ?_
    · intro p q mp mq hp hq hhp hhq
      rw [(hsat p mp hp hhp).1, (hsat q mq hq hhq).1]
    · intro m hm hh
      obtain ⟨p, hp⟩ := List.get?_of_mem hm
      rw [(hsat p m hp hh).2]
      exact Nat.le_refl 1
  have hmovedtc : ∀ t ∈ moved.terms, t = common := by
    intro t ht
    rw [hmovedterms] at ht
    obtain ⟨p, m, hp, hh, htm⟩ := contrib_mem _ _ _ t ht
    rw [(hsat p m hp hh).2] at htm
    exact List.mem_singleton.mp htm
  have hU'mem : ∀ m ∈ U2.eraseIdx j, ∃ k, k ≠ j ∧ U2.get? k = some m := by
    intro m hm
    obtain ⟨k, hk⟩ := List.get?_of_mem hm
    rw [eraseIdx_get?] at hk
    by_cases hkj : k < j
    · rw [if_pos hkj] at hk
      exact ⟨k, by omega, hk⟩
    · rw [if_neg hkj] at hk
      exact ⟨k + 1, by omega, hk⟩
  have hU'L : ∀ v, inLHS U2 v → v ∉ moved.vars → inLHS (U2.eraseIdx j) v := by
    rintro v ⟨m, hm, hv⟩ hnm
    obtain ⟨k, hk⟩ := List.get?_of_mem hm
    by_cases hkj : k = j
    · rw [hkj, hgetj] at hk
      have hmm : moved = m := by injection hk
      rw [← hmm] at hv
      exact absurd hv hnm
    · exact ⟨m, mem_eraseIdx_of_get? hk hkj, hv⟩
  have hU2tv : ∀ m ∈ U2, ∀ t ∈ m.terms, ∀ v ∈ termVars t,
      inLHS U v ∧ v ∉ sel.vars := by
    intro m hm t ht v hv
    obtain ⟨k, hk⟩ := List.get?_of_mem hm
    have hmt := hterms k m hk
    rw [hmt] at ht
    obtain ⟨p, m', hp, -, htm'⟩ := contrib_mem _ _ _ t ht
    exact hU1tv m' (List.get?_mem hp) t htm' v hv
  have hLtoU' : ∀ v, inLHS U v → v ∉ sel.vars → inLHS (U2.eraseIdx j) v := by
    intro v hL hns
    refine hU'L v (hU2L v (hULinU1 v hL)) ?_
    intro hm
    exact hns (hmovedsub v hm)
  refine ⟨?_, ?_, ?_, ?_, ?_, ?_⟩
  · intro p q mp mq hp hq hpq v hv
    rw [eraseIdx_get?] at hp hq
    by_cases hpi : p < j <;> by_cases hqi : q < j
    · rw [if_pos hpi] at hp; rw [if_pos hqi] at hq
      exact hU2disj p q mp mq hp hq hpq v hv
    · rw [if_pos hpi] at hp; rw [if_neg hqi] at hq
      exact hU2disj p (q + 1) mp mq hp hq (by omega) v hv
    · rw [if_neg hpi] at hp; rw [if_pos hqi] at hq
      exact hU2disj (p + 1) q mp mq hp hq (by omega) v hv
    · rw [if_neg hpi] at hp; rw [if_neg hqi] at hq
      exact hU2disj (p + 1) (q + 1) mp mq hp hq (by omega) v hv
  · intro m hm t ht v hv
    obtain ⟨hL, hns⟩ := hU2tv m (mem_of_mem_eraseIdx' hm) t ht v hv
    exact hLtoU' v hL hns
  · intro m hm
    rcases List.mem_append.mp hm with hm | hm
    · exact hinv.tlen m hm
    · rw [List.mem_singleton.mp hm]
      exact hmtlen
  · intro p q mp mq hp hq hpq v hvp hvq
    rw [get?_append_singleton] at hp hq
    by_cases hpl : p < T.length <;> by_cases hql : q < T.length
    · rw [if_pos hpl] at hp; rw [if_pos hql] at hq
      exact hinv.tdisj p q mp mq hp hq hpq v hvp hvq
    · rw [if_pos hpl] at hp; rw [if_neg hql] at hq
      by_cases hqe : q = T.length
      · rw [if_pos hqe] at hq
        have hmq : moved = mq := by injection hq
        have hfr := hinv.tfresh mp (List.get?_mem hp) v hvp
        rw [← hmq] at hvq
        exact hfr.1 ⟨sel, hselmem, hmovedsub v hvq⟩
      · rw [if_neg hqe] at hq; cases hq
    · rw [if_neg hpl] at hp; rw [if_pos hql] at hq
      by_cases hpe : p = T.length
      · rw [if_pos hpe] at hp
        have hmp : moved = mp := by injection hp
        have hfr := hinv.tfresh mq (List.get?_mem hq) v hvq
        rw [← hmp] at hvp
        exact hfr.1 ⟨sel, hselmem, hmovedsub v hvp⟩
      · rw [if_neg hpe] at hp; cases hp
    · by_cases hpe : p = T.length <;> by_cases hqe : q = T.length
      · exact absurd (hpe.trans hqe.symm) hpq
      · rw [if_neg hql, if_neg hqe] at hq; cases hq
      · rw [if_neg hpl, if_neg hpe] at hp; cases hp
      · rw [if_neg hpl, if_neg hpe] at hp; cases hp
  · intro m hm v hv
    rcases List.mem_append.mp hm with hm | hm
    · obtain ⟨hL, hR⟩ := hinv.tfresh m hm v hv
      constructor
      · rintro ⟨m', hm', hv'⟩
        have hmU2 : m' ∈ U2 := mem_of_mem_eraseIdx' hm'
        obtain ⟨k, hk⟩ := List.get?_of_mem hmU2
        have hvk : varSets.get? k = some m'.vars := by
          rw [← hvarsPos k, hk]
          rfl
        have hU1ex : ∃ mU1 ∈ U1, v ∈ mU1.vars :=
          (hcover v).mp ⟨m'.vars, List.get?_mem hvk, hv'⟩
        obtain ⟨mU1, hmU1, hvU1⟩ := hU1ex
        rcases hU1v mU1 hmU1 v hvU1 with h | h
        · exact hL h
        · exact hR h
      · rintro ⟨m', hm', t, ht, hvt⟩
        obtain ⟨hLv, -⟩ := hU2tv m' (mem_of_mem_eraseIdx' hm') t ht v hvt
        exact hL hLv
    · rw [List.mem_singleton.mp hm] at hv
      constructor
      · rintro ⟨m', hm', hv'⟩
        obtain ⟨k, hkj, hk⟩ := hU'mem m' hm'
        exact hU2disj k j m' moved hk hgetj hkj v hv' hv
      · rintro ⟨m', hm', t, ht, hvt⟩
        obtain ⟨-, hns⟩ := hU2tv m' (mem_of_mem_eraseIdx' hm') t ht v hvt
        exact hns (hmovedsub v hv)
  · intro k m hk t ht v hv
    rw [get?_append_singleton] at hk
    by_cases hkl : k < T.length
    · rw [if_pos hkl] at hk
      rcases hinv.topo k m hk t ht v hv with ⟨j', m', hkj, hj, hv'⟩ | hL
      · refine .inl ⟨j', m', hkj, ?_, hv'⟩
        obtain ⟨hjl, -⟩ := List.get?_eq_some.mp hj
        rw [get?_append_singleton, if_pos hjl]
        exact hj
      · by_cases hvm : v ∈ moved.vars
        · refine .inl ⟨T.length, moved, hkl, ?_, hvm⟩
          rw [get?_append_singleton, if_neg (by omega), if_pos rfl]
        · by_cases hvs : v ∈ sel.vars
          · refine .inr ?_
            obtain ⟨ms, hms, hvms⟩ := hL
            obtain ⟨ps, hps⟩ := List.get?_of_mem hms
            by_cases hpsi : ps = i
            · rw [hpsi, hgeti] at hps
              have hsm : sel = ms := by injection hps
              have hgu : U1.get? i = some { sel with terms := [common] } := by
                rw [hU1get_low i hilt, listModify_get?, if_pos rfl, hgeti]
                rfl
              have hU1ex : ∃ mU1 ∈ U1, v ∈ mU1.vars :=
                ⟨{ sel with terms := [common] }, List.get?_mem hgu, by
                  show v ∈ sel.vars
                  exact hvs⟩
              exact hU'L v (hU2L v hU1ex) hvm
            · exact absurd hvms (hselA ps ms hps hpsi v hvs)
          · exact .inr (hLtoU' v hL hvs)
    · rw [if_neg hkl] at hk
      by_cases hke : k = T.length
      · rw [if_pos hke] at hk
        have hmm : moved = m := by injection hk
        rw [← hmm] at ht
        have htc := hmovedtc t ht
        rw [htc] at hv
        have hcov := hcommon v hv
        exact .inr (hLtoU' v (hcovL v hcov) (hcovNotSel v hcov))
      · rw [if_neg hke] at hk
        cases hk

end Unif

namespace Unif

open TypeInf (PyErr dictLookup)

/-! ### C5, layer 10: the solve loop and the initial system -/

/-- The system built by `unify` satisfies the loop invariant (for inputs
not containing the reserved fresh variable name). -/
theorem mkSystem_inv (terms : List Term)
    (hfresh : ∀ t ∈ terms, "" ∉ termVars t) :
    SInv (mkSystem terms) [] := by
  have hVmem : ∀ v, v ∈ terms.foldl (fun acc t => listUnion acc (termVars t)) []
      ↔ ∃ t ∈ terms, v ∈ termVars t := by
    intro v
    rw [mem_foldl_termVars]
    constructor
    · rintro (h | h)
      · cases h
      · exact h
    · intro h
      exact .inr h
  have hVnd : ∀ (l : List Term) (acc : List String), acc.Nodup →
      (l.foldl (fun a t => listUnion a (termVars t)) acc).Nodup := by
    intro l
    induction l with
    | nil => intro acc h; exact h
    | cons t l ihl =>
      intro acc h
      rw [List.foldl_cons]
      exact ihl _ (listUnion_nodup _ _ h)
  have hVnodup := hVnd terms [] List.nodup_nil
  have hnotV : "" ∉ terms.foldl (fun acc t => listUnion acc (termVars t)) [] := by
    intro h
    obtain ⟨t, ht, hv⟩ := (hVmem "").mp h
    exact hfresh t ht hv
  have hget0 : (mkSystem terms).get? 0 = some ⟨[""], terms⟩ := rfl
  have hgetS : ∀ k, (mkSystem terms).get? (k + 1)
      = ((terms.foldl (fun acc t => listUnion acc (termVars t)) []).get? k).map
        (fun v => (⟨[v], []⟩ : Meq)) := by
    intro k
    show ((terms.foldl (fun acc t => listUnion acc (termVars t)) []).map
      (fun v => (⟨[v], []⟩ : Meq))).get? k = _
    rw [List.get?_map]
  refine ⟨?_, ?_, ?_, ?_, ?_, ?_⟩
  · intro p q mp mq hp hq hpq v hvp hvq
    match p, q with
    | 0, 0 => exact hpq rfl
    | 0, q + 1 =>
      rw [hget0] at hp
      have hmp : (⟨[""], terms⟩ : Meq) = mp := by injection hp
      rw [← hmp] at hvp
      have hv0 : v = "" := List.mem_singleton.mp hvp
      rw [hgetS q] at hq
      cases hVq : (terms.foldl (fun acc t => listUnion acc (termVars t)) []).get? q with
      | none => rw [hVq] at hq; cases hq
      | some w =>
        rw [hVq] at hq
        have hmq : (⟨[w], []⟩ : Meq) = mq := by injection hq
        rw [← hmq] at hvq
        have hvw : v = w := List.mem_singleton.mp hvq
        refine hnotV ?_
        rw [← hv0, hvw]
        exact List.get?_mem hVq
    | p + 1, 0 =>
      rw [hget0] at hq
      have hmq : (⟨[""], terms⟩ : Meq) = mq := by injection hq
      rw [← hmq] at hvq
      have hv0 : v = "" := List.mem_singleton.mp hvq
      rw [hgetS p] at hp
      cases hVp : (terms.foldl (fun acc t => listUnion acc (termVars t)) []).get? p with
      | none => rw [hVp] at hp; cases hp
      | some w =>
        rw [hVp] at hp
        have hmp : (⟨[w], []⟩ : Meq) = mp := by injection hp
        rw [← hmp] at hvp
        have hvw : v = w := List.mem_singleton.mp hvp
        refine hnotV ?_
        rw [← hv0, hvw]
        exact List.get?_mem hVp
    | p + 1, q + 1 =>
      rw [hgetS p] at hp
      rw [hgetS q] at hq
      cases hVp : (terms.foldl (fun acc t => listUnion acc (termVars t)) []).get? p with
      | none => rw [hVp] at hp; cases hp
      | some wp =>
        rw [hVp] at hp
        cases hVq : (terms.foldl (fun acc t => listUnion acc (termVars t)) []).get? q with
        | none => rw [hVq] at hq; cases hq
        | some wq =>
          rw [hVq] at hq
          have hmp : (⟨[wp], []⟩ : Meq) = mp := by injection hp
          have hmq : (⟨[wq], []⟩ : Meq) = mq := by injection hq
          rw [← hmp] at hvp
          rw [← hmq] at hvq
          have hvwp : v = wp := List.mem_singleton.mp hvp
          have hvwq : v = wq := List.mem_singleton.mp hvq
          have hww : wp = wq := by rw [← hvwp, hvwq]
          rw [← hww] at hVq
          obtain ⟨hplt, -⟩ := List.get?_eq_some.mp hVp
          have : p = q := List.get?_inj hplt hVnodup (hVp.trans hVq.symm)
          exact hpq (by rw [this])
  · intro m hm t ht v hv
    rcases List.mem_cons.mp hm with hm | hm
    · rw [hm] at ht
      have hvV : v ∈ terms.foldl (fun acc t => listUnion acc (termVars t)) [] :=
        (hVmem v).mpr ⟨t, ht, hv⟩
      refine ⟨⟨[v], []⟩, ?_, List.mem_singleton.mpr rfl⟩
      exact List.mem_cons_of_mem _ (List.mem_map.mpr ⟨v, hvV, rfl⟩)
    · obtain ⟨w, hw, hwm⟩ := List.mem_map.mp hm
      rw [← hwm] at ht
      cases ht
  · intro m hm; cases hm
  · intro p q mp mq hp _ _ _ _ _
    cases hp
  · intro m hm; cases hm
  · intro k m hk
    cases hk

/-- A finishing iteration only happens on the empty system and returns
`T` unchanged. -/
theorem solveStep3_inr_facts (U T Tf : List Meq)
    (h : solveStep3 U T = .ok (.inr Tf)) : U = [] ∧ Tf = T := by
  rcases solveStep3_ok U T (.inr Tf) h with ⟨hU, hr⟩ | ⟨i, sel, -, -, hcases⟩
  · have : Tf = T := by injection hr
    exact ⟨hU, this⟩
  · rcases hcases with ⟨-, hr⟩ | ⟨c, f, U2, j, mv, -, -, -, -, hr⟩ <;> cases hr

/-- The solved-form conditions hold of any successful run of the
`solve_multiequations` loop from an invariant-satisfying state. -/
theorem solve3_inv : ∀ (n : Nat) (U T Tf : List Meq),
    solve3 n U T = some (.ok Tf) → SInv U T →
    (∀ p q mp mq, Tf.get? p = some mp → Tf.get? q = some mq → p ≠ q →
      ∀ v ∈ mp.vars, v ∉ mq.vars) ∧
    (∀ m ∈ Tf, m.terms.length ≤ 1) ∧
    (∀ i m, Tf.get? i = some m → ∀ t ∈ m.terms, ∀ v ∈ termVars t,
      ∃ j m', i < j ∧ Tf.get? j = some m' ∧ v ∈ m'.vars) := by
  intro n
  induction n with
  | zero => intro U T Tf h _; cases h
  | succ n ih =>
    intro U T Tf h hinv
    have h2 : (match solveStep3 U T with
        | .error e => some (.error e)
        | .ok (.inr T') => some (.ok T')
        | .ok (.inl (U', T')) => solve3 n U' T'
        : Option (Except PyErr (List Meq))) = some (.ok Tf) := h
    cases hstep : solveStep3 U T with
    | error e => rw [hstep] at h2; cases h2
    | ok r =>
      rw [hstep] at h2
      rcases solveStep3_ok U T r hstep with ⟨hU, hr⟩ | ⟨i, sel, hseli, hgeti, hcases⟩
      · rw [hr] at h2
        have h3 : (some (.ok T) : Option (Except PyErr (List Meq)))
            = some (.ok Tf) := h2
        have h4 : (Except.ok T : Except PyErr (List Meq)) = .ok Tf := by
          injection h3
        have hTf : T = Tf := by injection h4
        rw [← hTf]
        subst hU
        refine ⟨hinv.tdisj, hinv.tlen, ?_⟩
        intro k m hk t ht v hv
        rcases hinv.topo k m hk t ht v hv with hgood | ⟨m', hm', -⟩
        · exact hgood
        · cases hm'
      · obtain ⟨sel', hgeti', hA, hB⟩ := selectIdx_spec U i hseli
        have hss : sel' = sel := by
          rw [hgeti'] at hgeti
          injection hgeti
        subst hss
        rcases hcases with ⟨hempty, hr⟩ |
            ⟨common, frontier, U2, j, moved, hdec, hcomp, hgetj, hmoved0, hr⟩
        · rw [hr] at h2
          have h3 : solve3 n (U.eraseIdx i) (T ++ [sel']) = some (.ok Tf) := h2
          exact ih _ _ _ h3 (step_remove_inv U T i sel' hinv hgeti' hA hB hempty)
        · rw [hr] at h2
          have h3 : solve3 n (U2.eraseIdx j) (T ++ [moved]) = some (.ok Tf) := h2
          have hfacts := DECGo_vars (.assertionMsg "clash")
            (termListSize sel'.terms + 1) sel'.terms common frontier hdec
          exact ih _ _ _ h3 (step_reduce_inv U T _ U2 i j sel' moved common frontier
            hinv hgeti' hA hB hfacts.1 (fun m hm => hfacts.2 m hm) rfl hcomp hgetj
            hmoved0)

end Unif

namespace Unif

open TypeInf (PyErr)

/-- C5: solved-form invariants of Algorithm 3.  Whenever
`solve_multiequations` returns normally on the system built by the
`unify` entry point (the initial multiequation for the reserved fresh
variable plus one empty multiequation per variable of the input terms,
which has pairwise-disjoint left-hand variable sets exactly when the
reserved name does not occur in the input), the returned sequence `T`
satisfies: the variable sets of its multiequations are pairwise
disjoint, every multiequation carries at most one right-hand term, and
every variable occurring in a right-hand term of entry `i` occurs in
the left-hand variable set of some later entry `j > i`. -/
theorem c5_solved_form (fuel : Nat) (terms : List Term) (T : List Meq)
    (hfresh : ∀ t ∈ terms, "" ∉ termVars t)
    (h : solve3 fuel (mkSystem terms) [] = some (.ok T)) :
    (∀ p q mp mq, T.get? p = some mp → T.get? q = some mq → p ≠ q →
      ∀ v ∈ mp.vars, v ∉ mq.vars) ∧
    (∀ m ∈ T, m.terms.length ≤ 1) ∧
    (∀ i m, T.get? i = some m → ∀ t ∈ m.terms, ∀ v ∈ termVars t,
      ∃ j m', i < j ∧ T.get? j = some m' ∧ v ∈ m'.vars) :=
  solve3_inv fuel (mkSystem terms) [] T h (mkSystem_inv terms hfresh)

/-- Witness for C5: unifying `x` with `A` succeeds and the returned
system `[{""} = (x), {x} = (A)]` satisfies the three solved-form
conditions. -/
theorem c5_solved_form_witness :
    (∀ t ∈ [Term.var "x", Term.app "A" []], "" ∉ termVars t) ∧
    (solve3 3 (mkSystem [Term.var "x", Term.app "A" []]) []
      = some (.ok [Meq.mk [""] [Term.var "x"], Meq.mk ["x"] [Term.app "A" []]])) ∧
    ((∀ p q mp mq,
      ([Meq.mk [""] [Term.var "x"], Meq.mk ["x"] [Term.app "A" []]] : List Meq).get? p
        = some mp →
      ([Meq.mk [""] [Term.var "x"], Meq.mk ["x"] [Term.app "A" []]] : List Meq).get? q
        = some mq →
      p ≠ q → ∀ v ∈ mp.vars, v ∉ mq.vars) ∧
    (∀ m ∈ ([Meq.mk [""] [Term.var "x"], Meq.mk ["x"] [Term.app "A" []]] : List Meq),
      m.terms.length ≤ 1) ∧
    (∀ i m,
      ([Meq.mk [""] [Term.var "x"], Meq.mk ["x"] [Term.app "A" []]] : List Meq).get? i
        = some m →
      ∀ t ∈ m.terms, ∀ v ∈ termVars t, ∃ j m', i < j ∧
        ([Meq.mk [""] [Term.var "x"], Meq.mk ["x"] [Term.app "A" []]] : List Meq).get? j
          = some m' ∧ v ∈ m'.vars)) :=
  ⟨by decide, rfl,
    c5_solved_form 3 [Term.var "x", Term.app "A" []]
      [Meq.mk [""] [Term.var "x"], Meq.mk ["x"] [Term.app "A" []]]
      (by decide) rfl⟩

end Unif
